import Mathlib

/-!
# Verification of the core of `filtration_domination`

Shallow embedding of the core components of the `filtration_domination`
repository (grade algebra, edge model, adjacency index, stripe index,
non-domination regions, strong/full domination tests, and the removal
driver), together with theorems settling the specification claims.

The Rust code is generic over a value type `VF: Value` (totally ordered,
bounded, with zero). We instantiate it with the concrete bounded total
order `V` below: natural numbers extended with a greatest element `top`,
which plays the role of `VF::max_value()`.

The code's `OneCriticalGrade<VF, N>` is used with `N = 2` throughout
the removal algorithms; we embed that instance, with the `for n in 0..N`
loops unrolled to the two components.
-/

set_option maxHeartbeats 1000000
set_option linter.unnecessarySimpa false

namespace FiltrationDomination

/-! ## Value domain (the `Value` trait instance) -/

/-- A bounded totally ordered value domain: `Nat` plus a top element.
`top` embeds `VF::max_value()`; `fin 0` is `VF::min_value()` and `zero`. -/
inductive V where
  | fin : Nat → V
  | top : V
deriving DecidableEq, Repr

namespace V

/-- Boolean order on `V` (the `Ord` implementation of the value type). -/
def le : V → V → Bool
  | _, .top => true
  | .top, .fin _ => false
  | .fin a, .fin b => a ≤ b

/-- Strict order on `V`. -/
def lt (a b : V) : Bool := !(le b a)

/-- Three-way comparison on `V` (Rust `Ord::cmp`). -/
def cmp : V → V → Ordering
  | .fin a, .fin b => compare a b
  | .fin _, .top => .lt
  | .top, .fin _ => .gt
  | .top, .top => .eq

/-- `std::cmp::max` on values. -/
def max (a b : V) : V := if le a b then b else a

/-- `VF::max_value()`. -/
def maxValue : V := .top

/-- `VF::min_value()`. -/
def minValue : V := .fin 0

/-- Propositional order on `V`, defined independently of the executable
comparison, used to state order-theoretic claims. -/
inductive Le : V → V → Prop where
  | finFin {a b : Nat} : a ≤ b → Le (.fin a) (.fin b)
  | leTop (a : V) : Le a .top

theorem le_iff_Le {a b : V} : le a b = true ↔ Le a b := by
  cases a <;> cases b <;> simp [le] <;>
    first
    | exact ⟨fun h => .finFin h, fun h => by cases h; assumption⟩
    | exact .leTop _
    | intro h; cases h

theorem Le.self (a : V) : Le a a := by
  cases a
  · exact .finFin (Nat.le_refl _)
  · exact .leTop _

theorem Le.trans {a b c : V} (h₁ : Le a b) (h₂ : Le b c) : Le a c := by
  cases h₂
  · cases h₁ with
    | finFin h => exact .finFin (Nat.le_trans h ‹_›)
  · exact .leTop _

theorem Le.antisymm {a b : V} (h₁ : Le a b) (h₂ : Le b a) : a = b := by
  cases h₁ with
  | finFin h => cases h₂ with
    | finFin h' => exact congrArg V.fin (Nat.le_antisymm h h')
  | leTop a => cases h₂ with
    | leTop => rfl

theorem Le.total (a b : V) : Le a b ∨ Le b a := by
  cases a <;> cases b
  · rename_i x y
    rcases Nat.le_total x y with h | h
    · exact Or.inl (.finFin h)
    · exact Or.inr (.finFin h)
  · exact Or.inl (.leTop _)
  · exact Or.inr (.leTop _)
  · exact Or.inl (.leTop _)

theorem le_total (a b : V) : le a b = true ∨ le b a = true := by
  rcases Le.total a b with h | h
  · exact Or.inl (le_iff_Le.mpr h)
  · exact Or.inr (le_iff_Le.mpr h)

theorem le_trans {a b c : V} (h₁ : le a b = true) (h₂ : le b c = true) :
    le a c = true :=
  le_iff_Le.mpr ((le_iff_Le.mp h₁).trans (le_iff_Le.mp h₂))

theorem le_antisymm {a b : V} (h₁ : le a b = true) (h₂ : le b a = true) :
    a = b :=
  (le_iff_Le.mp h₁).antisymm (le_iff_Le.mp h₂)

theorem le_refl (a : V) : le a a = true := le_iff_Le.mpr (Le.self a)

theorem le_of_not_le {a b : V} (h : ¬ le a b = true) : le b a = true := by
  rcases le_total a b with h' | h'
  · exact absurd h' h
  · exact h'

theorem le_max_left (a b : V) : le a (max a b) = true := by
  unfold max
  by_cases h : le a b = true
  · simp [h]
  · simpa [h] using le_refl a

theorem le_max_right (a b : V) : le b (max a b) = true := by
  unfold max
  by_cases h : le a b = true
  · simpa [h] using le_refl b
  · simpa [h] using le_of_not_le h

theorem max_eq_or (a b : V) : max a b = a ∨ max a b = b := by
  unfold max
  by_cases h : le a b = true
  · simp [h]
  · simp [h]

theorem max_comm (a b : V) : max a b = max b a := by
  apply le_antisymm
  · have h1 := le_max_left a b
    have h2 := le_max_right a b
    rcases max_eq_or a b with h | h <;> rw [h]
    · exact le_max_right b a
    · exact le_max_left b a
  · rcases max_eq_or b a with h | h <;> rw [h]
    · exact le_max_right a b
    · exact le_max_left a b

theorem max_top (a : V) : max a .top = .top := by
  cases a <;> rfl

end V

/-! ## Grade algebra (`OneCriticalGrade<VF, 2>`) -/

/-- A 2-parameter critical grade: a pair of values. -/
abbrev Grade := V × V

namespace Grade

/-- `CriticalGrade::join`: componentwise maximum (the `for n in 0..N`
loop of the source, unrolled for `N = 2`). -/
def join (a b : Grade) : Grade := (V.max a.1 b.1, V.max a.2 b.2)

/-- `CriticalGrade::lte` (the source loops over components and returns
false on the first component where `self[n] > other[n]`). -/
def lte (a b : Grade) : Bool := V.le a.1 b.1 && V.le a.2 b.2

/-- `CriticalGrade::max_value()`. -/
def maxValue : Grade := (.top, .top)

/-- Derived `Ord` on `OneCriticalGrade`: lexicographic on the components. -/
def cmpLex (a b : Grade) : Ordering := (V.cmp a.1 b.1).then (V.cmp a.2 b.2)

theorem join_comm (a b : Grade) : join a b = join b a := by
  unfold join
  rw [V.max_comm a.1, V.max_comm a.2]

end Grade

/-- **C9.** `join` is the componentwise maximum (each component of the join
is an upper bound of the two components and is one of them), `lte` is the
product order induced by the value order, and the sentinel `max_value` is
absorbing under `join`. -/
theorem c9_grade_algebra (a b : Grade) :
    (V.Le a.1 (Grade.join a b).1 ∧ V.Le b.1 (Grade.join a b).1 ∧
      ((Grade.join a b).1 = a.1 ∨ (Grade.join a b).1 = b.1)) ∧
    (V.Le a.2 (Grade.join a b).2 ∧ V.Le b.2 (Grade.join a b).2 ∧
      ((Grade.join a b).2 = a.2 ∨ (Grade.join a b).2 = b.2)) ∧
    (Grade.lte a b = true ↔ V.Le a.1 b.1 ∧ V.Le a.2 b.2) ∧
    Grade.join a Grade.maxValue = Grade.maxValue := by
  refine ⟨⟨?_, ?_, ?_⟩, ⟨?_, ?_, ?_⟩, ?_, ?_⟩
  · exact V.le_iff_Le.mp (V.le_max_left a.1 b.1)
  · exact V.le_iff_Le.mp (V.le_max_right a.1 b.1)
  · rcases V.max_eq_or a.1 b.1 with h | h <;> [exact Or.inl h; exact Or.inr h]
  · exact V.le_iff_Le.mp (V.le_max_left a.2 b.2)
  · exact V.le_iff_Le.mp (V.le_max_right a.2 b.2)
  · rcases V.max_eq_or a.2 b.2 with h | h <;> [exact Or.inl h; exact Or.inr h]
  · simp [Grade.lte, V.le_iff_Le]
  · show (V.max a.1 .top, V.max a.2 .top) = (V.top, V.top)
    rw [V.max_top, V.max_top]

/-! ## Edge model (`BareEdge`, `FilteredEdge`, `EdgeList`) -/

/-- `BareEdge(u, v)`: an edge stored as an ordered pair of endpoints;
equality, hashing and ordering go through the unordered `minmax` view. -/
structure BareEdge where
  u : Nat
  v : Nat
deriving DecidableEq, Repr

namespace BareEdge

/-- `Edge::minmax`: `(min endpoint, max endpoint)`. -/
def minmax (e : BareEdge) : Nat × Nat := (Nat.min e.u e.v, Nat.max e.u e.v)

/-- Derived `Ord for BareEdge`: lexicographic on `minmax`. -/
def cmp (a b : BareEdge) : Ordering :=
  (compare a.minmax.1 b.minmax.1).then (compare a.minmax.2 b.minmax.2)

/-- `PartialEq for BareEdge`: equality of the unordered endpoint pairs. -/
def beq (a b : BareEdge) : Bool := a.minmax = b.minmax

end BareEdge

/-- `FilteredEdge<OneCriticalGrade<VF, 2>>`: an edge with its critical grade. -/
structure FilteredEdge where
  grade : Grade
  edge : BareEdge
deriving DecidableEq, Repr

namespace FilteredEdge

/-- `Ord for FilteredEdge`: lexicographically compare the grades,
resolve ties by comparing edges. -/
def cmp (a b : FilteredEdge) : Ordering :=
  (Grade.cmpLex a.grade b.grade).then (BareEdge.cmp a.edge b.edge)

/-- `PartialEq for FilteredEdge` (derived): equal grades and equal edges,
where `BareEdge` equality is on the unordered pair. -/
def beq (a b : FilteredEdge) : Bool := a.grade = b.grade && a.edge.beq b.edge

end FilteredEdge

/-- `EdgeList<E>`: a number of vertices together with a list of edges. -/
structure EdgeList where
  nVertices : Nat
  edges : List FilteredEdge
deriving DecidableEq, Repr

/-- `EdgeList::count_vertices`: `1 +` the maximum endpoint (0 when empty). -/
def countVertices (edges : List FilteredEdge) : Nat :=
  edges.foldl (fun n e => Nat.max n (Nat.max e.edge.u e.edge.v + 1)) 0

/-- `From<Vec<E>> for EdgeList<E>`: deduce `n_vertices` from the edges. -/
def EdgeList.ofVec (edges : List FilteredEdge) : EdgeList :=
  ⟨countVertices edges, edges⟩

/-! ## Adjacency index (`AdjacencyMatrix`)

Each per-vertex neighbour map is a `LiteMap<usize, G>`, i.e. an
association vector kept sorted by key with overwriting insertion; we
embed it as a sorted association list `Row`. -/

/-- One per-vertex map `neighbour ↦ edge grade` (a `LiteMap<usize, G>`). -/
abbrev Row := List (Nat × Grade)

namespace Row

/-- `LiteMap::insert`: keep the vector sorted by key, overwrite on
an existing key. -/
def insert (k : Nat) (g : Grade) : Row → Row
  | [] => [(k, g)]
  | (k', g') :: r =>
    if k < k' then (k, g) :: (k', g') :: r
    else if k = k' then (k, g) :: r
    else (k', g') :: insert k g r

/-- `LiteMap::remove`: delete the entry with the given key, if present. -/
def remove (k : Nat) : Row → Row
  | [] => []
  | (k', g') :: r => if k = k' then r else (k', g') :: remove k r

/-- `LiteMap::get`: the grade stored under a key. -/
def lookup (k : Nat) : Row → Option Grade
  | [] => none
  | (k', g') :: r => if k = k' then some g' else lookup k r

theorem lookup_insert (k k' : Nat) (g : Grade) (r : Row) :
    lookup k' (insert k g r) = if k' = k then some g else lookup k' r := by
  induction r with
  | nil =>
    by_cases h : k' = k <;> simp [insert, lookup, h]
  | cons p r ih =>
    obtain ⟨k₀, g₀⟩ := p
    unfold insert
    by_cases h1 : k < k₀
    · rw [if_pos h1]
      by_cases h : k' = k
      · simp [lookup, h]
      · simp [lookup, h]
    · rw [if_neg h1]
      by_cases h2 : k = k₀
      · subst h2
        rw [if_pos rfl]
        by_cases h : k' = k <;> simp [lookup, h]
      · rw [if_neg h2]
        by_cases h0 : k' = k₀
        · have hk : k' ≠ k := by omega
          have hk2 : ¬ k₀ = k := by omega
          simp [lookup, h0, hk, hk2]
        · simp only [lookup, if_neg h0]
          exact ih

/-- Well-formedness of a `LiteMap` row: strictly sorted by key
(hence keys are unique). -/
def Wf (r : Row) : Prop := List.Pairwise (fun p q => p.1 < q.1) r

instance (r : Row) : Decidable (Wf r) := by unfold Wf; infer_instance

theorem lookup_eq_none_of_not_mem {k : Nat} {r : Row}
    (h : ∀ p ∈ r, p.1 ≠ k) : lookup k r = none := by
  induction r with
  | nil => rfl
  | cons p r ih =>
    have hk : k ≠ p.1 := fun hkk => (h p (by simp)) hkk.symm
    simp only [lookup]
    rw [if_neg hk]
    exact ih fun q hq => h q (by simp [hq])

theorem lookup_remove {k k' : Nat} {r : Row} (hwf : Wf r) :
    lookup k' (remove k r) = if k' = k then none else lookup k' r := by
  induction r with
  | nil => by_cases h : k' = k <;> simp [remove, lookup, h]
  | cons p r ih =>
    obtain ⟨k₀, g₀⟩ := p
    have hwf' : Wf r := hwf.sublist (List.sublist_cons_self _ _)
    unfold remove
    by_cases h2 : k = k₀
    · subst h2
      simp only [if_pos rfl]
      by_cases h : k' = k
      · subst h
        rw [if_pos rfl]
        exact lookup_eq_none_of_not_mem fun q hq =>
          Nat.ne_of_gt (List.rel_of_pairwise_cons hwf hq)
      · simp [lookup, h]
    · rw [if_neg h2]
      by_cases h0 : k' = k₀
      · have hk : k' ≠ k := by omega
        have hk2 : ¬ k₀ = k := by omega
        simp [lookup, h0, hk, hk2]
      · simp only [lookup, if_neg h0]
        exact ih hwf'

theorem mem_insert {k : Nat} {g : Grade} {r : Row} {q : Nat × Grade}
    (h : q ∈ insert k g r) : q = (k, g) ∨ q ∈ r := by
  induction r with
  | nil => simpa [insert] using h
  | cons p r ih =>
    obtain ⟨k₀, g₀⟩ := p
    unfold insert at h
    by_cases h1 : k < k₀
    · rw [if_pos h1, List.mem_cons] at h
      rcases h with h | h
      · exact Or.inl h
      · exact Or.inr h
    · rw [if_neg h1] at h
      by_cases h2 : k = k₀
      · rw [if_pos h2, List.mem_cons] at h
        rcases h with h | h
        · exact Or.inl h
        · exact Or.inr (List.mem_cons_of_mem _ h)
      · rw [if_neg h2, List.mem_cons] at h
        rcases h with h | h
        · exact Or.inr (by simp [h])
        · rcases ih h with h' | h'
          · exact Or.inl h'
          · exact Or.inr (List.mem_cons_of_mem _ h')

theorem mem_remove {k : Nat} {r : Row} {q : Nat × Grade}
    (h : q ∈ remove k r) : q ∈ r := by
  induction r with
  | nil => simpa [remove] using h
  | cons p r ih =>
    obtain ⟨k₀, g₀⟩ := p
    unfold remove at h
    by_cases h2 : k = k₀
    · rw [if_pos h2] at h
      exact List.mem_cons_of_mem _ h
    · rw [if_neg h2, List.mem_cons] at h
      rcases h with h | h
      · simp [h]
      · exact List.mem_cons_of_mem _ (ih h)

theorem wf_insert {k : Nat} {g : Grade} {r : Row} (hwf : Wf r) :
    Wf (insert k g r) := by
  induction r with
  | nil => simp [insert, Wf]
  | cons p r ih =>
    obtain ⟨k₀, g₀⟩ := p
    have hwf' : Wf r := hwf.sublist (List.sublist_cons_self _ _)
    unfold insert
    by_cases h1 : k < k₀
    · rw [if_pos h1]
      refine List.Pairwise.cons ?_ hwf
      intro q hq
      rw [List.mem_cons] at hq
      rcases hq with hq | hq
      · simpa [hq] using h1
      · exact Nat.lt_trans h1 (List.rel_of_pairwise_cons hwf hq)
    · rw [if_neg h1]
      by_cases h2 : k = k₀
      · subst h2
        rw [if_pos rfl]
        exact List.Pairwise.cons (fun q hq => List.rel_of_pairwise_cons hwf hq)
          hwf'
      · rw [if_neg h2]
        refine List.Pairwise.cons ?_ (ih hwf')
        intro q hq
        have hmem := mem_insert hq
        rcases hmem with hq' | hq'
        · subst hq'; omega
        · exact List.rel_of_pairwise_cons hwf hq'

theorem wf_remove {k : Nat} {r : Row} (hwf : Wf r) : Wf (remove k r) := by
  induction r with
  | nil => simp [remove, Wf]
  | cons p r ih =>
    obtain ⟨k₀, g₀⟩ := p
    have hwf' : Wf r := hwf.sublist (List.sublist_cons_self _ _)
    unfold remove
    by_cases h2 : k = k₀
    · simpa [h2] using hwf'
    · rw [if_neg h2]
      refine List.Pairwise.cons ?_ (ih hwf')
      intro q hq
      exact List.rel_of_pairwise_cons hwf (mem_remove hq)

end Row

/-- `AdjacencyMatrix<G>`: one row (a `LiteMap`) per vertex. -/
structure AdjacencyMatrix where
  matrix : List Row
deriving DecidableEq, Repr

namespace AdjacencyMatrix

/-- `AdjacencyMatrix::new(n_vertices)`: `n` empty rows. -/
def new (nVertices : Nat) : AdjacencyMatrix := ⟨List.replicate nVertices []⟩

/-- The row of a vertex (`self.matrix[u]`). -/
def row (A : AdjacencyMatrix) (u : Nat) : Row := A.matrix.getD u []

/-- `AdjacencyMatrix::add_edge`: insert the grade under both endpoints
(`self.matrix[u].insert(v, g); self.matrix[v].insert(u, g)`). -/
def addEdge (A : AdjacencyMatrix) (e : FilteredEdge) : AdjacencyMatrix :=
  let m1 := A.matrix.set e.edge.u
    (Row.insert e.edge.v e.grade (A.matrix.getD e.edge.u []))
  ⟨m1.set e.edge.v (Row.insert e.edge.u e.grade (m1.getD e.edge.v []))⟩

/-- `AdjacencyMatrix::delete_edge`: remove both sides; removing a missing
edge is a no-op. -/
def deleteEdge (A : AdjacencyMatrix) (e : FilteredEdge) : AdjacencyMatrix :=
  let m1 := A.matrix.set e.edge.u (Row.remove e.edge.v (A.matrix.getD e.edge.u []))
  ⟨m1.set e.edge.v (Row.remove e.edge.u (m1.getD e.edge.v []))⟩

/-- The grade stored for neighbour `v` in the row of `u`. -/
def lookup (A : AdjacencyMatrix) (u v : Nat) : Option Grade :=
  Row.lookup v (A.row u)

theorem row_new (nVertices u : Nat) : (new nVertices).row u = [] := by
  unfold new row
  rcases Nat.lt_or_ge u nVertices with h | h
  · rw [List.getD_eq_getElem _ _ (by simpa using h)]
    simp
  · rw [List.getD_eq_default]
    simpa using h

theorem row_set_getD {m : List Row} {i : Nat} {r : Row} (hi : i < m.length)
    (u : Nat) : (m.set i r).getD u [] = if u = i then r else m.getD u [] := by
  by_cases h : u = i
  · subst h
    rw [List.getD_eq_getElem _ _ (by simpa using hi)]
    simp [List.getElem_set_self]
  · rw [if_neg h]
    rcases Nat.lt_or_ge u m.length with hu | hu
    · rw [List.getD_eq_getElem _ _ (by simpa using hu),
        List.getD_eq_getElem _ _ hu]
      exact List.getElem_set_ne (fun hiu => h hiu.symm) _
    · rw [List.getD_eq_default _ _ (by simpa using hu),
        List.getD_eq_default _ _ hu]

theorem length_addEdge (A : AdjacencyMatrix) (e : FilteredEdge) :
    (A.addEdge e).matrix.length = A.matrix.length := by
  simp [addEdge]

theorem length_deleteEdge (A : AdjacencyMatrix) (e : FilteredEdge) :
    (A.deleteEdge e).matrix.length = A.matrix.length := by
  simp [deleteEdge]

theorem row_addEdge {A : AdjacencyMatrix} {e : FilteredEdge}
    (hu : e.edge.u < A.matrix.length) (hv : e.edge.v < A.matrix.length)
    (huv : e.edge.u ≠ e.edge.v) (x : Nat) :
    (A.addEdge e).row x =
      if x = e.edge.u then Row.insert e.edge.v e.grade (A.row e.edge.u)
      else if x = e.edge.v then Row.insert e.edge.u e.grade (A.row e.edge.v)
      else A.row x := by
  unfold addEdge row
  rw [row_set_getD (by simpa using hv), row_set_getD hu,
    row_set_getD hu]
  by_cases h1 : x = e.edge.u
  · subst h1
    simp [huv]
  · by_cases h2 : x = e.edge.v <;> simp [h1, h2, Ne.symm huv]

theorem row_deleteEdge {A : AdjacencyMatrix} {e : FilteredEdge}
    (hu : e.edge.u < A.matrix.length) (hv : e.edge.v < A.matrix.length)
    (huv : e.edge.u ≠ e.edge.v) (x : Nat) :
    (A.deleteEdge e).row x =
      if x = e.edge.u then Row.remove e.edge.v (A.row e.edge.u)
      else if x = e.edge.v then Row.remove e.edge.u (A.row e.edge.v)
      else A.row x := by
  unfold deleteEdge row
  rw [row_set_getD (by simpa using hv), row_set_getD hu,
    row_set_getD hu]
  by_cases h1 : x = e.edge.u
  · subst h1
    simp [huv]
  · by_cases h2 : x = e.edge.v <;> simp [h1, h2, Ne.symm huv]

end AdjacencyMatrix

/-! ## C8: adjacency symmetry under op sequences -/

/-- A mutation of the adjacency index performed by the removal driver. -/
inductive AdjOp where
  | add (e : FilteredEdge)
  | del (e : FilteredEdge)
deriving DecidableEq, Repr

/-- Apply a sequence of `add_edge`/`delete_edge` operations. -/
def applyOps (A : AdjacencyMatrix) (ops : List AdjOp) : AdjacencyMatrix :=
  ops.foldl (fun A op => match op with
    | .add e => A.addEdge e
    | .del e => A.deleteEdge e) A

/-- Validity of an operation for a matrix with `n` rows: endpoints in
range, and (for insertions) distinct. -/
def AdjOp.Valid (n : Nat) : AdjOp → Prop
  | .add e => e.edge.u ≠ e.edge.v ∧ e.edge.u < n ∧ e.edge.v < n
  | .del e => e.edge.u ≠ e.edge.v ∧ e.edge.u < n ∧ e.edge.v < n

instance (n : Nat) (op : AdjOp) : Decidable (op.Valid n) := by
  cases op <;> simp [AdjOp.Valid] <;> infer_instance

/-- Reference semantics of a sequence of operations on the unordered pair
`{u,v}`: the grade of the last inserted edge `{u,v}` not followed by a
deletion of `{u,v}`. -/
def specLookup (u v : Nat) (ops : List AdjOp) : Option Grade :=
  ops.foldl (fun acc op => match op with
    | .add e =>
      if (e.edge.u = u ∧ e.edge.v = v) ∨ (e.edge.u = v ∧ e.edge.v = u) then
        some e.grade
      else acc
    | .del e =>
      if (e.edge.u = u ∧ e.edge.v = v) ∨ (e.edge.u = v ∧ e.edge.v = u) then
        none
      else acc) none

/-- All rows of the matrix are well-formed `LiteMap`s. -/
def WfMat (A : AdjacencyMatrix) : Prop := ∀ x, Row.Wf (A.row x)

theorem wfMat_new (n : Nat) : WfMat (AdjacencyMatrix.new n) := by
  intro x
  rw [AdjacencyMatrix.row_new]
  exact List.Pairwise.nil

theorem wfMat_addEdge {A : AdjacencyMatrix} {e : FilteredEdge}
    (hu : e.edge.u < A.matrix.length) (hv : e.edge.v < A.matrix.length)
    (huv : e.edge.u ≠ e.edge.v) (hA : WfMat A) : WfMat (A.addEdge e) := by
  intro x
  rw [AdjacencyMatrix.row_addEdge hu hv huv]
  by_cases h1 : x = e.edge.u
  · rw [if_pos h1]
    exact Row.wf_insert (hA e.edge.u)
  · rw [if_neg h1]
    by_cases h2 : x = e.edge.v
    · rw [if_pos h2]
      exact Row.wf_insert (hA e.edge.v)
    · rw [if_neg h2]
      exact hA x

theorem wfMat_deleteEdge {A : AdjacencyMatrix} {e : FilteredEdge}
    (hu : e.edge.u < A.matrix.length) (hv : e.edge.v < A.matrix.length)
    (huv : e.edge.u ≠ e.edge.v) (hA : WfMat A) : WfMat (A.deleteEdge e) := by
  intro x
  rw [AdjacencyMatrix.row_deleteEdge hu hv huv]
  by_cases h1 : x = e.edge.u
  · rw [if_pos h1]
    exact Row.wf_remove (hA e.edge.u)
  · rw [if_neg h1]
    by_cases h2 : x = e.edge.v
    · rw [if_pos h2]
      exact Row.wf_remove (hA e.edge.v)
    · rw [if_neg h2]
      exact hA x

/-- Whether an operation touches the unordered pair `{u,v}`. -/
def matchesPair (e : FilteredEdge) (u v : Nat) : Prop :=
  (e.edge.u = u ∧ e.edge.v = v) ∨ (e.edge.u = v ∧ e.edge.v = u)

instance (e : FilteredEdge) (u v : Nat) : Decidable (matchesPair e u v) := by
  unfold matchesPair; infer_instance

theorem lookup_addEdge {A : AdjacencyMatrix} {e : FilteredEdge}
    (hu : e.edge.u < A.matrix.length) (hv : e.edge.v < A.matrix.length)
    (huv : e.edge.u ≠ e.edge.v) (u v : Nat) :
    (A.addEdge e).lookup u v =
      if matchesPair e u v then some e.grade else A.lookup u v := by
  unfold AdjacencyMatrix.lookup
  rw [AdjacencyMatrix.row_addEdge hu hv huv]
  by_cases h1 : u = e.edge.u
  · rw [if_pos h1, Row.lookup_insert]
    by_cases h2 : v = e.edge.v
    · rw [if_pos h2,
        if_pos (show matchesPair e u v from Or.inl ⟨h1.symm, h2.symm⟩)]
    · have hnm : ¬ matchesPair e u v := by
        intro hm
        rcases hm with ⟨hm1, hm2⟩ | ⟨hm1, hm2⟩
        · exact h2 hm2.symm
        · exact huv (by omega)
      rw [if_neg h2, if_neg hnm, h1]
  · rw [if_neg h1]
    by_cases h2 : u = e.edge.v
    · rw [if_pos h2, Row.lookup_insert]
      by_cases h3 : v = e.edge.u
      · rw [if_pos h3,
          if_pos (show matchesPair e u v from Or.inr ⟨h3.symm, h2.symm⟩)]
      · have hnm : ¬ matchesPair e u v := by
          intro hm
          rcases hm with ⟨hm1, hm2⟩ | ⟨hm1, hm2⟩
          · exact h1 hm1.symm
          · exact h3 hm1.symm
        rw [if_neg h3, if_neg hnm, h2]
    · have hnm : ¬ matchesPair e u v := by
        intro hm
        rcases hm with ⟨hm1, hm2⟩ | ⟨hm1, hm2⟩
        · exact h1 hm1.symm
        · exact h2 hm2.symm
      rw [if_neg h2, if_neg hnm]

theorem lookup_deleteEdge {A : AdjacencyMatrix} {e : FilteredEdge}
    (hu : e.edge.u < A.matrix.length) (hv : e.edge.v < A.matrix.length)
    (huv : e.edge.u ≠ e.edge.v) (hA : WfMat A) (u v : Nat) :
    (A.deleteEdge e).lookup u v =
      if matchesPair e u v then none else A.lookup u v := by
  unfold AdjacencyMatrix.lookup
  rw [AdjacencyMatrix.row_deleteEdge hu hv huv]
  by_cases h1 : u = e.edge.u
  · rw [if_pos h1, Row.lookup_remove (by rw [← h1]; exact hA u)]
    by_cases h2 : v = e.edge.v
    · rw [if_pos h2,
        if_pos (show matchesPair e u v from Or.inl ⟨h1.symm, h2.symm⟩)]
    · have hnm : ¬ matchesPair e u v := by
        intro hm
        rcases hm with ⟨hm1, hm2⟩ | ⟨hm1, hm2⟩
        · exact h2 hm2.symm
        · exact huv (by omega)
      rw [if_neg h2, if_neg hnm, h1]
  · rw [if_neg h1]
    by_cases h2 : u = e.edge.v
    · rw [if_pos h2, Row.lookup_remove (by rw [← h2]; exact hA u)]
      by_cases h3 : v = e.edge.u
      · rw [if_pos h3,
          if_pos (show matchesPair e u v from Or.inr ⟨h3.symm, h2.symm⟩)]
      · have hnm : ¬ matchesPair e u v := by
          intro hm
          rcases hm with ⟨hm1, hm2⟩ | ⟨hm1, hm2⟩
          · exact h1 hm1.symm
          · exact h3 hm1.symm
        rw [if_neg h3, if_neg hnm, h2]
    · have hnm : ¬ matchesPair e u v := by
        intro hm
        rcases hm with ⟨hm1, hm2⟩ | ⟨hm1, hm2⟩
        · exact h1 hm1.symm
        · exact h2 hm2.symm
      rw [if_neg h2, if_neg hnm]

/-- `specLookup` with an explicit starting accumulator. -/
def specLookupFrom (u v : Nat) (init : Option Grade) (ops : List AdjOp) :
    Option Grade :=
  ops.foldl (fun acc op => match op with
    | .add e => if matchesPair e u v then some e.grade else acc
    | .del e => if matchesPair e u v then none else acc) init

theorem specLookup_eq_from (u v : Nat) (ops : List AdjOp) :
    specLookup u v ops = specLookupFrom u v none ops := by
  unfold specLookup specLookupFrom matchesPair
  rfl

theorem applyOps_lookup {n : Nat} (ops : List AdjOp) (A : AdjacencyMatrix)
    (hlen : A.matrix.length = n) (hA : WfMat A)
    (hops : ∀ op ∈ ops, op.Valid n) (u v : Nat) :
    (applyOps A ops).lookup u v = specLookupFrom u v (A.lookup u v) ops := by
  induction ops generalizing A with
  | nil => rfl
  | cons op ops ih =>
    have hop := hops op (by simp)
    cases op with
    | add e =>
      obtain ⟨huv, hu, hv⟩ := hop
      have hu' : e.edge.u < A.matrix.length := by omega
      have hv' : e.edge.v < A.matrix.length := by omega
      have := ih (A.addEdge e)
        (by rw [AdjacencyMatrix.length_addEdge]; exact hlen)
        (wfMat_addEdge hu' hv' huv hA)
        (fun op h => hops op (by simp [h]))
      show (applyOps (A.addEdge e) ops).lookup u v = _
      rw [this, lookup_addEdge hu' hv' huv]
      rfl
    | del e =>
      obtain ⟨huv, hu, hv⟩ := hop
      have hu' : e.edge.u < A.matrix.length := by omega
      have hv' : e.edge.v < A.matrix.length := by omega
      have := ih (A.deleteEdge e)
        (by rw [AdjacencyMatrix.length_deleteEdge]; exact hlen)
        (wfMat_deleteEdge hu' hv' huv hA)
        (fun op h => hops op (by simp [h]))
      show (applyOps (A.deleteEdge e) ops).lookup u v = _
      rw [this, lookup_deleteEdge hu' hv' huv hA]
      rfl

theorem matchesPair_comm (e : FilteredEdge) (u v : Nat) :
    matchesPair e u v ↔ matchesPair e v u := by
  unfold matchesPair
  tauto

theorem specLookupFrom_cons (u v : Nat) (init : Option Grade) (op : AdjOp)
    (ops : List AdjOp) :
    specLookupFrom u v init (op :: ops) =
      specLookupFrom u v (match op with
        | .add e => if matchesPair e u v then some e.grade else init
        | .del e => if matchesPair e u v then none else init) ops := rfl

theorem specLookupFrom_comm (u v : Nat) (init : Option Grade)
    (ops : List AdjOp) :
    specLookupFrom u v init ops = specLookupFrom v u init ops := by
  induction ops generalizing init with
  | nil => rfl
  | cons op ops ih =>
    rw [specLookupFrom_cons, specLookupFrom_cons]
    cases op with
    | add e =>
      show specLookupFrom u v (if matchesPair e u v then some e.grade else init)
          ops =
        specLookupFrom v u (if matchesPair e v u then some e.grade else init)
          ops
      rw [show (if matchesPair e u v then some e.grade else init) =
            (if matchesPair e v u then some e.grade else init) from by
          by_cases h : matchesPair e u v
          · rw [if_pos h, if_pos ((matchesPair_comm e u v).mp h)]
          · rw [if_neg h,
              if_neg (fun h' => h ((matchesPair_comm e u v).mpr h'))]]
      exact ih _
    | del e =>
      show specLookupFrom u v (if matchesPair e u v then none else init) ops =
        specLookupFrom v u (if matchesPair e v u then none else init) ops
      rw [show (if matchesPair e u v then (none : Option Grade) else init) =
            (if matchesPair e v u then none else init) from by
          by_cases h : matchesPair e u v
          · rw [if_pos h, if_pos ((matchesPair_comm e u v).mp h)]
          · rw [if_neg h,
              if_neg (fun h' => h ((matchesPair_comm e u v).mpr h'))]]
      exact ih _

/-- **C8.** After any valid sequence of `add_edge` / `delete_edge`
operations starting from an empty matrix, the adjacency index is
symmetric — `N(u)[v] = N(v)[u]`, so in particular `v ∈ N(u) ⇔ u ∈ N(v)`
and the stored grades agree — and both lookups equal the grade of the
last inserted edge `{u,v}` not followed by a deletion of `{u,v}`
(`specLookup`). -/
theorem c8_adjacency_symmetry (n : Nat) (ops : List AdjOp)
    (hops : ∀ op ∈ ops, op.Valid n) (u v : Nat) :
    (applyOps (AdjacencyMatrix.new n) ops).lookup u v =
      (applyOps (AdjacencyMatrix.new n) ops).lookup v u ∧
    (applyOps (AdjacencyMatrix.new n) ops).lookup u v = specLookup u v ops := by
  have hbase : ∀ a b : Nat, (AdjacencyMatrix.new n).lookup a b = none := by
    intro a b
    unfold AdjacencyMatrix.lookup
    rw [AdjacencyMatrix.row_new]
    rfl
  have h1 := applyOps_lookup (n := n) ops (AdjacencyMatrix.new n)
    (by simp [AdjacencyMatrix.new]) (wfMat_new n) hops u v
  have h2 := applyOps_lookup (n := n) ops (AdjacencyMatrix.new n)
    (by simp [AdjacencyMatrix.new]) (wfMat_new n) hops v u
  rw [hbase u v] at h1
  rw [hbase v u] at h2
  refine ⟨?_, ?_⟩
  · rw [h1, h2, specLookupFrom_comm]
  · rw [h1, specLookup_eq_from]

/-- Witness for C8 at a concrete op sequence: add `{0,1}` at `(1,2)`,
add `{2,1}` at `(3,4)`, re-add `{1,0}` at `(5,6)`, delete `{1,2}`. -/
theorem c8_adjacency_symmetry_witness :
    (∀ op ∈ [AdjOp.add ⟨(V.fin 1, V.fin 2), ⟨0, 1⟩⟩,
        AdjOp.add ⟨(V.fin 3, V.fin 4), ⟨2, 1⟩⟩,
        AdjOp.add ⟨(V.fin 5, V.fin 6), ⟨1, 0⟩⟩,
        AdjOp.del ⟨(V.fin 3, V.fin 4), ⟨1, 2⟩⟩], op.Valid 3) ∧
    ((applyOps (AdjacencyMatrix.new 3)
        [AdjOp.add ⟨(V.fin 1, V.fin 2), ⟨0, 1⟩⟩,
         AdjOp.add ⟨(V.fin 3, V.fin 4), ⟨2, 1⟩⟩,
         AdjOp.add ⟨(V.fin 5, V.fin 6), ⟨1, 0⟩⟩,
         AdjOp.del ⟨(V.fin 3, V.fin 4), ⟨1, 2⟩⟩]).lookup 0 1 =
      (applyOps (AdjacencyMatrix.new 3)
        [AdjOp.add ⟨(V.fin 1, V.fin 2), ⟨0, 1⟩⟩,
         AdjOp.add ⟨(V.fin 3, V.fin 4), ⟨2, 1⟩⟩,
         AdjOp.add ⟨(V.fin 5, V.fin 6), ⟨1, 0⟩⟩,
         AdjOp.del ⟨(V.fin 3, V.fin 4), ⟨1, 2⟩⟩]).lookup 1 0 ∧
      (applyOps (AdjacencyMatrix.new 3)
        [AdjOp.add ⟨(V.fin 1, V.fin 2), ⟨0, 1⟩⟩,
         AdjOp.add ⟨(V.fin 3, V.fin 4), ⟨2, 1⟩⟩,
         AdjOp.add ⟨(V.fin 5, V.fin 6), ⟨1, 0⟩⟩,
         AdjOp.del ⟨(V.fin 3, V.fin 4), ⟨1, 2⟩⟩]).lookup 0 1 =
        specLookup 0 1
          [AdjOp.add ⟨(V.fin 1, V.fin 2), ⟨0, 1⟩⟩,
           AdjOp.add ⟨(V.fin 3, V.fin 4), ⟨2, 1⟩⟩,
           AdjOp.add ⟨(V.fin 5, V.fin 6), ⟨1, 0⟩⟩,
           AdjOp.del ⟨(V.fin 3, V.fin 4), ⟨1, 2⟩⟩]) :=
  ⟨by decide, c8_adjacency_symmetry 3 _ (by decide) 0 1⟩

/-! ## Neighbourhood iterators

`open_neighbours` iterates a row (sorted by vertex); `closed_neighbours`
unions in the vertex itself; `common_neighbours` is the sorted inner
join of the two endpoint rows; `closed_neighbours_edge` adds the two
endpoints. The `sorted_iter` crate's `union` merges two item-sorted
sequences, yielding equal items once; `join` merges two key-sorted maps
on their common keys. -/

/-- Comparison of full items `(vertex, grade)`: the derived tuple order. -/
def pairCmp (a b : Nat × Grade) : Ordering :=
  (compare a.1 b.1).then (Grade.cmpLex a.2 b.2)

/-- `sorted_iter`'s `union` on item-sorted sequences. -/
def unionPairs : List (Nat × Grade) → List (Nat × Grade) → List (Nat × Grade)
  | [], ys => ys
  | x :: xs, [] => x :: xs
  | x :: xs, y :: ys =>
    match pairCmp x y with
    | .lt => x :: unionPairs xs (y :: ys)
    | .eq => x :: unionPairs xs ys
    | .gt => y :: unionPairs (x :: xs) ys
termination_by xs ys => xs.length + ys.length

/-- `sorted_iter`'s `join` on key-sorted maps: inner join on common keys. -/
def joinKey : List (Nat × Grade) → List (Nat × Grade) →
    List (Nat × (Grade × Grade))
  | [], _ => []
  | _ :: _, [] => []
  | x :: xs, y :: ys =>
    if x.1 < y.1 then joinKey xs (y :: ys)
    else if y.1 < x.1 then joinKey (x :: xs) ys
    else (x.1, (x.2, y.2)) :: joinKey xs ys
termination_by xs ys => xs.length + ys.length

namespace AdjacencyMatrix

/-- `open_neighbours(u)`: the row of `u`, sorted by vertex. -/
def openNeighbours (A : AdjacencyMatrix) (u : Nat) : List (Nat × Grade) :=
  A.row u

/-- `closed_neighbours(u, u_value)`: open neighbours united with
`(u, u_value)`. -/
def closedNeighbours (A : AdjacencyMatrix) (u : Nat) (uValue : Grade) :
    List (Nat × Grade) :=
  unionPairs (A.openNeighbours u) [(u, uValue)]

/-- `common_neighbours(e)`: join of the endpoint rows, each common
neighbour paired with the join of its two edge grades. -/
def commonNeighbours (A : AdjacencyMatrix) (e : FilteredEdge) :
    List (Nat × Grade) :=
  (joinKey (A.openNeighbours e.edge.u) (A.openNeighbours e.edge.v)).map
    (fun p => (p.1, Grade.join p.2.1 p.2.2))

/-- `closed_neighbours_edge(e)`: common neighbours at their grades joined
with the edge grade, united with the two endpoints at the edge grade. -/
def closedNeighboursEdge (A : AdjacencyMatrix) (e : FilteredEdge) :
    List (Nat × Grade) :=
  unionPairs
    (unionPairs
      ((A.commonNeighbours e).map (fun p => (p.1, Grade.join p.2 e.grade)))
      [(e.edge.u, e.grade)])
    [(e.edge.v, e.grade)]

end AdjacencyMatrix

/-! ## Strong domination test -/

/-- `is_subset`: grade-aware subset check walking two vertex-sorted
sequences in lock-step (the nested-loop structure of the source, as a
recursion). -/
def isSubset : List (Nat × Grade) → List (Nat × Grade) → Bool
  | [], _ => true
  | _ :: _, [] => false
  | (a, va) :: ls, (b, vb) :: rs =>
    if a < b then false
    else if a = b then
      if Grade.lte vb va then isSubset ls rs else false
    else isSubset ((a, va) :: ls) rs
termination_by ls rs => ls.length + rs.length

/-- `is_strongly_filtration_dominated`: some common neighbour's closed
neighbourhood contains the closed edge neighbourhood. -/
def isStronglyFiltrationDominated (A : AdjacencyMatrix) (e : FilteredEdge) :
    Bool :=
  (A.commonNeighbours e).any fun p =>
    isSubset (A.closedNeighboursEdge e)
      (A.closedNeighbours p.1 (Grade.join p.2 e.grade))

/-! ### Comparison lemmas -/

theorem V.cmp_eq_iff {a b : V} : V.cmp a b = .eq ↔ a = b := by
  cases a <;> cases b <;> simp [V.cmp, Nat.compare_eq_eq]

theorem Grade.cmpLex_eq_iff {a b : Grade} : Grade.cmpLex a b = .eq ↔ a = b := by
  rcases a with ⟨a1, a2⟩
  rcases b with ⟨b1, b2⟩
  unfold Grade.cmpLex
  constructor
  · intro h
    have e1 : V.cmp a1 b1 = .eq := by
      cases h1 : V.cmp a1 b1 <;> rw [h1] at h <;>
        first
        | rfl
        | simp [Ordering.then] at h
    rw [e1] at h
    simp only [Ordering.then] at h
    rw [V.cmp_eq_iff.mp e1, V.cmp_eq_iff.mp h]
  · intro h
    cases h
    show (V.cmp a1 a1).then (V.cmp a2 a2) = .eq
    rw [V.cmp_eq_iff.mpr rfl, V.cmp_eq_iff.mpr rfl]
    rfl

theorem pairCmp_eq_iff {a b : Nat × Grade} : pairCmp a b = .eq ↔ a = b := by
  unfold pairCmp
  constructor
  · intro h
    have e1 : compare a.1 b.1 = .eq := by
      cases h1 : compare a.1 b.1 <;> rw [h1] at h <;>
        first
        | rfl
        | simp [Ordering.then] at h
    rw [e1] at h
    simp only [Ordering.then] at h
    have := Nat.compare_eq_eq.mp e1
    have := Grade.cmpLex_eq_iff.mp h
    rcases a with ⟨a1, a2⟩
    rcases b with ⟨b1, b2⟩
    simp_all
  · intro h
    cases h
    rw [Nat.compare_eq_eq.mpr rfl]
    simp only [Ordering.then]
    exact Grade.cmpLex_eq_iff.mpr rfl

theorem pairCmp_lt_key {a b : Nat × Grade} (h : pairCmp a b = .lt)
    (hne : a.1 ≠ b.1) : a.1 < b.1 := by
  unfold pairCmp at h
  cases h1 : compare a.1 b.1
  · exact Nat.compare_eq_lt.mp h1
  · exact absurd (Nat.compare_eq_eq.mp h1) hne
  · rw [h1] at h
    simp [Ordering.then] at h

theorem pairCmp_gt_key {a b : Nat × Grade} (h : pairCmp a b = .gt)
    (hne : a.1 ≠ b.1) : b.1 < a.1 := by
  unfold pairCmp at h
  cases h1 : compare a.1 b.1
  · rw [h1] at h
    simp [Ordering.then] at h
  · exact absurd (Nat.compare_eq_eq.mp h1) hne
  · exact Nat.compare_eq_gt.mp h1

/-! ### Membership and sortedness of the merges -/

theorem mem_unionPairs {p : Nat × Grade} :
    ∀ {xs ys : List (Nat × Grade)},
      p ∈ unionPairs xs ys ↔ p ∈ xs ∨ p ∈ ys := by
  intro xs ys
  induction xs, ys using unionPairs.induct with
  | case1 ys => simp [unionPairs]
  | case2 x xs => simp [unionPairs]
  | case3 x xs y ys hcmp ih =>
    rw [unionPairs]
    simp only [hcmp, List.mem_cons, ih]
    tauto
  | case4 x xs y ys hcmp ih =>
    rw [unionPairs]
    simp only [hcmp, List.mem_cons, ih]
    have hxy : x = y := pairCmp_eq_iff.mp hcmp
    subst hxy
    tauto
  | case5 x xs y ys hcmp ih =>
    rw [unionPairs]
    simp only [hcmp, List.mem_cons, ih]
    tauto

theorem mem_joinKey {q : Nat × (Grade × Grade)} :
    ∀ {xs ys : List (Nat × Grade)},
      q ∈ joinKey xs ys → (q.1, q.2.1) ∈ xs ∧ (q.1, q.2.2) ∈ ys := by
  intro xs ys h
  induction xs, ys using joinKey.induct with
  | case1 ys => simp [joinKey] at h
  | case2 x xs => simp [joinKey] at h
  | case3 x xs y ys h1 ih =>
    rw [joinKey, if_pos h1] at h
    have := ih h
    exact ⟨List.mem_cons_of_mem _ this.1, this.2⟩
  | case4 x xs y ys h1 h2 ih =>
    rw [joinKey, if_neg h1, if_pos h2] at h
    have := ih h
    exact ⟨this.1, List.mem_cons_of_mem _ this.2⟩
  | case5 x xs y ys h1 h2 ih =>
    rw [joinKey, if_neg h1, if_neg h2] at h
    rw [List.mem_cons] at h
    rcases h with h | h
    · have hk : x.1 = y.1 := by omega
      subst h
      exact ⟨by simp, by simp [hk]⟩
    · have := ih h
      exact ⟨List.mem_cons_of_mem _ this.1, List.mem_cons_of_mem _ this.2⟩

/-- Strictly sorted by key (the iteration contract of the adjacency
iterators). -/
def KeySorted {β : Type} (l : List (Nat × β)) : Prop :=
  List.Pairwise (fun p q => p.1 < q.1) l

theorem keySorted_joinKey {xs ys : List (Nat × Grade)} (hx : KeySorted xs)
    (hy : KeySorted ys) : KeySorted (joinKey xs ys) := by
  induction xs, ys using joinKey.induct with
  | case1 ys => rw [joinKey]; exact List.Pairwise.nil
  | case2 x xs => rw [joinKey]; exact List.Pairwise.nil
  | case3 x xs y ys h1 ih =>
    rw [joinKey, if_pos h1]
    exact ih (hx.sublist (List.sublist_cons_self _ _)) hy
  | case4 x xs y ys h1 h2 ih =>
    rw [joinKey, if_neg h1, if_pos h2]
    exact ih hx (hy.sublist (List.sublist_cons_self _ _))
  | case5 x xs y ys h1 h2 ih =>
    rw [joinKey, if_neg h1, if_neg h2]
    refine List.Pairwise.cons ?_
      (ih (hx.sublist (List.sublist_cons_self _ _))
        (hy.sublist (List.sublist_cons_self _ _)))
    intro q hq
    have := (mem_joinKey hq).1
    exact List.rel_of_pairwise_cons hx this

theorem keySorted_map {β γ : Type} {l : List (Nat × β)}
    (f : Nat × β → γ) (h : KeySorted l) :
    KeySorted (l.map (fun p => (p.1, f p))) := by
  unfold KeySorted at h ⊢
  rw [List.pairwise_map]
  exact h.imp (fun hpq => hpq)

theorem keySorted_unionPairs {xs ys : List (Nat × Grade)} (hx : KeySorted xs)
    (hy : KeySorted ys)
    (hcompat : ∀ p ∈ xs, ∀ q ∈ ys, p.1 = q.1 → p = q) :
    KeySorted (unionPairs xs ys) := by
  induction xs, ys using unionPairs.induct with
  | case1 ys => rw [unionPairs]; exact hy
  | case2 x xs => rw [unionPairs]; exact hx
  | case3 x xs y ys hcmp ih =>
    rw [unionPairs, hcmp]
    refine List.Pairwise.cons ?_
      (ih (hx.sublist (List.sublist_cons_self _ _)) hy
        (fun p hp q hq => hcompat p (List.mem_cons_of_mem _ hp) q hq))
    intro q hq
    rw [mem_unionPairs] at hq
    have hxy : x.1 < y.1 := by
      refine pairCmp_lt_key hcmp fun hk => ?_
      have := hcompat x (by simp) y (by simp) hk
      rw [this, pairCmp_eq_iff.mpr rfl] at hcmp
      cases hcmp
    rcases hq with hq | hq
    · exact List.rel_of_pairwise_cons hx hq
    · rw [List.mem_cons] at hq
      rcases hq with hq | hq
      · rw [hq]; exact hxy
      · exact Nat.lt_trans hxy (List.rel_of_pairwise_cons hy hq)
  | case4 x xs y ys hcmp ih =>
    rw [unionPairs, hcmp]
    have hxy : x = y := pairCmp_eq_iff.mp hcmp
    refine List.Pairwise.cons ?_
      (ih (hx.sublist (List.sublist_cons_self _ _))
        (hy.sublist (List.sublist_cons_self _ _))
        (fun p hp q hq =>
          hcompat p (List.mem_cons_of_mem _ hp) q (List.mem_cons_of_mem _ hq)))
    intro q hq
    rw [mem_unionPairs] at hq
    rcases hq with hq | hq
    · exact List.rel_of_pairwise_cons hx hq
    · rw [hxy]
      exact List.rel_of_pairwise_cons hy hq
  | case5 x xs y ys hcmp ih =>
    rw [unionPairs, hcmp]
    refine List.Pairwise.cons ?_
      (ih hx (hy.sublist (List.sublist_cons_self _ _))
        (fun p hp q hq => hcompat p hp q (List.mem_cons_of_mem _ hq)))
    intro q hq
    rw [mem_unionPairs] at hq
    have hyx : y.1 < x.1 := by
      refine pairCmp_gt_key hcmp fun hk => ?_
      have := hcompat x (by simp) y (by simp) hk
      rw [this, pairCmp_eq_iff.mpr rfl] at hcmp
      cases hcmp
    rcases hq with hq | hq
    · rw [List.mem_cons] at hq
      rcases hq with hq | hq
      · rw [hq]; exact hyx
      · exact Nat.lt_trans hyx (List.rel_of_pairwise_cons hx hq)
    · exact List.rel_of_pairwise_cons hy hq

/-- Rows never contain their own vertex as a key (no self-loops in the
adjacency index). -/
def SelfFree (A : AdjacencyMatrix) : Prop :=
  ∀ x < A.matrix.length, ∀ p ∈ A.row x, p.1 ≠ x

instance (A : AdjacencyMatrix) : Decidable (SelfFree A) := by
  unfold SelfFree
  infer_instance

/-- All rows of the matrix are strictly sorted by key (decidable
formulation quantifying over the row list). -/
def WfRows (A : AdjacencyMatrix) : Prop := ∀ r ∈ A.matrix, Row.Wf r

instance (A : AdjacencyMatrix) : Decidable (WfRows A) := by
  unfold WfRows
  infer_instance

theorem WfRows.rowSorted {A : AdjacencyMatrix} (h : WfRows A) (x : Nat) :
    KeySorted (A.row x) := by
  unfold AdjacencyMatrix.row
  rcases Nat.lt_or_ge x A.matrix.length with hx | hx
  · rw [List.getD_eq_getElem _ _ hx]
    exact h _ (List.getElem_mem hx)
  · rw [List.getD_eq_default _ _ hx]
    exact List.Pairwise.nil

theorem SelfFree.rowFree {A : AdjacencyMatrix} (h : SelfFree A) (x : Nat) :
    ∀ p ∈ A.row x, p.1 ≠ x := by
  rcases Nat.lt_or_ge x A.matrix.length with hx | hx
  · exact h x hx
  · unfold AdjacencyMatrix.row
    rw [List.getD_eq_default _ _ hx]
    intro p hp
    cases hp

theorem mem_commonNeighbours {A : AdjacencyMatrix} {e : FilteredEdge}
    {p : Nat × Grade} (hp : p ∈ A.commonNeighbours e) :
    ∃ g1 g2, (p.1, g1) ∈ A.row e.edge.u ∧ (p.1, g2) ∈ A.row e.edge.v ∧
      p.2 = Grade.join g1 g2 := by
  unfold AdjacencyMatrix.commonNeighbours AdjacencyMatrix.openNeighbours at hp
  rw [List.mem_map] at hp
  obtain ⟨q, hq, hqe⟩ := hp
  have := mem_joinKey hq
  refine ⟨q.2.1, q.2.2, ?_, ?_, ?_⟩
  · rw [← hqe]; exact this.1
  · rw [← hqe]; exact this.2
  · rw [← hqe]

theorem keySorted_commonNeighbours {A : AdjacencyMatrix} {e : FilteredEdge}
    (hA : WfRows A) : KeySorted (A.commonNeighbours e) := by
  unfold AdjacencyMatrix.commonNeighbours AdjacencyMatrix.openNeighbours
  exact keySorted_map _ (keySorted_joinKey (hA.rowSorted _) (hA.rowSorted _))

theorem commonNeighbours_key_ne {A : AdjacencyMatrix} {e : FilteredEdge}
    (hsf : SelfFree A) {p : Nat × Grade} (hp : p ∈ A.commonNeighbours e) :
    p.1 ≠ e.edge.u ∧ p.1 ≠ e.edge.v := by
  obtain ⟨g1, g2, h1, h2, _⟩ := mem_commonNeighbours hp
  exact ⟨hsf.rowFree e.edge.u (p.1, g1) h1, hsf.rowFree e.edge.v (p.1, g2) h2⟩

theorem keySorted_closedNeighbours {A : AdjacencyMatrix} (hA : WfRows A)
    (hsf : SelfFree A) (u : Nat) (g : Grade) :
    KeySorted (A.closedNeighbours u g) := by
  unfold AdjacencyMatrix.closedNeighbours AdjacencyMatrix.openNeighbours
  refine keySorted_unionPairs (hA.rowSorted u) ?_ ?_
  · exact List.pairwise_singleton _ _
  · intro p hp q hq hk
    rw [List.mem_singleton] at hq
    exact absurd (hk.trans (by rw [hq])) (hsf.rowFree u p hp)

theorem keySorted_closedNeighboursEdge {A : AdjacencyMatrix}
    (hA : WfRows A) (hsf : SelfFree A) (e : FilteredEdge) :
    KeySorted (A.closedNeighboursEdge e) := by
  unfold AdjacencyMatrix.closedNeighboursEdge
  have hinner : KeySorted
      ((A.commonNeighbours e).map (fun p => (p.1, Grade.join p.2 e.grade))) :=
    keySorted_map _ (keySorted_commonNeighbours hA)
  have hmid : KeySorted (unionPairs
      ((A.commonNeighbours e).map (fun p => (p.1, Grade.join p.2 e.grade)))
      [(e.edge.u, e.grade)]) := by
    refine keySorted_unionPairs hinner (List.pairwise_singleton _ _) ?_
    intro p hp q hq hk
    rw [List.mem_singleton] at hq
    rw [List.mem_map] at hp
    obtain ⟨p', hp', hpe⟩ := hp
    have := (commonNeighbours_key_ne hsf hp').1
    rw [← hpe] at hk
    exact absurd (hk.trans (by rw [hq])) this
  refine keySorted_unionPairs hmid (List.pairwise_singleton _ _) ?_
  intro p hp q hq hk
  rw [List.mem_singleton] at hq
  rw [mem_unionPairs] at hp
  rcases hp with hp | hp
  · rw [List.mem_map] at hp
    obtain ⟨p', hp', hpe⟩ := hp
    have := (commonNeighbours_key_ne hsf hp').2
    rw [← hpe] at hk
    exact absurd (hk.trans (by rw [hq])) this
  · rw [List.mem_singleton] at hp
    rw [hp, hq]
    rw [hp, hq] at hk
    simp only at hk
    simp [hk]

/-! ### The `is_subset` characterisation -/

theorem isSubset_iff {L R : List (Nat × Grade)} (hL : KeySorted L)
    (hR : KeySorted R) :
    isSubset L R = true ↔
      ∀ p ∈ L, ∃ g, (p.1, g) ∈ R ∧ Grade.lte g p.2 = true := by
  induction L, R using isSubset.induct with
  | case1 R =>
    rw [isSubset]
    simp
  | case2 p ls =>
    rw [isSubset]
    refine iff_of_false (by simp) ?_
    intro hfa
    obtain ⟨g, hg, _⟩ := hfa p (by simp)
    cases hg
  | case3 a va ls b vb rs hab =>
    rw [isSubset, if_pos hab]
    refine iff_of_false (by simp) ?_
    intro hfa
    obtain ⟨g, hg, _⟩ := hfa (a, va) (by simp)
    rw [List.mem_cons] at hg
    rcases hg with hg | hg
    · have : a = b := congrArg Prod.fst hg
      omega
    · have : b < a := List.rel_of_pairwise_cons hR hg
      omega
  | case4 va ls b vb rs hlte hbb ih =>
    rw [isSubset, if_neg hbb, if_pos rfl, if_pos hlte]
    have hL' : KeySorted ls := hL.sublist (List.sublist_cons_self _ _)
    have hR' : KeySorted rs := hR.sublist (List.sublist_cons_self _ _)
    rw [ih hL' hR']
    constructor
    · intro hfa p hp
      rw [List.mem_cons] at hp
      rcases hp with hp | hp
      · refine ⟨vb, by simp [hp], ?_⟩
        rw [hp]
        exact hlte
      · obtain ⟨g, hg, hgl⟩ := hfa p hp
        exact ⟨g, List.mem_cons_of_mem _ hg, hgl⟩
    · intro hfa p hp
      obtain ⟨g, hg, hgl⟩ := hfa p (List.mem_cons_of_mem _ hp)
      rw [List.mem_cons] at hg
      rcases hg with hg | hg
      · have h1 : p.1 = b := congrArg Prod.fst hg
        have h2 : b < p.1 := List.rel_of_pairwise_cons hL hp
        omega
      · exact ⟨g, hg, hgl⟩
  | case5 va ls b vb rs hlte hbb =>
    rw [isSubset, if_neg hbb, if_pos rfl, if_neg hlte]
    refine iff_of_false (by simp) ?_
    intro hfa
    obtain ⟨g, hg, hgl⟩ := hfa (b, va) (by simp)
    rw [List.mem_cons] at hg
    rcases hg with hg | hg
    · have hg1 : g = vb := congrArg Prod.snd hg
      rw [hg1] at hgl
      exact hlte hgl
    · have : b < b := List.rel_of_pairwise_cons hR hg
      omega
  | case6 a va ls b vb rs hab heq ih =>
    rw [isSubset, if_neg hab, if_neg heq]
    have hR' : KeySorted rs := hR.sublist (List.sublist_cons_self _ _)
    rw [ih hL hR']
    constructor
    · intro hfa p hp
      obtain ⟨g, hg, hgl⟩ := hfa p hp
      exact ⟨g, List.mem_cons_of_mem _ hg, hgl⟩
    · intro hfa p hp
      obtain ⟨g, hg, hgl⟩ := hfa p hp
      rw [List.mem_cons] at hg
      rcases hg with hg | hg
      · have h1 : p.1 = b := congrArg Prod.fst hg
        have hba : b < a := by omega
        rw [List.mem_cons] at hp
        rcases hp with hp | hp
        · have : p.1 = a := congrArg Prod.fst hp
          omega
        · have : a < p.1 := List.rel_of_pairwise_cons hL hp
          omega
      · exact ⟨g, hg, hgl⟩

/-- **C2.** The strong test returns true exactly when some common
neighbour `w ≠ u, v` at joined grade `ρ(w)` covers the closed edge
neighbourhood: every `(a, α)` listed by `closed_neighbours_edge(e)` has
a pair `(a, β)` in `closed_neighbours(w, ρ(w) ⊔ ρ(e))` with `β ≤ α`. -/
theorem c2_strong_test_characterisation (A : AdjacencyMatrix)
    (hwf : WfRows A) (hsf : SelfFree A) (e : FilteredEdge) :
    isStronglyFiltrationDominated A e = true ↔
      ∃ p ∈ A.commonNeighbours e, p.1 ≠ e.edge.u ∧ p.1 ≠ e.edge.v ∧
        ∀ q ∈ A.closedNeighboursEdge e,
          ∃ β, (q.1, β) ∈ A.closedNeighbours p.1 (Grade.join p.2 e.grade) ∧
            Grade.lte β q.2 = true := by
  unfold isStronglyFiltrationDominated
  rw [List.any_eq_true]
  constructor
  · rintro ⟨p, hp, hsub⟩
    obtain ⟨hne1, hne2⟩ := commonNeighbours_key_ne hsf hp
    exact ⟨p, hp, hne1, hne2,
      (isSubset_iff (keySorted_closedNeighboursEdge hwf hsf e)
        (keySorted_closedNeighbours hwf hsf p.1 _)).mp hsub⟩
  · rintro ⟨p, hp, _, _, hfa⟩
    exact ⟨p, hp,
      (isSubset_iff (keySorted_closedNeighboursEdge hwf hsf e)
        (keySorted_closedNeighbours hwf hsf p.1 _)).mpr hfa⟩

/-- The adjacency matrix of the `strongly_filtration_dominated_happy_case`
test of the source: a triangle over `{0,1,2}` plus vertex `3`. -/
def strongExampleMatrix : AdjacencyMatrix :=
  applyOps (.new 4)
    [.add ⟨(V.fin 2, V.fin 2), ⟨0, 1⟩⟩,
     .add ⟨(V.fin 1, V.fin 2), ⟨0, 2⟩⟩,
     .add ⟨(V.fin 2, V.fin 1), ⟨1, 2⟩⟩,
     .add ⟨(V.fin 4, V.fin 3), ⟨0, 3⟩⟩,
     .add ⟨(V.fin 3, V.fin 4), ⟨1, 3⟩⟩,
     .add ⟨(V.fin 4, V.fin 4), ⟨3, 2⟩⟩]

/-- Witness for C2: the characterisation instantiated at the source's own
strong-domination test case. -/
theorem c2_strong_test_characterisation_witness :
    isStronglyFiltrationDominated strongExampleMatrix
        ⟨(V.fin 2, V.fin 2), ⟨0, 1⟩⟩ = true ↔
      ∃ p ∈ strongExampleMatrix.commonNeighbours
          ⟨(V.fin 2, V.fin 2), ⟨0, 1⟩⟩,
        p.1 ≠ 0 ∧ p.1 ≠ 1 ∧
        ∀ q ∈ strongExampleMatrix.closedNeighboursEdge
            ⟨(V.fin 2, V.fin 2), ⟨0, 1⟩⟩,
          ∃ β, (q.1, β) ∈ strongExampleMatrix.closedNeighbours p.1
              (Grade.join p.2 (V.fin 2, V.fin 2)) ∧
            Grade.lte β q.2 = true :=
  c2_strong_test_characterisation strongExampleMatrix (by decide) (by decide)
    ⟨(V.fin 2, V.fin 2), ⟨0, 1⟩⟩

/-! ## Stripe index (`Stripes`)

The sweep of `Stripes::new` keeps a `BTreeMap<VF, usize>` multiset of
active stripe values, embedded below as a sorted association list of
counts. `End` delimiters index `self.values[&v]`, which panics when the
value is absent: the embedding returns `none` in that case. -/

/-- A half-open interval `(a, b)`. -/
abbrev Interval := V × V

/-- A vertical or horizontal stripe `((a, b), y₀)`. -/
abbrev Stripe := Interval × V

/-- A start or end event of a stripe (`Delimiter::Start/End`). -/
inductive Delimiter where
  | start : V → V → Delimiter
  | stop : V → V → Delimiter
deriving DecidableEq, Repr

namespace Delimiter

/-- `Delimiter::endpoint`. -/
def endpoint : Delimiter → V
  | .start e _ => e
  | .stop e _ => e

/-- The stripe value carried by the delimiter. -/
def value : Delimiter → V
  | .start _ v => v
  | .stop _ v => v

/-- `Delimiter::to_tuple`: `Start(e,v) ↦ (e,v,true)`, `End(e,v) ↦ (e,v,false)`. -/
def toTuple : Delimiter → V × V × Bool
  | .start e v => (e, v, true)
  | .stop e v => (e, v, false)

/-- Rust `Ord` on `bool`: `false < true`. -/
def cmpBool : Bool → Bool → Ordering
  | false, true => .lt
  | true, false => .gt
  | _, _ => .eq

/-- `Ord for Delimiter`: compare the tuples lexicographically. -/
def cmp (d1 d2 : Delimiter) : Ordering :=
  (V.cmp d1.toTuple.1 d2.toTuple.1).then
    ((V.cmp d1.toTuple.2.1 d2.toTuple.2.1).then
      (cmpBool d1.toTuple.2.2 d2.toTuple.2.2))

/-- Boolean comparator used when sorting the delimiter vector. -/
def leB (d1 d2 : Delimiter) : Bool := (cmp d1 d2).isLE

end Delimiter

/-- The active multiset of stripe values (`BTreeMap<VF, usize>`),
as a sorted association list value ↦ count. -/
abbrev VCounts := List (V × Nat)

namespace VCounts

/-- `*self.values.entry(v).or_insert(0) += 1`. -/
def incr (v : V) : VCounts → VCounts
  | [] => [(v, 1)]
  | (w, c) :: r =>
    if V.le v w then
      if v = w then (w, c + 1) :: r else (v, 1) :: (w, c) :: r
    else (w, c) :: incr v r

/-- Lookup of a count. -/
def get? (v : V) : VCounts → Option Nat
  | [] => none
  | (w, c) :: r => if v = w then some c else get? v r

/-- Remove the entry of a value. -/
def removeKey (v : V) : VCounts → VCounts
  | [] => []
  | (w, c) :: r => if v = w then r else (w, c) :: removeKey v r

/-- Decrement the entry of a value. -/
def decr (v : V) : VCounts → VCounts
  | [] => []
  | (w, c) :: r => if v = w then (w, c - 1) :: r else (w, c) :: decr v r

/-- `ActiveValues::min`: the least active value (first key). -/
def min? : VCounts → Option V
  | [] => none
  | (w, _) :: _ => some w

end VCounts

/-- `ActiveValues::add_delimiter`. A `Start` increments the count of its
value; an `End` looks the value up (`self.values[&v]`, a panic — `none` —
when absent), removes the entry when the count is 1 and decrements it
otherwise. -/
def addDelimiter (av : VCounts) (d : Delimiter) : Option VCounts :=
  match d with
  | .start _ v => some (av.incr v)
  | .stop _ v =>
    match av.get? v with
    | none => none
    | some c => if c = 1 then some (av.removeKey v) else some (av.decr v)

/-- Process a group of delimiters in order. -/
def processGroup (av : VCounts) : List Delimiter → Option VCounts
  | [] => some av
  | d :: ds =>
    match addDelimiter av d with
    | none => none
    | some av' => processGroup av' ds

/-- The sweep loop of `Stripes::new`: process all delimiters sharing the
next endpoint, then record `(endpoint, min active value or VF::max)`. -/
def sweep (av : VCounts) : List Delimiter → Option (List (V × V))
  | [] => some []
  | d :: ds =>
    let grp := ds.takeWhile (fun d' => d'.endpoint = d.endpoint)
    let rest := ds.dropWhile (fun d' => d'.endpoint = d.endpoint)
    match processGroup av (d :: grp) with
    | none => none
    | some av' =>
      match sweep av' rest with
      | none => none
      | some recs =>
        some ((d.endpoint, (av'.min?).getD V.maxValue) :: recs)
termination_by ds => ds.length
decreasing_by
  simp only [List.length_cons]
  exact Nat.lt_succ_of_le (List.dropWhile_sublist _).length_le

/-- The pre-sorted arrangement of a stripe family. -/
structure Stripes where
  arrangedStripes : List (V × V)
deriving DecidableEq, Repr

/-- The sorting relation on delimiters used by `delimiters.sort_unstable()`. -/
def delimLe (d1 d2 : Delimiter) : Prop := Delimiter.leB d1 d2 = true

instance : DecidableRel delimLe := fun d1 d2 => by
  unfold delimLe
  infer_instance

/-- `Stripes::new`: emit two delimiters per stripe, sort them, sweep.
`none` embeds the panic on a malformed (empty or reversed) stripe.
(`sort_unstable` is modelled by insertion sort: the delimiter order is
total and equal delimiters are identical, so any sort produces the same
list.) -/
def Stripes.new (stripes : List Stripe) : Option Stripes :=
  let delimiters := stripes.flatMap fun s =>
    [Delimiter.start s.1.1 s.2, Delimiter.stop s.1.2 s.2]
  match sweep [] (delimiters.insertionSort delimLe) with
  | none => none
  | some arranged => some ⟨arranged⟩

/-- Total wrapper used by the region constructor, whose stripe families
are always well-formed (`a < b`), so the fallback is never reached. -/
def Stripes.newTotal (stripes : List Stripe) : Stripes :=
  (Stripes.new stripes).getD ⟨[]⟩

/-- The binary-search loop of `slice::binary_search_by_key` (`Ok idx` on
a hit, `Err insertion-point` otherwise). -/
def bsLoop (xs : List (V × V)) (key : V) (lo hi : Nat) : Nat ⊕ Nat :=
  if _h : lo < hi then
    let mid := (lo + hi) / 2
    match V.cmp (xs.getD mid (V.fin 0, V.fin 0)).1 key with
    | .lt => bsLoop xs key (mid + 1) hi
    | .gt => bsLoop xs key lo mid
    | .eq => .inl mid
  else .inr lo
termination_by hi - lo
decreasing_by
  · omega
  · omega

/-- `binary_search_by_key(&p.0, |(e, _)| *e)`. -/
def binarySearch (xs : List (V × V)) (key : V) : Nat ⊕ Nat :=
  bsLoop xs key 0 xs.length

/-- `Stripes::contains_point`. -/
def Stripes.containsPoint (s : Stripes) (p : V × V) : Bool :=
  match binarySearch s.arrangedStripes p.1 with
  | .inl pos => V.le ((s.arrangedStripes.getD pos (V.fin 0, V.fin 0)).2) p.2
  | .inr pos =>
    if pos = 0 then false
    else V.le ((s.arrangedStripes.getD (pos - 1) (V.fin 0, V.fin 0)).2) p.2

/-- `Stripes::is_empty`. -/
def Stripes.isEmpty (s : Stripes) : Bool := s.arrangedStripes.isEmpty

/-! ## Non-domination regions -/

/-- `NonDominationRegion`: a vertical and a horizontal stripe family. -/
structure NonDominationRegion where
  verticalStripes : Stripes
  horizontalStripes : Stripes
deriving DecidableEq, Repr

namespace NonDominationRegion

/-- `NonDominationRegion::is_empty`. -/
def isEmpty (r : NonDominationRegion) : Bool :=
  r.verticalStripes.isEmpty && r.horizontalStripes.isEmpty

/-- `NonDominationRegion::contains_point`: query the vertical family at
`(g₀, g₁)` and the horizontal one at `(g₁, g₀)`. -/
def containsPoint (r : NonDominationRegion) (g : Grade) : Bool :=
  r.verticalStripes.containsPoint (g.1, g.2) ||
    r.horizontalStripes.containsPoint (g.2, g.1)

end NonDominationRegion

/-- The merge loop of `calculate_non_domination_region`: walk the closed
edge neighbourhood against the closed neighbourhood of the candidate
dominator, emitting one pair per edge-neighbourhood entry — `(α, α ⊔ β)`
when the dominator reaches the vertex, `(α, G::max)` when it never does. -/
def regionPairs : List (Nat × Grade) → List (Nat × Grade) →
    List (Grade × Grade)
  | [], _ => []
  | (_, va) :: es, [] => (va, Grade.maxValue) :: regionPairs es []
  | (a, va) :: es, (b, vb) :: vs =>
    if a < b then (va, Grade.maxValue) :: regionPairs es ((b, vb) :: vs)
    else if a = b then (va, Grade.join va vb) :: regionPairs es ((b, vb) :: vs)
    else regionPairs ((a, va) :: es) vs
termination_by es vs => es.length + vs.length

/-- `add_pair`, applied to every emitted pair: a vertical stripe
`((p₀,q₀), p₁)` when `p₀ ≠ q₀`, a horizontal stripe `((p₁,q₁), p₀)` when
`p₁ ≠ q₁`. -/
def verticalOf (pairs : List (Grade × Grade)) : List Stripe :=
  pairs.filterMap fun pq =>
    if pq.1.1 ≠ pq.2.1 then some ((pq.1.1, pq.2.1), pq.1.2) else none

def horizontalOf (pairs : List (Grade × Grade)) : List Stripe :=
  pairs.filterMap fun pq =>
    if pq.1.2 ≠ pq.2.2 then some ((pq.1.2, pq.2.2), pq.1.1) else none

/-- `calculate_non_domination_region`. -/
def calculateNonDominationRegion (A : AdjacencyMatrix) (e : FilteredEdge)
    (v : Nat) (valueV : Grade) : NonDominationRegion :=
  let pairs := regionPairs (A.closedNeighboursEdge e)
    (A.closedNeighbours v (Grade.join valueV e.grade))
  ⟨Stripes.newTotal (verticalOf pairs), Stripes.newTotal (horizontalOf pairs)⟩

/-! ## Full domination test -/

/-- `is_filtration_dominated`. The two `BTreeSet`s of the source
(`first_domination_times` and `domination_times`) are embedded as lists
with the same membership; the test only consumes them through
universally quantified iteration, which is insensitive to order and
duplicates. -/
def isFiltrationDominated (A : AdjacencyMatrix) (e : FilteredEdge) : Bool :=
  let cn := A.commonNeighbours e
  let regions := cn.map fun p => calculateNonDominationRegion A e p.1 p.2
  if regions.any (fun r => r.isEmpty) then true
  else
    let firstDominationTimes := e.grade :: cn.map fun p => Grade.join e.grade p.2
    let dominationTimes := firstDominationTimes.flatMap fun t1 =>
      firstDominationTimes.map fun t2 => Grade.join t1 t2
    dominationTimes.all fun t =>
      regions.any fun r => !(r.containsPoint t)

/-! ## C1: characterisation of the full test -/

/-- A first-domination grade of the edge: `ρ(e)`, or `ρ(e) ⊔ ρ(w)` for a
common neighbour `w` (the set `F` of the specification). -/
def FirstDomGrade (A : AdjacencyMatrix) (e : FilteredEdge) (t : Grade) :
    Prop :=
  t = e.grade ∨ ∃ p ∈ A.commonNeighbours e, t = Grade.join e.grade p.2

/-- A test grade: a join of two first-domination grades (the join-closure
`T = { t₁ ⊔ t₂ : t₁, t₂ ∈ F }` of the specification). -/
def IsTestGrade (A : AdjacencyMatrix) (e : FilteredEdge) (t : Grade) : Prop :=
  ∃ t1 t2, FirstDomGrade A e t1 ∧ FirstDomGrade A e t2 ∧
    t = Grade.join t1 t2

theorem mem_F_iff {A : AdjacencyMatrix} {e : FilteredEdge} {t : Grade} :
    t ∈ (e.grade :: (A.commonNeighbours e).map fun p =>
        Grade.join e.grade p.2) ↔
      FirstDomGrade A e t := by
  rw [List.mem_cons, List.mem_map]
  unfold FirstDomGrade
  constructor
  · rintro (h | ⟨p, hp, h⟩)
    · exact Or.inl h
    · exact Or.inr ⟨p, hp, h.symm⟩
  · rintro (h | ⟨p, hp, h⟩)
    · exact Or.inl h
    · exact Or.inr ⟨p, hp, h.symm⟩

/-- **C1.** The full test returns true exactly when either some common
neighbour has an empty non-domination region (the strong shortcut), or
every test grade `t ∈ T = { t₁ ⊔ t₂ : t₁, t₂ ∈ F }`, where
`F = {ρ(e)} ∪ {ρ(e) ⊔ ρ(w)}`, avoids the non-domination region of some
common neighbour. -/
theorem c1_full_test_characterisation (A : AdjacencyMatrix)
    (e : FilteredEdge) :
    isFiltrationDominated A e = true ↔
      ((∃ p ∈ A.commonNeighbours e,
          (calculateNonDominationRegion A e p.1 p.2).isEmpty = true) ∨
        (∀ t : Grade, IsTestGrade A e t →
          ∃ p ∈ A.commonNeighbours e,
            (calculateNonDominationRegion A e p.1 p.2).containsPoint t =
              false)) := by
  unfold isFiltrationDominated
  simp only []
  by_cases hemp : ((A.commonNeighbours e).map fun p =>
      calculateNonDominationRegion A e p.1 p.2).any
        (fun r => r.isEmpty) = true
  · rw [if_pos hemp]
    refine iff_of_true rfl (Or.inl ?_)
    rw [List.any_eq_true] at hemp
    obtain ⟨r, hr, hie⟩ := hemp
    rw [List.mem_map] at hr
    obtain ⟨p, hp, rfl⟩ := hr
    exact ⟨p, hp, hie⟩
  · rw [if_neg hemp]
    have hnotempty : ¬ ∃ p ∈ A.commonNeighbours e,
        (calculateNonDominationRegion A e p.1 p.2).isEmpty = true := by
      rintro ⟨p, hp, hie⟩
      apply hemp
      rw [List.any_eq_true]
      exact ⟨calculateNonDominationRegion A e p.1 p.2,
        List.mem_map_of_mem _ hp, hie⟩
    rw [List.all_eq_true]
    constructor
    · intro hall
      refine Or.inr fun t ht => ?_
      obtain ⟨t1, t2, h1, h2, rfl⟩ := ht
      have htT : Grade.join t1 t2 ∈
          (e.grade :: (A.commonNeighbours e).map fun p =>
            Grade.join e.grade p.2).flatMap fun t1 =>
            (e.grade :: (A.commonNeighbours e).map fun p =>
              Grade.join e.grade p.2).map fun t2 => Grade.join t1 t2 := by
        rw [List.mem_flatMap]
        refine ⟨t1, mem_F_iff.mpr h1, ?_⟩
        rw [List.mem_map]
        exact ⟨t2, mem_F_iff.mpr h2, rfl⟩
      have := hall _ htT
      rw [List.any_eq_true] at this
      obtain ⟨r, hr, hb⟩ := this
      rw [List.mem_map] at hr
      obtain ⟨p, hp, rfl⟩ := hr
      refine ⟨p, hp, ?_⟩
      simpa using hb
    · rintro (h | h)
      · exact absurd h hnotempty
      · intro t ht
        rw [List.mem_flatMap] at ht
        obtain ⟨t1, ht1, ht2⟩ := ht
        rw [List.mem_map] at ht2
        obtain ⟨t2, ht2, rfl⟩ := ht2
        obtain ⟨p, hp, hcp⟩ := h (Grade.join t1 t2)
          ⟨t1, t2, mem_F_iff.mp ht1, mem_F_iff.mp ht2, rfl⟩
        rw [List.any_eq_true]
        refine ⟨calculateNonDominationRegion A e p.1 p.2,
          List.mem_map_of_mem _ hp, ?_⟩
        simpa using hcp

/-! ## Removal driver

`remove_filtration_dominated_timed` and
`remove_strongly_filtration_dominated_timed` are line-for-line identical
apart from the domination test; they are embedded as one driver
parameterised by the mode. Wall-clock time is embedded as an oracle
`timedOut : Nat → Bool` giving the result of `start.elapsed() > max_time`
at the check preceding the `i`-th iteration; the untimed variants
(`max_time = None`) correspond to the constant-false oracle. -/

/-- `EdgeOrder`. -/
inductive EdgeOrder where
  | reverseLexicographic
  | maintain
deriving DecidableEq, Repr

/-- Which of the two removal functions runs. -/
inductive Mode where
  | strong
  | full
deriving DecidableEq, Repr

/-- The comparator of `sort_unstable_by(|a, b| b.cmp(a))`. -/
def FilteredEdge.revLe (a b : FilteredEdge) : Prop :=
  (FilteredEdge.cmp b a).isLE = true

instance : DecidableRel FilteredEdge.revLe := fun a b => by
  unfold FilteredEdge.revLe
  infer_instance

/-- Step 1 of the driver: re-sort in reverse order, or keep the list.
(`sort_unstable` is modelled by insertion sort; the comparison is total
and ties are between `==`-equal edges, so any sort yields an equal-modulo-
`==` list.) -/
def orderEdges : EdgeOrder → List FilteredEdge → List FilteredEdge
  | .reverseLexicographic, l => l.insertionSort FilteredEdge.revLe
  | .maintain, l => l

/-- The domination test selected by the mode. -/
def dominationTest : Mode → AdjacencyMatrix → FilteredEdge → Bool
  | .strong => isStronglyFiltrationDominated
  | .full => isFiltrationDominated

/-- Step 2: build the adjacency matrix holding every edge. -/
def buildMatrix (n : Nat) (edges : List FilteredEdge) : AdjacencyMatrix :=
  edges.foldl (fun A e => A.addEdge e) (AdjacencyMatrix.new n)

/-- Steps 3–4: iterate the edges; on timeout abort (`none`, the caller
returns a clone of the edge list), otherwise delete dominated edges from
the matrix and collect the survivors (`acc` holds them reversed). -/
def processEdges (test : AdjacencyMatrix → FilteredEdge → Bool)
    (timedOut : Nat → Bool) :
    AdjacencyMatrix → Nat → List FilteredEdge → List FilteredEdge →
      Option (List FilteredEdge)
  | _, _, acc, [] => some acc.reverse
  | A, i, acc, e :: rest =>
    if timedOut i then none
    else if test A e then
      processEdges test timedOut (A.deleteEdge e) (i + 1) acc rest
    else processEdges test timedOut A (i + 1) (e :: acc) rest

/-- The timed removal driver (both modes). On timeout it returns the
input edge list as mutated by step 1 (`edge_list.clone()`); otherwise
the survivor list converted `.into()` an edge list. -/
def reduceTimed (mode : Mode) (E : EdgeList) (order : EdgeOrder)
    (timedOut : Nat → Bool) : EdgeList :=
  match processEdges (dominationTest mode) timedOut
      (buildMatrix E.nVertices (orderEdges order E.edges)) 0 []
      (orderEdges order E.edges) with
  | none => ⟨E.nVertices, orderEdges order E.edges⟩
  | some survivors => EdgeList.ofVec survivors

/-- `remove_filtration_dominated_timed`. -/
def removeFiltrationDominatedTimed (E : EdgeList) (order : EdgeOrder)
    (timedOut : Nat → Bool) : EdgeList :=
  reduceTimed .full E order timedOut

/-- `remove_strongly_filtration_dominated_timed`. -/
def removeStronglyFiltrationDominatedTimed (E : EdgeList)
    (order : EdgeOrder) (timedOut : Nat → Bool) : EdgeList :=
  reduceTimed .strong E order timedOut

/-! ## C4: timeout behaviour -/

theorem processEdges_eq_none_iff (test : AdjacencyMatrix → FilteredEdge → Bool)
    (timedOut : Nat → Bool) (A : AdjacencyMatrix) (i : Nat)
    (acc l : List FilteredEdge) :
    processEdges test timedOut A i acc l = none ↔
      ∃ j < l.length, timedOut (i + j) = true := by
  induction l generalizing A i acc with
  | nil => simp [processEdges]
  | cons e rest ih =>
    unfold processEdges
    by_cases ht : timedOut i = true
    · rw [if_pos ht]
      refine iff_of_true rfl ⟨0, by simp, by simpa using ht⟩
    · rw [if_neg ht]
      by_cases htest : test A e = true
      · rw [if_pos htest, ih]
        constructor
        · rintro ⟨j, hj, hto⟩
          exact ⟨j + 1, by simpa using hj, by
            have : i + 1 + j = i + (j + 1) := by omega
            rwa [this] at hto⟩
        · rintro ⟨j, hj, hto⟩
          match j with
          | 0 => exact absurd (by simpa using hto) ht
          | j + 1 =>
            exact ⟨j, by simpa using hj, by
              have : i + 1 + j = i + (j + 1) := by omega
              rwa [this]⟩
      · rw [if_neg htest, ih]
        constructor
        · rintro ⟨j, hj, hto⟩
          exact ⟨j + 1, by simpa using hj, by
            have : i + 1 + j = i + (j + 1) := by omega
            rwa [this] at hto⟩
        · rintro ⟨j, hj, hto⟩
          match j with
          | 0 => exact absurd (by simpa using hto) ht
          | j + 1 =>
            exact ⟨j, by simpa using hj, by
              have : i + 1 + j = i + (j + 1) := by omega
              rwa [this]⟩

theorem length_orderEdges (order : EdgeOrder) (l : List FilteredEdge) :
    (orderEdges order l).length = l.length := by
  cases order
  · exact (List.perm_insertionSort _ l).length_eq
  · rfl

theorem perm_orderEdges (order : EdgeOrder) (l : List FilteredEdge) :
    (orderEdges order l).Perm l := by
  cases order
  · exact List.perm_insertionSort _ l
  · exact List.Perm.refl l

/-- **C4 (amended).** If the budget check fires at some iteration (with
budget 0 it fires at the first one), the driver returns a copy of the
input edge list *after the optional step-1 re-sort*: a permutation of the
input carrying the original `n_vertices`, with no deletion committed and
never a partial survivor list; under `Maintain` order it is the input
itself, byte for byte. -/
theorem c4_timeout_returns_input (mode : Mode) (order : EdgeOrder)
    (E : EdgeList) (timedOut : Nat → Bool)
    (h : ∃ j < E.edges.length, timedOut j = true) :
    reduceTimed mode E order timedOut =
        ⟨E.nVertices, orderEdges order E.edges⟩ ∧
      (orderEdges order E.edges).Perm E.edges ∧
      (order = .maintain → reduceTimed mode E order timedOut = E) := by
  have hnone : processEdges (dominationTest mode) timedOut
      (buildMatrix E.nVertices (orderEdges order E.edges)) 0 []
      (orderEdges order E.edges) = none := by
    rw [processEdges_eq_none_iff]
    obtain ⟨j, hj, hto⟩ := h
    exact ⟨j, by rwa [length_orderEdges], by simpa using hto⟩
  refine ⟨?_, perm_orderEdges order E.edges, ?_⟩
  · unfold reduceTimed
    rw [hnone]
  · intro hm
    subst hm
    unfold reduceTimed
    rw [hnone]
    show ({ nVertices := E.nVertices, edges := E.edges } : EdgeList) = E
    cases E
    rfl

/-- Counterexample to C4 as stated: with `ReverseLexicographic` order and
an immediately-exceeded budget, the returned list is the re-sorted input,
not byte-equivalent to the caller's original list. -/
theorem c4_counterexample :
    reduceTimed .strong
        ⟨2, [⟨(V.fin 1, V.fin 1), ⟨0, 1⟩⟩, ⟨(V.fin 2, V.fin 2), ⟨0, 1⟩⟩]⟩
        .reverseLexicographic (fun _ => true) ≠
      ⟨2, [⟨(V.fin 1, V.fin 1), ⟨0, 1⟩⟩, ⟨(V.fin 2, V.fin 2), ⟨0, 1⟩⟩]⟩ := by
  decide

/-- Witness for the amended C4 at a concrete input (budget exceeded at
iteration 0). -/
theorem c4_timeout_returns_input_witness :
    (∃ j < ([⟨(V.fin 1, V.fin 1), ⟨0, 1⟩⟩,
        ⟨(V.fin 2, V.fin 2), ⟨0, 1⟩⟩] : List FilteredEdge).length,
        (fun _ => true : Nat → Bool) j = true) ∧
      (reduceTimed .strong
          ⟨2, [⟨(V.fin 1, V.fin 1), ⟨0, 1⟩⟩, ⟨(V.fin 2, V.fin 2), ⟨0, 1⟩⟩]⟩
          .reverseLexicographic (fun _ => true) =
        ⟨2, orderEdges .reverseLexicographic
          [⟨(V.fin 1, V.fin 1), ⟨0, 1⟩⟩, ⟨(V.fin 2, V.fin 2), ⟨0, 1⟩⟩]⟩ ∧
      (orderEdges .reverseLexicographic
        [⟨(V.fin 1, V.fin 1), ⟨0, 1⟩⟩,
          ⟨(V.fin 2, V.fin 2), ⟨0, 1⟩⟩]).Perm
        [⟨(V.fin 1, V.fin 1), ⟨0, 1⟩⟩, ⟨(V.fin 2, V.fin 2), ⟨0, 1⟩⟩] ∧
      (EdgeOrder.reverseLexicographic = .maintain →
        reduceTimed .strong
          ⟨2, [⟨(V.fin 1, V.fin 1), ⟨0, 1⟩⟩, ⟨(V.fin 2, V.fin 2), ⟨0, 1⟩⟩]⟩
          .reverseLexicographic (fun _ => true) =
        ⟨2, [⟨(V.fin 1, V.fin 1), ⟨0, 1⟩⟩,
          ⟨(V.fin 2, V.fin 2), ⟨0, 1⟩⟩]⟩)) :=
  ⟨⟨0, by decide, rfl⟩,
    c4_timeout_returns_input .strong .reverseLexicographic
      ⟨2, [⟨(V.fin 1, V.fin 1), ⟨0, 1⟩⟩, ⟨(V.fin 2, V.fin 2), ⟨0, 1⟩⟩]⟩
      (fun _ => true) ⟨0, by decide, rfl⟩⟩

/-! ## C5: survivors are a subsequence of the iteration order -/

theorem processEdges_sublist (test : AdjacencyMatrix → FilteredEdge → Bool)
    (timedOut : Nat → Bool) (hto : ∀ j, timedOut j = false)
    (A : AdjacencyMatrix) (i : Nat) (acc l : List FilteredEdge) :
    ∃ s, processEdges test timedOut A i acc l = some (acc.reverse ++ s) ∧
      s.Sublist l := by
  induction l generalizing A i acc with
  | nil =>
    refine ⟨[], ?_, List.Sublist.refl []⟩
    simp [processEdges]
  | cons e rest ih =>
    unfold processEdges
    rw [if_neg (by simp [hto i])]
    by_cases htest : test A e = true
    · rw [if_pos htest]
      obtain ⟨s, hs, hsub⟩ := ih (A.deleteEdge e) (i + 1) acc
      exact ⟨s, hs, hsub.cons e⟩
    · rw [if_neg htest]
      obtain ⟨s, hs, hsub⟩ := ih A (i + 1) (e :: acc)
      refine ⟨e :: s, ?_, hsub.cons₂ e⟩
      rw [hs]
      simp

/-- **C5.** Without a timeout, the survivors are a subsequence of the
iteration order (the edge list after the optional step-1 re-sort): they
occur in exactly the processed order, and form a sub-multiset of the
input edge list. -/
theorem c5_survivors_subsequence (mode : Mode) (order : EdgeOrder)
    (E : EdgeList) (timedOut : Nat → Bool)
    (hto : ∀ j, timedOut j = false) :
    (reduceTimed mode E order timedOut).edges.Sublist
        (orderEdges order E.edges) ∧
      (reduceTimed mode E order timedOut).edges.Subperm E.edges := by
  obtain ⟨s, hs, hsub⟩ := processEdges_sublist (dominationTest mode) timedOut
    hto (buildMatrix E.nVertices (orderEdges order E.edges)) 0 []
    (orderEdges order E.edges)
  have hred : (reduceTimed mode E order timedOut).edges = s := by
    unfold reduceTimed
    rw [hs]
    rfl
  rw [hred]
  exact ⟨hsub, hsub.subperm.trans (perm_orderEdges order E.edges).subperm⟩

/-- Witness for C5: the strong driver on the triangle at grade `(0,0)`
(scenario S1), with no budget. -/
theorem c5_survivors_subsequence_witness :
    (∀ j, (fun _ => false : Nat → Bool) j = false) ∧
      ((reduceTimed .strong
          ⟨3, [⟨(V.fin 0, V.fin 0), ⟨0, 1⟩⟩, ⟨(V.fin 0, V.fin 0), ⟨0, 2⟩⟩,
            ⟨(V.fin 0, V.fin 0), ⟨1, 2⟩⟩]⟩
          .reverseLexicographic (fun _ => false)).edges.Sublist
        (orderEdges .reverseLexicographic
          [⟨(V.fin 0, V.fin 0), ⟨0, 1⟩⟩, ⟨(V.fin 0, V.fin 0), ⟨0, 2⟩⟩,
            ⟨(V.fin 0, V.fin 0), ⟨1, 2⟩⟩]) ∧
      (reduceTimed .strong
          ⟨3, [⟨(V.fin 0, V.fin 0), ⟨0, 1⟩⟩, ⟨(V.fin 0, V.fin 0), ⟨0, 2⟩⟩,
            ⟨(V.fin 0, V.fin 0), ⟨1, 2⟩⟩]⟩
          .reverseLexicographic (fun _ => false)).edges.Subperm
        [⟨(V.fin 0, V.fin 0), ⟨0, 1⟩⟩, ⟨(V.fin 0, V.fin 0), ⟨0, 2⟩⟩,
          ⟨(V.fin 0, V.fin 0), ⟨1, 2⟩⟩]) :=
  ⟨fun _ => rfl,
    c5_survivors_subsequence .strong .reverseLexicographic
      ⟨3, [⟨(V.fin 0, V.fin 0), ⟨0, 1⟩⟩, ⟨(V.fin 0, V.fin 0), ⟨0, 2⟩⟩,
        ⟨(V.fin 0, V.fin 0), ⟨1, 2⟩⟩]⟩
      (fun _ => false) (fun _ => rfl)⟩

/-! ## C10: edges without common neighbours survive -/

theorem getD_set_cases (m : List Row) (i : Nat) (r : Row) (x : Nat) :
    (m.set i r).getD x [] =
      if x = i ∧ i < m.length then r else m.getD x [] := by
  by_cases h : x = i ∧ i < m.length
  · obtain ⟨h1, h2⟩ := h
    subst h1
    rw [if_pos ⟨rfl, h2⟩, List.getD_eq_getElem _ _ (by simpa using h2)]
    simp [List.getElem_set_self]
  · rw [if_neg h]
    by_cases h1 : x = i
    · subst h1
      have h2 : m.length ≤ x := by
        rcases Nat.lt_or_ge x m.length with h3 | h3
        · exact absurd ⟨rfl, h3⟩ h
        · exact h3
      rw [List.getD_eq_default _ _ (by simpa using h2),
        List.getD_eq_default _ _ h2]
    · rcases Nat.lt_or_ge x m.length with h3 | h3
      · rw [List.getD_eq_getElem _ _ (by simpa using h3),
          List.getD_eq_getElem _ _ h3]
        exact List.getElem_set_ne (fun hix => h1 hix.symm) _
      · rw [List.getD_eq_default _ _ (by simpa using h3),
          List.getD_eq_default _ _ h3]

theorem row_deleteEdge_subset (A : AdjacencyMatrix) (d : FilteredEdge)
    (x : Nat) : ∀ p ∈ (A.deleteEdge d).row x, p ∈ A.row x := by
  intro p hp
  unfold AdjacencyMatrix.deleteEdge AdjacencyMatrix.row at hp
  rw [getD_set_cases] at hp
  by_cases h2 : x = d.edge.v ∧ d.edge.v <
      (A.matrix.set d.edge.u
        (Row.remove d.edge.v (A.matrix.getD d.edge.u []))).length
  · rw [if_pos h2] at hp
    have hp' := Row.mem_remove hp
    rw [getD_set_cases] at hp'
    by_cases h3 : d.edge.v = d.edge.u ∧ d.edge.u < A.matrix.length
    · rw [if_pos h3] at hp'
      have := Row.mem_remove hp'
      unfold AdjacencyMatrix.row
      rw [h2.1, h3.1]
      exact this
    · rw [if_neg h3] at hp'
      unfold AdjacencyMatrix.row
      rw [h2.1]
      exact hp'
  · rw [if_neg h2, getD_set_cases] at hp
    by_cases h3 : x = d.edge.u ∧ d.edge.u < A.matrix.length
    · rw [if_pos h3] at hp
      have := Row.mem_remove hp
      unfold AdjacencyMatrix.row
      rw [h3.1]
      exact this
    · rw [if_neg h3] at hp
      exact hp

theorem wfRows_addEdge (A : AdjacencyMatrix) (e : FilteredEdge)
    (hA : WfRows A) : WfRows (A.addEdge e) := by
  have hrow : ∀ x, Row.Wf (A.matrix.getD x []) := by
    intro x
    exact hA.rowSorted x
  intro r hr
  unfold AdjacencyMatrix.addEdge at hr
  rcases List.mem_or_eq_of_mem_set hr with hr | hr
  · rcases List.mem_or_eq_of_mem_set hr with hr | hr
    · exact hA r hr
    · rw [hr]
      exact Row.wf_insert (hrow _)
  · rw [hr]
    apply Row.wf_insert
    rw [getD_set_cases]
    by_cases h : e.edge.v = e.edge.u ∧ e.edge.u < A.matrix.length
    · rw [if_pos h]
      exact Row.wf_insert (hrow _)
    · rw [if_neg h]
      exact hrow _

theorem wfRows_new (n : Nat) : WfRows (AdjacencyMatrix.new n) := by
  intro r hr
  unfold AdjacencyMatrix.new at hr
  rw [List.eq_of_mem_replicate hr]
  exact List.Pairwise.nil

theorem wfRows_foldl_addEdge (l : List FilteredEdge) :
    ∀ A, WfRows A → WfRows (l.foldl (fun A e => A.addEdge e) A) := by
  induction l with
  | nil =>
    intro A hA
    exact hA
  | cons e rest ih =>
    intro A hA
    rw [List.foldl_cons]
    exact ih _ (wfRows_addEdge _ _ hA)

theorem wfRows_buildMatrix (n : Nat) (l : List FilteredEdge) :
    WfRows (buildMatrix n l) :=
  wfRows_foldl_addEdge l _ (wfRows_new n)

/-- Row-wise key containment between matrices. -/
def RowsSub (A B : AdjacencyMatrix) : Prop :=
  ∀ x, ∀ p ∈ A.row x, ∃ g, (p.1, g) ∈ B.row x

theorem RowsSub.same (A : AdjacencyMatrix) : RowsSub A A :=
  fun _ p hp => ⟨p.2, hp⟩

theorem RowsSub.deleteEdge {A B : AdjacencyMatrix} (h : RowsSub A B)
    (d : FilteredEdge) : RowsSub (A.deleteEdge d) B :=
  fun x p hp => h x p (row_deleteEdge_subset A d x p hp)

theorem joinKey_mem_of {xs ys : List (Nat × Grade)} (hx : KeySorted xs)
    (hy : KeySorted ys) {k : Nat} {g1 g2 : Grade} (h1 : (k, g1) ∈ xs)
    (h2 : (k, g2) ∈ ys) : (k, (g1, g2)) ∈ joinKey xs ys := by
  induction xs, ys using joinKey.induct with
  | case1 ys => cases h1
  | case2 x xs => cases h2
  | case3 x xs y ys hlt ih =>
    rw [joinKey, if_pos hlt]
    rw [List.mem_cons] at h1
    rcases h1 with h1 | h1
    · exfalso
      have hk : k = x.1 := congrArg Prod.fst h1
      rw [List.mem_cons] at h2
      rcases h2 with h2 | h2
      · have : k = y.1 := congrArg Prod.fst h2
        omega
      · have : y.1 < k := by
          have := List.rel_of_pairwise_cons hy h2
          simpa using this
        omega
    · exact ih (hx.sublist (List.sublist_cons_self _ _)) hy h1 h2
  | case4 x xs y ys hlt hgt ih =>
    rw [joinKey, if_neg hlt, if_pos hgt]
    rw [List.mem_cons] at h2
    rcases h2 with h2 | h2
    · exfalso
      have hk : k = y.1 := congrArg Prod.fst h2
      rw [List.mem_cons] at h1
      rcases h1 with h1 | h1
      · have : k = x.1 := congrArg Prod.fst h1
        omega
      · have : x.1 < k := by
          have := List.rel_of_pairwise_cons hx h1
          simpa using this
        omega
    · exact ih hx (hy.sublist (List.sublist_cons_self _ _)) h1 h2
  | case5 x xs y ys hlt hgt ih =>
    rw [joinKey, if_neg hlt, if_neg hgt]
    have hk : x.1 = y.1 := by omega
    rw [List.mem_cons] at h1 h2
    rcases h1 with h1 | h1
    · rcases h2 with h2 | h2
      · rw [List.mem_cons]
        left
        have e1 : k = x.1 := congrArg Prod.fst h1
        have e2 : g1 = x.2 := congrArg Prod.snd h1
        have e3 : g2 = y.2 := congrArg Prod.snd h2
        rw [e1, e2, e3]
      · exfalso
        have e1 : k = x.1 := congrArg Prod.fst h1
        have : y.1 < k := by
          have := List.rel_of_pairwise_cons hy h2
          simpa using this
        omega
    · rcases h2 with h2 | h2
      · exfalso
        have e2 : k = y.1 := congrArg Prod.fst h2
        have : x.1 < k := by
          have := List.rel_of_pairwise_cons hx h1
          simpa using this
        omega
      · exact List.mem_cons_of_mem _
          (ih (hx.sublist (List.sublist_cons_self _ _))
            (hy.sublist (List.sublist_cons_self _ _)) h1 h2)

theorem commonNeighbours_empty_mono {M₀ A : AdjacencyMatrix}
    {e : FilteredEdge} (hwf : WfRows M₀) (hsub : RowsSub A M₀)
    (hcom : M₀.commonNeighbours e = []) : A.commonNeighbours e = [] := by
  rcases h : A.commonNeighbours e with _ | ⟨p, rest⟩
  · rfl
  · exfalso
    have hp : p ∈ A.commonNeighbours e := by rw [h]; simp
    obtain ⟨g1, g2, h1, h2, _⟩ := mem_commonNeighbours hp
    obtain ⟨g1', h1'⟩ := hsub _ _ h1
    obtain ⟨g2', h2'⟩ := hsub _ _ h2
    have hj := joinKey_mem_of (hwf.rowSorted e.edge.u) (hwf.rowSorted e.edge.v) h1' h2'
    have : (p.1, Grade.join g1' g2') ∈ M₀.commonNeighbours e := by
      unfold AdjacencyMatrix.commonNeighbours AdjacencyMatrix.openNeighbours
      rw [List.mem_map]
      exact ⟨(p.1, (g1', g2')), hj, rfl⟩
    rw [hcom] at this
    cases this

theorem strongTest_false_of_no_common {A : AdjacencyMatrix}
    {e : FilteredEdge} (h : A.commonNeighbours e = []) :
    isStronglyFiltrationDominated A e = false := by
  unfold isStronglyFiltrationDominated
  rw [h]
  rfl

theorem fullTest_false_of_no_common {A : AdjacencyMatrix}
    {e : FilteredEdge} (h : A.commonNeighbours e = []) :
    isFiltrationDominated A e = false := by
  unfold isFiltrationDominated
  rw [h]
  rfl

theorem dominationTest_false_of_no_common (mode : Mode)
    {A : AdjacencyMatrix} {e : FilteredEdge}
    (h : A.commonNeighbours e = []) : dominationTest mode A e = false := by
  cases mode
  · exact strongTest_false_of_no_common h
  · exact fullTest_false_of_no_common h

theorem processEdges_keeps_isolated {M₀ : AdjacencyMatrix}
    (hwf : WfRows M₀) (mode : Mode) (timedOut : Nat → Bool)
    (hto : ∀ j, timedOut j = false) {e : FilteredEdge}
    (hcom : M₀.commonNeighbours e = []) :
    ∀ (l : List FilteredEdge) (A : AdjacencyMatrix), RowsSub A M₀ →
      ∀ (i : Nat) (acc : List FilteredEdge), e ∈ l →
        ∀ out, processEdges (dominationTest mode) timedOut A i acc l =
          some out → e ∈ out := by
  intro l
  induction l with
  | nil =>
    intro A _ i acc he
    cases he
  | cons a rest ih =>
    intro A hsub i acc he out hout
    unfold processEdges at hout
    rw [if_neg (by simp [hto i])] at hout
    rw [List.mem_cons] at he
    rcases he with he | he
    · subst he
      have hfalse : dominationTest mode A e = false :=
        dominationTest_false_of_no_common mode
          (commonNeighbours_empty_mono hwf hsub hcom)
      rw [if_neg (by simp [hfalse])] at hout
      obtain ⟨s, hs, _⟩ := processEdges_sublist (dominationTest mode)
        timedOut hto A (i + 1) (e :: acc) rest
      rw [hs] at hout
      have : out = (e :: acc).reverse ++ s := by
        injection hout with h'
        exact h'.symm
      rw [this]
      simp
    · by_cases htest : dominationTest mode A a = true
      · rw [if_pos htest] at hout
        exact ih (A.deleteEdge a) (hsub.deleteEdge a) (i + 1) acc he out hout
      · rw [if_neg htest] at hout
        exact ih A hsub (i + 1) (a :: acc) he out hout

/-- **C10.** (i) Both domination tests return false on an edge without
common neighbours; (ii) hence, in either mode, an edge of the input list
with no common neighbour in the driver's adjacency matrix is never
deleted and always appears in the driver's output. -/
theorem c10_no_common_neighbour :
    (∀ (A : AdjacencyMatrix) (e : FilteredEdge),
      A.commonNeighbours e = [] →
        isStronglyFiltrationDominated A e = false ∧
          isFiltrationDominated A e = false) ∧
    (∀ (mode : Mode) (order : EdgeOrder) (E : EdgeList)
        (timedOut : Nat → Bool) (e : FilteredEdge),
      (∀ j, timedOut j = false) →
      (buildMatrix E.nVertices
          (orderEdges order E.edges)).commonNeighbours e = [] →
      e ∈ E.edges → e ∈ (reduceTimed mode E order timedOut).edges) := by
  constructor
  · intro A e h
    exact ⟨strongTest_false_of_no_common h, fullTest_false_of_no_common h⟩
  · intro mode order E timedOut e hto hcom he
    have he' : e ∈ orderEdges order E.edges :=
      (perm_orderEdges order E.edges).mem_iff.mpr he
    obtain ⟨s, hs, _⟩ := processEdges_sublist (dominationTest mode) timedOut
      hto (buildMatrix E.nVertices (orderEdges order E.edges)) 0 []
      (orderEdges order E.edges)
    have hm := processEdges_keeps_isolated
      (wfRows_buildMatrix E.nVertices (orderEdges order E.edges)) mode
      timedOut hto hcom (orderEdges order E.edges) _
      (RowsSub.same _) 0 [] he' _ hs
    unfold reduceTimed
    rw [hs]
    simpa using hm

/-- Witness for C10: the path `0 – 1 – 2` (edge `{0,1}` has no common
neighbour) survives both tests and the strong driver. -/
theorem c10_no_common_neighbour_witness :
    ((buildMatrix 3 (orderEdges .reverseLexicographic
        [⟨(V.fin 1, V.fin 1), ⟨0, 1⟩⟩,
          ⟨(V.fin 2, V.fin 2), ⟨1, 2⟩⟩])).commonNeighbours
      ⟨(V.fin 1, V.fin 1), ⟨0, 1⟩⟩ = [] ∧
      (∀ j, (fun _ => false : Nat → Bool) j = false)) ∧
    ⟨(V.fin 1, V.fin 1), ⟨0, 1⟩⟩ ∈
      (reduceTimed .strong
        ⟨3, [⟨(V.fin 1, V.fin 1), ⟨0, 1⟩⟩, ⟨(V.fin 2, V.fin 2), ⟨1, 2⟩⟩]⟩
        .reverseLexicographic (fun _ => false)).edges := by
  have hcom : (buildMatrix 3 (orderEdges .reverseLexicographic
      [⟨(V.fin 1, V.fin 1), ⟨0, 1⟩⟩,
        ⟨(V.fin 2, V.fin 2), ⟨1, 2⟩⟩])).commonNeighbours
      ⟨(V.fin 1, V.fin 1), ⟨0, 1⟩⟩ = [] := by
    simp +decide [buildMatrix, orderEdges, List.insertionSort,
      List.orderedInsert, FilteredEdge.revLe, FilteredEdge.cmp, Grade.cmpLex,
      BareEdge.cmp, BareEdge.minmax, V.cmp, Ordering.then, List.foldl,
      AdjacencyMatrix.commonNeighbours, AdjacencyMatrix.openNeighbours,
      AdjacencyMatrix.addEdge, AdjacencyMatrix.new, AdjacencyMatrix.row,
      Row.insert, joinKey]
  exact ⟨⟨hcom, fun _ => rfl⟩,
    c10_no_common_neighbour.2 .strong .reverseLexicographic
      ⟨3, [⟨(V.fin 1, V.fin 1), ⟨0, 1⟩⟩, ⟨(V.fin 2, V.fin 2), ⟨1, 2⟩⟩]⟩
      (fun _ => false) ⟨(V.fin 1, V.fin 1), ⟨0, 1⟩⟩ (fun _ => rfl) hcom
      (by simp)⟩

/-! ## C6: self-loop freedom and vertex-count preservation -/

/-- The edge-list validity invariant of the data model: no self-loops and
endpoints within `n_vertices`. -/
def ValidEdges (n : Nat) (l : List FilteredEdge) : Prop :=
  ∀ e ∈ l, e.edge.u ≠ e.edge.v ∧ e.edge.u < n ∧ e.edge.v < n

instance (n : Nat) (l : List FilteredEdge) : Decidable (ValidEdges n l) := by
  unfold ValidEdges
  infer_instance

/-- Rows never mention their own vertex (as a plain universally
quantified property). -/
def SelfFreeAll (A : AdjacencyMatrix) : Prop :=
  ∀ x, ∀ p ∈ A.row x, p.1 ≠ x

/-- Every adjacency entry is justified by an edge of the list. -/
def Covered (A : AdjacencyMatrix) (l : List FilteredEdge) : Prop :=
  ∀ x, ∀ p ∈ A.row x, ∃ e' ∈ l, matchesPair e' x p.1

theorem Row.mem_remove_of_ne {k : Nat} {r : Row} {q : Nat × Grade}
    (hq : q ∈ r) (hne : q.1 ≠ k) : q ∈ Row.remove k r := by
  induction r with
  | nil => cases hq
  | cons p r ih =>
    unfold Row.remove
    rw [List.mem_cons] at hq
    by_cases h2 : k = p.1
    · rw [if_pos h2]
      rcases hq with hq | hq
      · exact absurd (by rw [hq, h2]) hne
      · exact hq
    · rw [if_neg h2]
      rcases hq with hq | hq
      · rw [hq]; simp
      · exact List.mem_cons_of_mem _ (ih hq)

theorem Row.remove_key_ne {k : Nat} {r : Row} (hwf : Row.Wf r) :
    ∀ q ∈ Row.remove k r, q.1 ≠ k := by
  induction r with
  | nil =>
    intro q hq
    cases hq
  | cons p r ih =>
    intro q hq
    have hwf' : Row.Wf r := hwf.sublist (List.sublist_cons_self _ _)
    unfold Row.remove at hq
    by_cases h2 : k = p.1
    · rw [if_pos h2] at hq
      have := List.rel_of_pairwise_cons hwf hq
      omega
    · rw [if_neg h2, List.mem_cons] at hq
      rcases hq with hq | hq
      · rw [hq]
        exact fun hk => h2 hk.symm
      · exact ih hwf' q hq

theorem wfRows_deleteEdge (A : AdjacencyMatrix) (e : FilteredEdge)
    (hA : WfRows A) : WfRows (A.deleteEdge e) := by
  have hrow : ∀ x, Row.Wf (A.matrix.getD x []) := fun x => hA.rowSorted x
  intro r hr
  unfold AdjacencyMatrix.deleteEdge at hr
  rcases List.mem_or_eq_of_mem_set hr with hr | hr
  · rcases List.mem_or_eq_of_mem_set hr with hr | hr
    · exact hA r hr
    · rw [hr]
      exact Row.wf_remove (hrow _)
  · rw [hr]
    apply Row.wf_remove
    rw [getD_set_cases]
    by_cases h : e.edge.v = e.edge.u ∧ e.edge.u < A.matrix.length
    · rw [if_pos h]
      exact Row.wf_remove (hrow _)
    · rw [if_neg h]
      exact hrow _

theorem selfFreeAll_deleteEdge {A : AdjacencyMatrix} (e : FilteredEdge)
    (hA : SelfFreeAll A) : SelfFreeAll (A.deleteEdge e) :=
  fun x p hp => hA x p (row_deleteEdge_subset A e x p hp)

theorem length_foldl_addEdge (l : List FilteredEdge) (A : AdjacencyMatrix) :
    (l.foldl (fun A e => A.addEdge e) A).matrix.length = A.matrix.length := by
  induction l generalizing A with
  | nil => rfl
  | cons e rest ih =>
    rw [List.foldl_cons, ih, AdjacencyMatrix.length_addEdge]

theorem length_buildMatrix (n : Nat) (l : List FilteredEdge) :
    (buildMatrix n l).matrix.length = n := by
  unfold buildMatrix
  rw [length_foldl_addEdge]
  simp [AdjacencyMatrix.new]

theorem selfFreeAll_addEdge {A : AdjacencyMatrix} {e : FilteredEdge}
    (hu : e.edge.u < A.matrix.length) (hv : e.edge.v < A.matrix.length)
    (huv : e.edge.u ≠ e.edge.v) (hA : SelfFreeAll A) :
    SelfFreeAll (A.addEdge e) := by
  intro x p hp
  rw [AdjacencyMatrix.row_addEdge hu hv huv] at hp
  by_cases h1 : x = e.edge.u
  · rw [if_pos h1] at hp
    rcases Row.mem_insert hp with hp | hp
    · rw [hp, h1]
      simpa using Ne.symm huv
    · rw [h1]
      exact hA e.edge.u p hp
  · rw [if_neg h1] at hp
    by_cases h2 : x = e.edge.v
    · rw [if_pos h2] at hp
      rcases Row.mem_insert hp with hp | hp
      · rw [hp, h2]
        simpa using huv
      · rw [h2]
        exact hA e.edge.v p hp
    · rw [if_neg h2] at hp
      exact hA x p hp

theorem selfFreeAll_foldl_addEdge {n : Nat} (l : List FilteredEdge) :
    ∀ A : AdjacencyMatrix, A.matrix.length = n → ValidEdges n l →
      SelfFreeAll A → SelfFreeAll (l.foldl (fun A e => A.addEdge e) A) := by
  induction l with
  | nil =>
    intro A _ _ hA
    exact hA
  | cons e rest ih =>
    intro A hlen hv hA
    obtain ⟨huv, hu, hv'⟩ := hv e (by simp)
    rw [List.foldl_cons]
    exact ih _ (by rw [AdjacencyMatrix.length_addEdge]; exact hlen)
      (fun e' he' => hv e' (by simp [he']))
      (selfFreeAll_addEdge (by omega) (by omega) huv hA)

theorem selfFreeAll_buildMatrix (n : Nat) (l : List FilteredEdge)
    (hv : ValidEdges n l) : SelfFreeAll (buildMatrix n l) := by
  unfold buildMatrix
  refine selfFreeAll_foldl_addEdge l _ ?_ hv ?_
  · simp [AdjacencyMatrix.new]
  · intro x p hp
    rw [AdjacencyMatrix.row_new] at hp
    cases hp

theorem mem_foldl_addEdge {n : Nat} (l : List FilteredEdge) :
    ∀ (A : AdjacencyMatrix), A.matrix.length = n → ValidEdges n l →
      ∀ x p, p ∈ (l.foldl (fun A e => A.addEdge e) A).row x →
        p ∈ A.row x ∨ ∃ e' ∈ l, matchesPair e' x p.1 := by
  induction l with
  | nil =>
    intro A _ _ x p hp
    exact Or.inl hp
  | cons e rest ih =>
    intro A hlen hv x p hp
    obtain ⟨huv, hu, hv'⟩ := hv e (by simp)
    rw [List.foldl_cons] at hp
    rcases ih (A.addEdge e)
      (by rw [AdjacencyMatrix.length_addEdge]; exact hlen)
      (fun e' he' => hv e' (by simp [he'])) x p hp with hp' | hp'
    · rw [AdjacencyMatrix.row_addEdge (by omega) (by omega) huv] at hp'
      by_cases h1 : x = e.edge.u
      · rw [if_pos h1] at hp'
        rcases Row.mem_insert hp' with hp' | hp'
        · refine Or.inr ⟨e, by simp, Or.inl ⟨h1.symm, ?_⟩⟩
          rw [hp']
        · exact Or.inl (by rw [h1]; exact hp')
      · rw [if_neg h1] at hp'
        by_cases h2 : x = e.edge.v
        · rw [if_pos h2] at hp'
          rcases Row.mem_insert hp' with hp' | hp'
          · refine Or.inr ⟨e, by simp, Or.inr ⟨?_, h2.symm⟩⟩
            rw [hp']
          · exact Or.inl (by rw [h2]; exact hp')
        · rw [if_neg h2] at hp'
          exact Or.inl hp'
    · obtain ⟨e', he', hm⟩ := hp'
      exact Or.inr ⟨e', by simp [he'], hm⟩

theorem covered_buildMatrix (n : Nat) (l : List FilteredEdge)
    (hv : ValidEdges n l) : Covered (buildMatrix n l) l := by
  intro x p hp
  rcases mem_foldl_addEdge (n := n) l (AdjacencyMatrix.new n)
    (by simp [AdjacencyMatrix.new]) hv x p hp with hp' | hp'
  · rw [AdjacencyMatrix.row_new] at hp'
    cases hp'
  · exact hp'

theorem Row.insert_ne_nil (k : Nat) (g : Grade) (r : Row) :
    Row.insert k g r ≠ [] := by
  cases r with
  | nil => simp [Row.insert]
  | cons q r =>
    unfold Row.insert
    by_cases hc : k < q.1
    · rw [if_pos hc]; simp
    · rw [if_neg hc]
      by_cases hc2 : k = q.1
      · rw [if_pos hc2]; simp
      · rw [if_neg hc2]; simp

theorem row_addEdge_ne_nil (A : AdjacencyMatrix) (e : FilteredEdge)
    (x : Nat) (h : A.row x ≠ []) : (A.addEdge e).row x ≠ [] := by
  unfold AdjacencyMatrix.addEdge AdjacencyMatrix.row
  rw [getD_set_cases]
  by_cases h2 : x = e.edge.v ∧ e.edge.v <
      (A.matrix.set e.edge.u
        (Row.insert e.edge.v e.grade (A.matrix.getD e.edge.u []))).length
  · rw [if_pos h2]
    exact Row.insert_ne_nil _ _ _
  · rw [if_neg h2, getD_set_cases]
    by_cases h3 : x = e.edge.u ∧ e.edge.u < A.matrix.length
    · rw [if_pos h3]
      exact Row.insert_ne_nil _ _ _
    · rw [if_neg h3]
      exact h

theorem row_foldl_addEdge_ne_nil (l : List FilteredEdge)
    (A : AdjacencyMatrix) (x : Nat) (h : A.row x ≠ []) :
    (l.foldl (fun A e => A.addEdge e) A).row x ≠ [] := by
  induction l generalizing A with
  | nil => exact h
  | cons e rest ih =>
    rw [List.foldl_cons]
    exact ih _ (row_addEdge_ne_nil A e x h)

theorem row_foldl_incident_ne_nil {n : Nat} (l : List FilteredEdge) :
    ∀ (A : AdjacencyMatrix), A.matrix.length = n → ValidEdges n l →
      ∀ {x : Nat} {e : FilteredEdge}, e ∈ l →
        (e.edge.u = x ∨ e.edge.v = x) →
        (l.foldl (fun A e => A.addEdge e) A).row x ≠ [] := by
  induction l with
  | nil =>
    intro A _ _ x e he
    cases he
  | cons a rest ih =>
    intro A hlen hv x e he hx
    obtain ⟨huv, hu, hv'⟩ := hv a (by simp)
    rw [List.foldl_cons]
    rw [List.mem_cons] at he
    rcases he with he | he
    · subst he
      refine row_foldl_addEdge_ne_nil rest _ x ?_
      rw [AdjacencyMatrix.row_addEdge (by omega) (by omega) huv]
      rcases hx with hx | hx
      · rw [if_pos hx.symm]
        exact Row.insert_ne_nil _ _ _
      · by_cases h1 : x = e.edge.u
        · rw [if_pos h1]
          exact Row.insert_ne_nil _ _ _
        · rw [if_neg h1, if_pos hx.symm]
          exact Row.insert_ne_nil _ _ _
    · exact ih (A.addEdge a)
        (by rw [AdjacencyMatrix.length_addEdge]; exact hlen)
        (fun e' he' => hv e' (by simp [he'])) he hx

/-- A vertex incident to an edge of the list has a nonempty row in the
matrix built from the list. -/
theorem row_buildMatrix_ne_nil {n : Nat} {l : List FilteredEdge}
    (hv : ValidEdges n l) {x : Nat} {e : FilteredEdge} (he : e ∈ l)
    (hx : e.edge.u = x ∨ e.edge.v = x) : (buildMatrix n l).row x ≠ [] :=
  row_foldl_incident_ne_nil l (AdjacencyMatrix.new n)
    (by simp [AdjacencyMatrix.new]) hv he hx

/-- `x` is an endpoint of some edge of the list. -/
def incidentIn (x : Nat) (l : List FilteredEdge) : Prop :=
  ∃ e ∈ l, e.edge.u = x ∨ e.edge.v = x

theorem countVertices_foldl_le_iff (l : List FilteredEdge) :
    ∀ (acc m : Nat),
      l.foldl (fun n e => Nat.max n (Nat.max e.edge.u e.edge.v + 1)) acc ≤ m ↔
        acc ≤ m ∧ ∀ e ∈ l, e.edge.u < m ∧ e.edge.v < m := by
  induction l with
  | nil => simp
  | cons e rest ih =>
    intro acc m
    rw [List.foldl_cons, ih]
    constructor
    · rintro ⟨h1, h2⟩
      obtain ⟨ha, hb⟩ := Nat.max_le.mp h1
      refine ⟨ha, fun e' he' => ?_⟩
      rw [List.mem_cons] at he'
      rcases he' with he' | he'
      · subst he'
        exact Nat.max_lt.mp (Nat.lt_of_succ_le hb)
      · exact h2 e' he'
    · rintro ⟨h1, h2⟩
      obtain ⟨hu, hv⟩ := h2 e (by simp)
      refine ⟨Nat.max_le.mpr ⟨h1, ?_⟩, fun e' he' => h2 e' (by simp [he'])⟩
      exact Nat.succ_le_of_lt (Nat.max_lt.mpr ⟨hu, hv⟩)

theorem endpoint_lt_countVertices {l : List FilteredEdge} {e : FilteredEdge}
    (he : e ∈ l) :
    e.edge.u < countVertices l ∧ e.edge.v < countVertices l := by
  have := (countVertices_foldl_le_iff l 0 (countVertices l)).mp
    (Nat.le_refl _)
  exact this.2 e he

theorem countVertices_le {l l' : List FilteredEdge}
    (h : ∀ x, incidentIn x l → incidentIn x l') :
    countVertices l ≤ countVertices l' := by
  refine (countVertices_foldl_le_iff l 0 (countVertices l')).mpr
    ⟨Nat.zero_le _, fun e he => ?_⟩
  constructor
  · obtain ⟨e', he', hx⟩ := h e.edge.u ⟨e, he, Or.inl rfl⟩
    have := endpoint_lt_countVertices he'
    rcases hx with hx | hx <;> omega
  · obtain ⟨e', he', hx⟩ := h e.edge.v ⟨e, he, Or.inr rfl⟩
    have := endpoint_lt_countVertices he'
    rcases hx with hx | hx <;> omega

theorem countVertices_eq_of_incident {l l' : List FilteredEdge}
    (h1 : ∀ x, incidentIn x l → incidentIn x l')
    (h2 : ∀ x, incidentIn x l' → incidentIn x l) :
    countVertices l = countVertices l' :=
  Nat.le_antisymm (countVertices_le h1) (countVertices_le h2)

theorem processEdges_c6 {n : Nat} (mode : Mode) (timedOut : Nat → Bool)
    (M₀ : AdjacencyMatrix) (l : List FilteredEdge) :
    ∀ (A : AdjacencyMatrix) (acc : List FilteredEdge) (i : Nat),
      ValidEdges n l → A.matrix.length = n → WfRows A → SelfFreeAll A →
      Covered A (acc ++ l) → (∀ x, M₀.row x ≠ [] → A.row x ≠ []) →
      ∀ out, processEdges (dominationTest mode) timedOut A i acc l =
        some out →
      ∀ x, M₀.row x ≠ [] → ∃ e' ∈ out, e'.edge.u = x ∨ e'.edge.v = x := by
  induction l with
  | nil =>
    intro A acc i _ _ _ _ hcov hiso out hout x hx
    have hout' : out = acc.reverse := by
      unfold processEdges at hout
      injection hout with h
      exact h.symm
    have hA : A.row x ≠ [] := hiso x hx
    obtain ⟨p, hp⟩ := List.exists_mem_of_ne_nil _ hA
    obtain ⟨e', he', hm⟩ := hcov x p hp
    rw [List.append_nil] at he'
    refine ⟨e', by rw [hout']; simpa using he', ?_⟩
    rcases hm with ⟨h1, _⟩ | ⟨_, h2⟩
    · exact Or.inl h1
    · exact Or.inr h2
  | cons a rest ih =>
    intro A acc i hv hlen hwf hsf hcov hiso out hout x hx
    obtain ⟨huv, hu, hv'⟩ := hv a (by simp)
    have hu' : a.edge.u < A.matrix.length := by omega
    have hv'' : a.edge.v < A.matrix.length := by omega
    unfold processEdges at hout
    by_cases ht : timedOut i = true
    · rw [if_pos ht] at hout
      cases hout
    · rw [if_neg ht] at hout
      by_cases htest : dominationTest mode A a = true
      · rw [if_pos htest] at hout
        -- the dominated edge has a common neighbour
        have hcom : A.commonNeighbours a ≠ [] := by
          intro hc
          rw [dominationTest_false_of_no_common mode hc] at htest
          cases htest
        obtain ⟨p, hp⟩ := List.exists_mem_of_ne_nil _ hcom
        obtain ⟨g1, g2, hw1, hw2, _⟩ := mem_commonNeighbours hp
        have hwu : p.1 ≠ a.edge.u := hsf a.edge.u (p.1, g1) hw1
        have hwv : p.1 ≠ a.edge.v := hsf a.edge.v (p.1, g2) hw2
        refine ih (A.deleteEdge a) acc (i + 1)
          (fun e' he' => hv e' (by simp [he']))
          (by rw [AdjacencyMatrix.length_deleteEdge]; exact hlen)
          (wfRows_deleteEdge A a hwf) (selfFreeAll_deleteEdge a hsf)
          ?_ ?_ out hout x hx
        · -- Covered is preserved: the deleted pair is gone from the matrix
          intro y q hq
          have hq0 := row_deleteEdge_subset A a y q hq
          obtain ⟨e', he', hm⟩ := hcov y q hq0
          rw [List.mem_append, List.mem_cons] at he'
          rcases he' with he' | he' | he'
          · exact ⟨e', List.mem_append_left _ he', hm⟩
          · exfalso
            rw [he'] at hm
            rw [AdjacencyMatrix.row_deleteEdge hu' hv'' huv] at hq
            rcases hm with ⟨h1, h2⟩ | ⟨h1, h2⟩
            · rw [if_pos h1.symm] at hq
              exact Row.remove_key_ne (hwf.rowSorted a.edge.u) q hq h2.symm
            · rw [if_neg (by omega), if_pos h2.symm] at hq
              exact Row.remove_key_ne (hwf.rowSorted a.edge.v) q hq h1.symm
          · exact ⟨e', List.mem_append_right _ he', hm⟩
        · -- no vertex loses its last adjacency entry
          intro y hy
          have hAy := hiso y hy
          rw [AdjacencyMatrix.row_deleteEdge hu' hv'' huv]
          by_cases h1 : y = a.edge.u
          · rw [if_pos h1]
            exact List.ne_nil_of_mem
              (Row.mem_remove_of_ne hw1 hwv)
          · rw [if_neg h1]
            by_cases h2 : y = a.edge.v
            · rw [if_pos h2]
              exact List.ne_nil_of_mem
                (Row.mem_remove_of_ne hw2 hwu)
            · rw [if_neg h2]
              exact hAy
      · rw [if_neg htest] at hout
        refine ih A (a :: acc) (i + 1)
          (fun e' he' => hv e' (by simp [he'])) hlen hwf hsf ?_ hiso out
          hout x hx
        intro y q hq
        obtain ⟨e', he', hm⟩ := hcov y q hq
        refine ⟨e', ?_, hm⟩
        rw [List.mem_append, List.mem_cons] at he'
        rw [List.cons_append, List.mem_cons, List.mem_append]
        tauto

/-- **C6 (amended).** For a valid edge list (no self-loops, endpoints
within `n_vertices`) and either mode, the reduced list
`reduce(E, mode, ReverseLex, ∞)` contains no self-loop, its edges span
exactly the vertices spanned by the input edges
(`count_vertices` agrees), and — whenever the input's `n_vertices` field
is itself the deduced vertex count, as for every `From<Vec>`-built list —
the output's `n_vertices` equals the input's. -/
theorem c6_no_self_loops_and_vertex_count (mode : Mode) (E : EdgeList)
    (hvalid : ValidEdges E.nVertices E.edges) :
    (∀ e ∈ (reduceTimed mode E .reverseLexicographic
        (fun _ => false)).edges, e.edge.u ≠ e.edge.v) ∧
      countVertices (reduceTimed mode E .reverseLexicographic
        (fun _ => false)).edges = countVertices E.edges ∧
      (E.nVertices = countVertices E.edges →
        (reduceTimed mode E .reverseLexicographic
          (fun _ => false)).nVertices = E.nVertices) := by
  set sorted := orderEdges .reverseLexicographic E.edges with hsorted
  have hperm : sorted.Perm E.edges := perm_orderEdges _ _
  have hvs : ValidEdges E.nVertices sorted :=
    fun e he => hvalid e (hperm.mem_iff.mp he)
  obtain ⟨s, hs, hsub⟩ := processEdges_sublist (dominationTest mode)
    (fun _ => false) (fun _ => rfl)
    (buildMatrix E.nVertices sorted) 0 [] sorted
  have hred : reduceTimed mode E .reverseLexicographic (fun _ => false) =
      EdgeList.ofVec s := by
    unfold reduceTimed
    rw [← hsorted, hs]
    rfl
  have hmem : ∀ e ∈ s, e ∈ E.edges := fun e he =>
    hperm.mem_iff.mp (hsub.mem he)
  have hinc : ∀ x, incidentIn x E.edges → incidentIn x s := by
    intro x ⟨e, he, hxe⟩
    have hrow : (buildMatrix E.nVertices sorted).row x ≠ [] :=
      row_buildMatrix_ne_nil hvs (hperm.mem_iff.mpr he) hxe
    have := processEdges_c6 (n := E.nVertices) mode (fun _ => false)
      (buildMatrix E.nVertices sorted) sorted
      (buildMatrix E.nVertices sorted) [] 0 hvs
      (length_buildMatrix _ _) (wfRows_buildMatrix _ _)
      (selfFreeAll_buildMatrix _ _ hvs)
      (by simpa using covered_buildMatrix _ _ hvs)
      (fun _ h => h) s hs x hrow
    exact this
  have hinc' : ∀ x, incidentIn x s → incidentIn x E.edges :=
    fun x ⟨e, he, hxe⟩ => ⟨e, hmem e he, hxe⟩
  have hcv : countVertices s = countVertices E.edges :=
    countVertices_eq_of_incident hinc' hinc
  refine ⟨?_, ?_, ?_⟩
  · intro e he
    rw [hred] at he
    exact (hvalid e (hmem e he)).1
  · rw [hred]
    exact hcv
  · intro hcanon
    rw [hred]
    show countVertices s = E.nVertices
    rw [hcv, hcanon]

/-- Counterexample to C6 as stated: a valid edge list whose `n_vertices`
field (3) exceeds the deduced vertex count; the reduced list deduces its
own count (2), so the vertex counts differ. -/
theorem c6_counterexample :
    ¬ ((∀ e ∈ (reduceTimed .strong
          ⟨3, [⟨(V.fin 1, V.fin 1), ⟨0, 1⟩⟩]⟩ .reverseLexicographic
          (fun _ => false)).edges, e.edge.u ≠ e.edge.v) ∧
      (reduceTimed .strong ⟨3, [⟨(V.fin 1, V.fin 1), ⟨0, 1⟩⟩]⟩
          .reverseLexicographic (fun _ => false)).nVertices =
        (⟨3, [⟨(V.fin 1, V.fin 1), ⟨0, 1⟩⟩]⟩ : EdgeList).nVertices) := by
  rintro ⟨-, h⟩
  have hsorted : orderEdges .reverseLexicographic
      [(⟨(V.fin 1, V.fin 1), ⟨0, 1⟩⟩ : FilteredEdge)] =
      [⟨(V.fin 1, V.fin 1), ⟨0, 1⟩⟩] := rfl
  have hcom : (buildMatrix 3
      [(⟨(V.fin 1, V.fin 1), ⟨0, 1⟩⟩ : FilteredEdge)]).commonNeighbours
      ⟨(V.fin 1, V.fin 1), ⟨0, 1⟩⟩ = [] := by
    simp +decide [buildMatrix, AdjacencyMatrix.commonNeighbours,
      AdjacencyMatrix.openNeighbours, AdjacencyMatrix.addEdge,
      AdjacencyMatrix.new, AdjacencyMatrix.row, Row.insert, joinKey,
      List.foldl]
  have htest : dominationTest .strong
      (buildMatrix 3 [(⟨(V.fin 1, V.fin 1), ⟨0, 1⟩⟩ : FilteredEdge)])
      ⟨(V.fin 1, V.fin 1), ⟨0, 1⟩⟩ = false :=
    strongTest_false_of_no_common hcom
  have hrun : reduceTimed .strong ⟨3, [⟨(V.fin 1, V.fin 1), ⟨0, 1⟩⟩]⟩
      .reverseLexicographic (fun _ => false) =
      EdgeList.ofVec [⟨(V.fin 1, V.fin 1), ⟨0, 1⟩⟩] := by
    unfold reduceTimed
    rw [show orderEdges .reverseLexicographic
        (⟨3, [⟨(V.fin 1, V.fin 1), ⟨0, 1⟩⟩]⟩ : EdgeList).edges =
        [⟨(V.fin 1, V.fin 1), ⟨0, 1⟩⟩] from rfl]
    unfold processEdges
    rw [if_neg (by simp), if_neg (by simp [htest])]
    rfl
  rw [hrun] at h
  exact absurd h (by decide)

/-- Witness for the amended C6: the strong reduction of the triangle. -/
theorem c6_no_self_loops_and_vertex_count_witness :
    ValidEdges 3 [⟨(V.fin 0, V.fin 0), ⟨0, 1⟩⟩,
        ⟨(V.fin 0, V.fin 0), ⟨0, 2⟩⟩, ⟨(V.fin 0, V.fin 0), ⟨1, 2⟩⟩] ∧
      ((∀ e ∈ (reduceTimed .strong
          ⟨3, [⟨(V.fin 0, V.fin 0), ⟨0, 1⟩⟩, ⟨(V.fin 0, V.fin 0), ⟨0, 2⟩⟩,
            ⟨(V.fin 0, V.fin 0), ⟨1, 2⟩⟩]⟩ .reverseLexicographic
          (fun _ => false)).edges, e.edge.u ≠ e.edge.v) ∧
      countVertices (reduceTimed .strong
          ⟨3, [⟨(V.fin 0, V.fin 0), ⟨0, 1⟩⟩, ⟨(V.fin 0, V.fin 0), ⟨0, 2⟩⟩,
            ⟨(V.fin 0, V.fin 0), ⟨1, 2⟩⟩]⟩ .reverseLexicographic
          (fun _ => false)).edges =
        countVertices [⟨(V.fin 0, V.fin 0), ⟨0, 1⟩⟩,
          ⟨(V.fin 0, V.fin 0), ⟨0, 2⟩⟩, ⟨(V.fin 0, V.fin 0), ⟨1, 2⟩⟩] ∧
      ((3 : Nat) = countVertices [⟨(V.fin 0, V.fin 0), ⟨0, 1⟩⟩,
          ⟨(V.fin 0, V.fin 0), ⟨0, 2⟩⟩, ⟨(V.fin 0, V.fin 0), ⟨1, 2⟩⟩] →
        (reduceTimed .strong
          ⟨3, [⟨(V.fin 0, V.fin 0), ⟨0, 1⟩⟩, ⟨(V.fin 0, V.fin 0), ⟨0, 2⟩⟩,
            ⟨(V.fin 0, V.fin 0), ⟨1, 2⟩⟩]⟩ .reverseLexicographic
          (fun _ => false)).nVertices = 3)) :=
  ⟨by decide,
    c6_no_self_loops_and_vertex_count .strong
      ⟨3, [⟨(V.fin 0, V.fin 0), ⟨0, 1⟩⟩, ⟨(V.fin 0, V.fin 0), ⟨0, 2⟩⟩,
        ⟨(V.fin 0, V.fin 0), ⟨1, 2⟩⟩]⟩ (by decide)⟩

/-! ## C7: order determinism

Rust's `sort_unstable_by(|a, b| b.cmp(a))` sorts by a total preorder
whose equivalence classes are exactly `==`-equal edges (equal grade and
equal unordered endpoint pair). Sorting two permutations of the same
multiset therefore yields `==`-equal lists, and the whole driver is
invariant under replacing an edge by a `==`-equal one. -/

instance : LinearOrder V where
  le a b := V.le a b = true
  le_refl := V.le_refl
  le_trans _ _ _ := V.le_trans
  le_antisymm _ _ := V.le_antisymm
  le_total := V.le_total
  decidableLE := fun a b => by
    show Decidable (V.le a b = true)
    infer_instance

theorem V.le_iff_inst {a b : V} : a ≤ b ↔ V.le a b = true := Iff.rfl

instance (a b : V) : Decidable (a ≤ b) :=
  decidable_of_iff (V.le a b = true) V.le_iff_inst.symm

instance (a b : V) : Decidable (a < b) :=
  decidable_of_iff (a ≤ b ∧ ¬ b ≤ a) lt_iff_le_not_le.symm

theorem V.cmp_lt_iff' {a b : V} : V.cmp a b = .lt ↔ a < b := by
  rw [lt_iff_le_and_ne, V.le_iff_inst]
  cases a <;> cases b <;> simp [V.cmp, V.le, Nat.compare_eq_lt] <;> omega

theorem V.cmp_gt_iff' {a b : V} : V.cmp a b = .gt ↔ b < a := by
  rw [lt_iff_le_and_ne, V.le_iff_inst]
  cases a <;> cases b <;> simp [V.cmp, V.le, Nat.compare_eq_gt] <;> omega

theorem thenCmp_lt_iff {γ1 γ2 : Type} [LinearOrder γ1] [LinearOrder γ2]
    {f g : Ordering} {p1 q1 : γ1} {p2 q2 : γ2}
    (hf_lt : f = .lt ↔ p1 < q1) (hf_eq : f = .eq ↔ p1 = q1)
    (hf_gt : f = .gt ↔ q1 < p1) (hg_lt : g = .lt ↔ p2 < q2) :
    f.then g = .lt ↔ (p1 < q1 ∨ (p1 = q1 ∧ p2 < q2)) := by
  cases hf : f
  · exact iff_of_true rfl (Or.inl (hf_lt.mp hf))
  · show g = .lt ↔ _
    have he := hf_eq.mp hf
    constructor
    · intro hg
      exact Or.inr ⟨he, hg_lt.mp hg⟩
    · rintro (h | ⟨_, h⟩)
      · exact absurd he (ne_of_lt h)
      · exact hg_lt.mpr h
  · refine iff_of_false (fun h => Ordering.noConfusion h) ?_
    have hgt := hf_gt.mp hf
    rintro (h | ⟨h, _⟩)
    · exact absurd h (not_lt_of_gt hgt)
    · exact absurd h (ne_of_gt hgt)

theorem thenCmp_eq_iff {γ1 γ2 : Type} [LinearOrder γ1] [LinearOrder γ2]
    {f g : Ordering} {p1 q1 : γ1} {p2 q2 : γ2}
    (hf_eq : f = .eq ↔ p1 = q1) (hg_eq : g = .eq ↔ p2 = q2) :
    f.then g = .eq ↔ (p1 = q1 ∧ p2 = q2) := by
  cases hf : f
  · refine iff_of_false (fun h => Ordering.noConfusion h) ?_
    rintro ⟨h, _⟩
    rw [hf_eq.mpr h] at hf
    cases hf
  · show g = .eq ↔ _
    rw [hg_eq]
    exact ⟨fun h => ⟨hf_eq.mp hf, h⟩, fun h => h.2⟩
  · refine iff_of_false (fun h => Ordering.noConfusion h) ?_
    rintro ⟨h, _⟩
    rw [hf_eq.mpr h] at hf
    cases hf

theorem thenCmp_gt_iff {γ1 γ2 : Type} [LinearOrder γ1] [LinearOrder γ2]
    {f g : Ordering} {p1 q1 : γ1} {p2 q2 : γ2}
    (hf_lt : f = .lt ↔ p1 < q1) (hf_eq : f = .eq ↔ p1 = q1)
    (hf_gt : f = .gt ↔ q1 < p1) (hg_gt : g = .gt ↔ q2 < p2) :
    f.then g = .gt ↔ (q1 < p1 ∨ (q1 = p1 ∧ q2 < p2)) := by
  cases hf : f
  · refine iff_of_false (fun h => Ordering.noConfusion h) ?_
    have hlt := hf_lt.mp hf
    rintro (h | ⟨h, _⟩)
    · exact absurd h (not_lt_of_gt hlt)
    · exact absurd h (ne_of_gt hlt)
  · show g = .gt ↔ _
    have he := hf_eq.mp hf
    constructor
    · intro hg
      exact Or.inr ⟨he.symm, hg_gt.mp hg⟩
    · rintro (h | ⟨_, h⟩)
      · exact absurd he (ne_of_gt h)
      · exact hg_gt.mpr h
  · exact iff_of_true rfl (Or.inl (hf_gt.mp hf))

/-- The sorting key of a filtered edge: its grade (lexicographically)
then its unordered endpoint pair (lexicographically). -/
def key (e : FilteredEdge) : (V ×ₗ V) ×ₗ (ℕ ×ₗ ℕ) :=
  toLex (toLex e.grade, toLex e.edge.minmax)

theorem Grade.cmpLex_lt_iff {a b : Grade} :
    Grade.cmpLex a b = .lt ↔ (toLex a : V ×ₗ V) < toLex b := by
  rw [Prod.Lex.lt_iff]
  exact thenCmp_lt_iff V.cmp_lt_iff' V.cmp_eq_iff V.cmp_gt_iff'
    V.cmp_lt_iff'

theorem Grade.cmpLex_gt_iff {a b : Grade} :
    Grade.cmpLex a b = .gt ↔ (toLex b : V ×ₗ V) < toLex a := by
  rw [Prod.Lex.lt_iff]
  exact thenCmp_gt_iff V.cmp_lt_iff' V.cmp_eq_iff V.cmp_gt_iff'
    V.cmp_gt_iff'

theorem Grade.cmpLex_eq_iff' {a b : Grade} :
    Grade.cmpLex a b = .eq ↔ (toLex a : V ×ₗ V) = toLex b := by
  rw [Grade.cmpLex_eq_iff]
  exact (toLex_inj).symm

theorem BareEdge.cmp_lt_iff {a b : BareEdge} :
    BareEdge.cmp a b = .lt ↔ (toLex a.minmax : ℕ ×ₗ ℕ) < toLex b.minmax := by
  rw [Prod.Lex.lt_iff]
  exact thenCmp_lt_iff Nat.compare_eq_lt Nat.compare_eq_eq
    Nat.compare_eq_gt Nat.compare_eq_lt

theorem BareEdge.cmp_gt_iff {a b : BareEdge} :
    BareEdge.cmp a b = .gt ↔ (toLex b.minmax : ℕ ×ₗ ℕ) < toLex a.minmax := by
  rw [Prod.Lex.lt_iff]
  exact thenCmp_gt_iff Nat.compare_eq_lt Nat.compare_eq_eq
    Nat.compare_eq_gt Nat.compare_eq_gt

theorem BareEdge.cmpBare_eq_iff {a b : BareEdge} :
    BareEdge.cmp a b = .eq ↔ (toLex a.minmax : ℕ ×ₗ ℕ) = toLex b.minmax := by
  rw [toLex_inj]
  constructor
  · intro h
    have := (@thenCmp_eq_iff ℕ ℕ _ _ _ _ _ _ _ _ Nat.compare_eq_eq
      Nat.compare_eq_eq).mp h
    exact Prod.ext_iff.mpr this
  · intro h
    exact (@thenCmp_eq_iff ℕ ℕ _ _ _ _ _ _ _ _ Nat.compare_eq_eq
      Nat.compare_eq_eq).mpr (Prod.ext_iff.mp h)

theorem FilteredEdge.cmpEdge_lt_iff {a b : FilteredEdge} :
    FilteredEdge.cmp a b = .lt ↔ key a < key b := by
  unfold key
  rw [Prod.Lex.lt_iff]
  exact thenCmp_lt_iff Grade.cmpLex_lt_iff Grade.cmpLex_eq_iff'
    Grade.cmpLex_gt_iff BareEdge.cmp_lt_iff

theorem FilteredEdge.cmpEdge_eq_iff {a b : FilteredEdge} :
    FilteredEdge.cmp a b = .eq ↔ key a = key b := by
  unfold key
  rw [toLex_inj]
  constructor
  · intro h
    have := (thenCmp_eq_iff Grade.cmpLex_eq_iff' BareEdge.cmpBare_eq_iff).mp h
    exact Prod.ext_iff.mpr this
  · intro h
    exact (thenCmp_eq_iff Grade.cmpLex_eq_iff' BareEdge.cmpBare_eq_iff).mpr
      (Prod.ext_iff.mp h)

theorem FilteredEdge.revLe_iff {a b : FilteredEdge} :
    FilteredEdge.revLe a b ↔ key b ≤ key a := by
  unfold FilteredEdge.revLe
  rw [le_iff_lt_or_eq]
  cases hc : FilteredEdge.cmp b a
  · exact iff_of_true rfl (Or.inl (FilteredEdge.cmpEdge_lt_iff.mp hc))
  · exact iff_of_true rfl (Or.inr (FilteredEdge.cmpEdge_eq_iff.mp hc))
  · refine iff_of_false (by simp [Ordering.isLE]) ?_
    have h1 : ¬ FilteredEdge.cmp b a = .lt := by simp [hc]
    have h2 : ¬ FilteredEdge.cmp b a = .eq := by simp [hc]
    rw [FilteredEdge.cmpEdge_lt_iff] at h1
    rw [FilteredEdge.cmpEdge_eq_iff] at h2
    rintro (h | h)
    · exact h1 h
    · exact h2 h

instance : IsTotal FilteredEdge FilteredEdge.revLe :=
  ⟨fun a b => by
    rw [FilteredEdge.revLe_iff, FilteredEdge.revLe_iff]
    exact le_total (key b) (key a)⟩

instance : IsTrans FilteredEdge FilteredEdge.revLe :=
  ⟨fun a b c h1 h2 =>
    FilteredEdge.revLe_iff.mpr
      (le_trans (FilteredEdge.revLe_iff.mp h2)
        (FilteredEdge.revLe_iff.mp h1))⟩

/-- Rust `==` on filtered edges: equal grades and equal unordered
endpoint pairs. -/
def feEq (a b : FilteredEdge) : Prop :=
  a.grade = b.grade ∧ a.edge.minmax = b.edge.minmax

instance (a b : FilteredEdge) : Decidable (feEq a b) := by
  unfold feEq
  infer_instance

theorem feEq_iff_key {a b : FilteredEdge} : feEq a b ↔ key a = key b := by
  unfold feEq key
  constructor
  · rintro ⟨h1, h2⟩
    rw [h1, h2]
  · intro h
    have h2 := Prod.ext_iff.mp (toLex_inj.mp h)
    exact ⟨toLex_inj.mp h2.1, toLex_inj.mp h2.2⟩

theorem forall₂_of_map_eq {α β : Type} (f : α → β) (R : α → α → Prop)
    (hR : ∀ a b, f a = f b → R a b) :
    ∀ {l1 l2 : List α}, l1.map f = l2.map f → List.Forall₂ R l1 l2 := by
  intro l1
  induction l1 with
  | nil =>
    intro l2 h
    cases l2 with
    | nil => exact List.Forall₂.nil
    | cons b t2 => cases h
  | cons a t1 ih =>
    intro l2 h
    cases l2 with
    | nil => cases h
    | cons b t2 =>
      rw [List.map_cons, List.map_cons] at h
      injection h with h1 h2
      exact List.Forall₂.cons (hR a b h1) (ih h2)

theorem sorted_perm_feEq {l1 l2 : List FilteredEdge} (hp : l1.Perm l2)
    (hs1 : List.Pairwise FilteredEdge.revLe l1)
    (hs2 : List.Pairwise FilteredEdge.revLe l2) :
    List.Forall₂ feEq l1 l2 := by
  haveI : IsAntisymm ((V ×ₗ V) ×ₗ (ℕ ×ₗ ℕ))
      (fun c1 c2 => c2 ≤ c1) := ⟨fun a b h1 h2 => le_antisymm h2 h1⟩
  have hkey : l1.map key = l2.map key := by
    refine @List.eq_of_perm_of_sorted _ (fun c1 c2 => c2 ≤ c1) _ _ _
      (hp.map key) ?_ ?_
    · exact List.pairwise_map.mpr
        (hs1.imp fun h => FilteredEdge.revLe_iff.mp h)
    · exact List.pairwise_map.mpr
        (hs2.imp fun h => FilteredEdge.revLe_iff.mp h)
  exact forall₂_of_map_eq key feEq
    (fun a b h => feEq_iff_key.mpr h) hkey

theorem orderEdges_feEq {l1 l2 : List FilteredEdge} (hp : l1.Perm l2) :
    List.Forall₂ feEq (orderEdges .reverseLexicographic l1)
      (orderEdges .reverseLexicographic l2) := by
  unfold orderEdges
  refine sorted_perm_feEq ?_ ?_ ?_
  · exact ((List.perm_insertionSort _ l1).trans hp).trans
      (List.perm_insertionSort _ l2).symm
  · exact List.sorted_insertionSort _ l1
  · exact List.sorted_insertionSort _ l2

/-! ## C7: congruence of the pipeline under `==`-equality of edges -/

theorem BareEdge.minmax_cases {a b : BareEdge}
    (h : BareEdge.minmax a = BareEdge.minmax b) :
    (a.u = b.u ∧ a.v = b.v) ∨ (a.u = b.v ∧ a.v = b.u) := by
  have h2 : (min a.u a.v, max a.u a.v)
      = (min b.u b.v, max b.u b.v) := h
  rw [Prod.mk.injEq] at h2
  obtain ⟨h3, h4⟩ := h2
  rcases min_cases a.u a.v with ⟨h5, h6⟩ | ⟨h5, h6⟩ <;>
    rcases max_cases a.u a.v with ⟨h7, h8⟩ | ⟨h7, h8⟩ <;>
      rcases min_cases b.u b.v with ⟨h9, h10⟩ | ⟨h9, h10⟩ <;>
        rcases max_cases b.u b.v with ⟨h11, h12⟩ | ⟨h11, h12⟩ <;> omega

/-- A `==`-equal edge is the same edge or the orientation-swapped edge. -/
theorem feEq_cases {a b : FilteredEdge} (h : feEq a b) :
    b = a ∨ b = ⟨a.grade, ⟨a.edge.v, a.edge.u⟩⟩ := by
  obtain ⟨hg, hmm⟩ := h
  rcases BareEdge.minmax_cases hmm with ⟨h1, h2⟩ | ⟨h1, h2⟩
  · left
    obtain ⟨ga, ⟨ua, va⟩⟩ := a
    obtain ⟨gb, ⟨ub, vb⟩⟩ := b
    simp_all
  · right
    obtain ⟨ga, ⟨ua, va⟩⟩ := a
    obtain ⟨gb, ⟨ub, vb⟩⟩ := b
    simp_all

theorem getD_set_ne (m : List Row) (i : Nat) (r : Row) (x : Nat)
    (h : x ≠ i) : (m.set i r).getD x [] = m.getD x [] := by
  rw [getD_set_cases, if_neg (fun hc => h hc.1)]

theorem AdjacencyMatrix.addEdge_swap (A : AdjacencyMatrix) (g : Grade)
    (u v : Nat) : A.addEdge ⟨g, ⟨u, v⟩⟩ = A.addEdge ⟨g, ⟨v, u⟩⟩ := by
  by_cases huv : u = v
  · subst huv
    rfl
  · unfold AdjacencyMatrix.addEdge
    dsimp only
    rw [getD_set_ne _ _ _ _ (fun hc => huv hc.symm),
      getD_set_ne _ _ _ _ huv]
    exact congrArg AdjacencyMatrix.mk (List.set_comm _ _ _ huv)

theorem AdjacencyMatrix.deleteEdge_swap (A : AdjacencyMatrix) (g : Grade)
    (u v : Nat) : A.deleteEdge ⟨g, ⟨u, v⟩⟩ = A.deleteEdge ⟨g, ⟨v, u⟩⟩ := by
  by_cases huv : u = v
  · subst huv
    rfl
  · unfold AdjacencyMatrix.deleteEdge
    dsimp only
    rw [getD_set_ne _ _ _ _ (fun hc => huv hc.symm),
      getD_set_ne _ _ _ _ huv]
    exact congrArg AdjacencyMatrix.mk (List.set_comm _ _ _ huv)

theorem AdjacencyMatrix.addEdge_congr (A : AdjacencyMatrix)
    {a b : FilteredEdge} (h : feEq a b) : A.addEdge a = A.addEdge b := by
  rcases feEq_cases h with hb | hb
  · rw [hb]
  · rw [hb]
    exact A.addEdge_swap a.grade a.edge.u a.edge.v

theorem AdjacencyMatrix.deleteEdge_congr (A : AdjacencyMatrix)
    {a b : FilteredEdge} (h : feEq a b) : A.deleteEdge a = A.deleteEdge b := by
  rcases feEq_cases h with hb | hb
  · rw [hb]
  · rw [hb]
    exact A.deleteEdge_swap a.grade a.edge.u a.edge.v

/-- `join` visits the two key-sorted maps symmetrically: swapping the
inputs swaps the value components of every matched pair. -/
theorem joinKey_swap : ∀ (xs ys : List (Nat × Grade)),
    joinKey ys xs = (joinKey xs ys).map (fun p => (p.1, (p.2.2, p.2.1))) := by
  intro xs ys
  induction xs, ys using joinKey.induct with
  | case1 ys => cases ys <;> simp [joinKey]
  | case2 x xs => simp [joinKey]
  | case3 x xs y ys h1 ih =>
    rw [joinKey, joinKey]
    simp only [if_pos h1, if_neg (Nat.lt_asymm h1)]
    exact ih
  | case4 x xs y ys h1 h2 ih =>
    rw [joinKey, joinKey]
    simp only [if_pos h2, if_neg h1]
    exact ih
  | case5 x xs y ys h1 h2 ih =>
    have heq : x.1 = y.1 :=
      Nat.le_antisymm (Nat.not_lt.mp h2) (Nat.not_lt.mp h1)
    rw [joinKey, joinKey]
    simp only [if_neg h1, if_neg h2, List.map_cons]
    rw [ih, heq]

/-- Two strictly key-sorted association lists with the same members are
equal. -/
theorem keySorted_eq_of_mem_iff {β : Type} :
    ∀ {l1 l2 : List (Nat × β)}, KeySorted l1 → KeySorted l2 →
      (∀ p, p ∈ l1 ↔ p ∈ l2) → l1 = l2 := by
  intro l1
  induction l1 with
  | nil =>
    intro l2 _ _ hmem
    cases l2 with
    | nil => rfl
    | cons q t2 => exact absurd ((hmem q).mpr (by simp)) (by simp)
  | cons p t1 ih =>
    intro l2 h1 h2 hmem
    cases l2 with
    | nil => exact absurd ((hmem p).mp (by simp)) (by simp)
    | cons q t2 =>
      have hpq : p = q := by
        have hp2 : p ∈ q :: t2 := (hmem p).mp (by simp)
        have hq1 : q ∈ p :: t1 := (hmem q).mpr (by simp)
        rw [List.mem_cons] at hp2 hq1
        rcases hp2 with hp2 | hp2
        · exact hp2
        · rcases hq1 with hq1 | hq1
          · exact hq1.symm
          · have hgt1 : q.1 < p.1 := List.rel_of_pairwise_cons h2 hp2
            have hgt2 : p.1 < q.1 := List.rel_of_pairwise_cons h1 hq1
            omega
      subst hpq
      refine congrArg (List.cons p) (ih h1.of_cons h2.of_cons ?_)
      intro r
      constructor
      · intro hr
        have hne : r ≠ p := by
          intro he
          have := List.rel_of_pairwise_cons h1 hr
          rw [he] at this
          omega
        have hmem2 := (hmem r).mp (List.mem_cons_of_mem _ hr)
        rw [List.mem_cons] at hmem2
        exact hmem2.resolve_left hne
      · intro hr
        have hne : r ≠ p := by
          intro he
          have := List.rel_of_pairwise_cons h2 hr
          rw [he] at this
          omega
        have hmem2 := (hmem r).mpr (List.mem_cons_of_mem _ hr)
        rw [List.mem_cons] at hmem2
        exact hmem2.resolve_left hne

theorem AdjacencyMatrix.commonNeighbours_swap (A : AdjacencyMatrix)
    (g : Grade) (u v : Nat) :
    A.commonNeighbours ⟨g, ⟨u, v⟩⟩ = A.commonNeighbours ⟨g, ⟨v, u⟩⟩ := by
  unfold AdjacencyMatrix.commonNeighbours
  dsimp only
  rw [joinKey_swap (A.openNeighbours u) (A.openNeighbours v), List.map_map]
  refine congrFun (congrArg List.map ?_) _
  funext p
  simp [Function.comp]
  rw [Grade.join_comm]

theorem AdjacencyMatrix.commonNeighbours_congr (A : AdjacencyMatrix)
    {a b : FilteredEdge} (h : feEq a b) :
    A.commonNeighbours a = A.commonNeighbours b := by
  rcases feEq_cases h with hb | hb
  · rw [hb]
  · rw [hb]
    exact A.commonNeighbours_swap a.grade a.edge.u a.edge.v

theorem AdjacencyMatrix.closedNeighboursEdge_swap (A : AdjacencyMatrix)
    (hA : WfRows A) (hsf : SelfFree A) (g : Grade) (u v : Nat) :
    A.closedNeighboursEdge ⟨g, ⟨u, v⟩⟩ =
      A.closedNeighboursEdge ⟨g, ⟨v, u⟩⟩ := by
  refine keySorted_eq_of_mem_iff
    (keySorted_closedNeighboursEdge hA hsf _)
    (keySorted_closedNeighboursEdge hA hsf _) ?_
  intro p
  unfold AdjacencyMatrix.closedNeighboursEdge
  dsimp only
  rw [A.commonNeighbours_swap g u v]
  simp only [mem_unionPairs, List.mem_singleton]
  tauto

theorem AdjacencyMatrix.closedNeighboursEdge_congr (A : AdjacencyMatrix)
    (hA : WfRows A) (hsf : SelfFree A) {a b : FilteredEdge} (h : feEq a b) :
    A.closedNeighboursEdge a = A.closedNeighboursEdge b := by
  rcases feEq_cases h with hb | hb
  · rw [hb]
  · rw [hb]
    exact A.closedNeighboursEdge_swap hA hsf a.grade a.edge.u a.edge.v

theorem SelfFreeAll.toSelfFree {A : AdjacencyMatrix} (h : SelfFreeAll A) :
    SelfFree A := fun x _ => h x

theorem isStronglyFiltrationDominated_congr (A : AdjacencyMatrix)
    (hA : WfRows A) (hsf : SelfFree A) {a b : FilteredEdge} (h : feEq a b) :
    isStronglyFiltrationDominated A a = isStronglyFiltrationDominated A b := by
  unfold isStronglyFiltrationDominated
  rw [A.commonNeighbours_congr h, A.closedNeighboursEdge_congr hA hsf h, h.1]

theorem isFiltrationDominated_congr (A : AdjacencyMatrix)
    (hA : WfRows A) (hsf : SelfFree A) {a b : FilteredEdge} (h : feEq a b) :
    isFiltrationDominated A a = isFiltrationDominated A b := by
  unfold isFiltrationDominated calculateNonDominationRegion
  rw [A.commonNeighbours_congr h, A.closedNeighboursEdge_congr hA hsf h, h.1]

theorem dominationTest_congr (mode : Mode) (A : AdjacencyMatrix)
    (hA : WfRows A) (hsf : SelfFree A) {a b : FilteredEdge} (h : feEq a b) :
    dominationTest mode A a = dominationTest mode A b := by
  cases mode
  · exact isStronglyFiltrationDominated_congr A hA hsf h
  · exact isFiltrationDominated_congr A hA hsf h

theorem foldl_addEdge_congr {l1 l2 : List FilteredEdge}
    (hl : List.Forall₂ feEq l1 l2) :
    ∀ A : AdjacencyMatrix,
      l1.foldl (fun A e => A.addEdge e) A =
        l2.foldl (fun A e => A.addEdge e) A := by
  induction hl with
  | nil => intro A; rfl
  | cons ha _ ih =>
    intro A
    rw [List.foldl_cons, List.foldl_cons, A.addEdge_congr ha]
    exact ih _

theorem buildMatrix_congr (n : Nat) {l1 l2 : List FilteredEdge}
    (hl : List.Forall₂ feEq l1 l2) : buildMatrix n l1 = buildMatrix n l2 := by
  unfold buildMatrix
  exact foldl_addEdge_congr hl _

/-- The survivor loop is insensitive to `==`-preserving changes of its
inputs: with no timeout it succeeds on both lists and the survivor lists
are `==`-equal entrywise. -/
theorem processEdges_congr (mode : Mode) (timedOut : Nat → Bool)
    (htime : ∀ j, timedOut j = false) {l1 l2 : List FilteredEdge}
    (hl : List.Forall₂ feEq l1 l2) :
    ∀ (A : AdjacencyMatrix) (acc1 acc2 : List FilteredEdge) (i : Nat),
      WfRows A → SelfFreeAll A → List.Forall₂ feEq acc1 acc2 →
      ∃ r1 r2,
        processEdges (dominationTest mode) timedOut A i acc1 l1 = some r1 ∧
          processEdges (dominationTest mode) timedOut A i acc2 l2 = some r2 ∧
          List.Forall₂ feEq r1 r2 := by
  induction hl with
  | nil =>
    intro A acc1 acc2 i _ _ hacc
    exact ⟨acc1.reverse, acc2.reverse, rfl, rfl,
      List.forall₂_reverse_iff.mpr hacc⟩
  | @cons e1 e2 t1 t2 ha ht ih =>
    intro A acc1 acc2 i hwf hsf hacc
    rw [processEdges, processEdges, htime i]
    simp only [Bool.false_eq_true, if_false]
    have htest : dominationTest mode A e1 = dominationTest mode A e2 :=
      dominationTest_congr mode A hwf hsf.toSelfFree ha
    by_cases hdom : dominationTest mode A e1 = true
    · rw [if_pos hdom, if_pos (htest ▸ hdom), A.deleteEdge_congr ha]
      exact ih _ acc1 acc2 (i + 1) (wfRows_deleteEdge _ _ hwf)
        (selfFreeAll_deleteEdge _ hsf) hacc
    · rw [if_neg hdom, if_neg (fun hc => hdom (htest ▸ hc))]
      exact ih A (e1 :: acc1) (e2 :: acc2) (i + 1) hwf hsf
        (List.Forall₂.cons ha hacc)

theorem feEq_max_eq {a b : FilteredEdge} (h : feEq a b) :
    Nat.max a.edge.u a.edge.v = Nat.max b.edge.u b.edge.v := by
  have h2 : (Nat.min a.edge.u a.edge.v, Nat.max a.edge.u a.edge.v)
      = (Nat.min b.edge.u b.edge.v, Nat.max b.edge.u b.edge.v) := h.2
  exact congrArg Prod.snd h2

theorem countVertices_congr {r1 r2 : List FilteredEdge}
    (h : List.Forall₂ feEq r1 r2) : countVertices r1 = countVertices r2 := by
  unfold countVertices
  suffices H : ∀ n : Nat,
      r1.foldl (fun n e => Nat.max n (Nat.max e.edge.u e.edge.v + 1)) n =
        r2.foldl (fun n e => Nat.max n (Nat.max e.edge.u e.edge.v + 1)) n from
    H 0
  induction h with
  | nil => intro n; rfl
  | cons ha _ ih =>
    intro n
    rw [List.foldl_cons, List.foldl_cons, feEq_max_eq ha]
    exact ih _

/-- **C7.** With the `ReverseLexicographic` order and no timeout, the
reduction depends only on the multiset of input edges: on inputs that are
permutations of each other (over a valid edge list), both runs produce
edge lists with the same vertex count and entrywise `==`-equal edges
(Rust `==` on `FilteredEdge` compares the grade and the unordered
endpoint pair). -/
theorem c7_order_determinism (mode : Mode) (n : Nat)
    {l1 l2 : List FilteredEdge} (hp : l1.Perm l2) (hv : ValidEdges n l1) :
    (reduceTimed mode ⟨n, l1⟩ .reverseLexicographic
          (fun _ => false)).nVertices =
        (reduceTimed mode ⟨n, l2⟩ .reverseLexicographic
          (fun _ => false)).nVertices ∧
      List.Forall₂ feEq
        (reduceTimed mode ⟨n, l1⟩ .reverseLexicographic
          (fun _ => false)).edges
        (reduceTimed mode ⟨n, l2⟩ .reverseLexicographic
          (fun _ => false)).edges := by
  have hfe : List.Forall₂ feEq (orderEdges .reverseLexicographic l1)
      (orderEdges .reverseLexicographic l2) := orderEdges_feEq hp
  have hv1 : ValidEdges n (orderEdges .reverseLexicographic l1) := by
    intro e he
    exact hv e ((List.perm_insertionSort _ l1).mem_iff.mp he)
  have hwf := wfRows_buildMatrix n (orderEdges .reverseLexicographic l1)
  have hsf :=
    selfFreeAll_buildMatrix n (orderEdges .reverseLexicographic l1) hv1
  obtain ⟨r1, r2, he1, he2, hr⟩ :=
    processEdges_congr mode (fun _ => false) (fun _ => rfl) hfe
      (buildMatrix n (orderEdges .reverseLexicographic l1)) [] [] 0 hwf hsf
      List.Forall₂.nil
  rw [buildMatrix_congr n hfe] at he2
  have hred1 : reduceTimed mode ⟨n, l1⟩ .reverseLexicographic
      (fun _ => false) = EdgeList.ofVec r1 := by
    unfold reduceTimed
    dsimp only
    rw [he1]
  have hred2 : reduceTimed mode ⟨n, l2⟩ .reverseLexicographic
      (fun _ => false) = EdgeList.ofVec r2 := by
    unfold reduceTimed
    dsimp only
    rw [he2]
  rw [hred1, hred2]
  exact ⟨countVertices_congr hr, hr⟩

theorem c7_order_determinism_witness :
    (reduceTimed .strong
          ⟨2, [⟨(V.fin 0, V.fin 0), ⟨0, 1⟩⟩, ⟨(V.fin 1, V.fin 1), ⟨0, 1⟩⟩]⟩
          .reverseLexicographic (fun _ => false)).nVertices =
        (reduceTimed .strong
          ⟨2, [⟨(V.fin 1, V.fin 1), ⟨0, 1⟩⟩, ⟨(V.fin 0, V.fin 0), ⟨0, 1⟩⟩]⟩
          .reverseLexicographic (fun _ => false)).nVertices ∧
      List.Forall₂ feEq
        (reduceTimed .strong
          ⟨2, [⟨(V.fin 0, V.fin 0), ⟨0, 1⟩⟩, ⟨(V.fin 1, V.fin 1), ⟨0, 1⟩⟩]⟩
          .reverseLexicographic (fun _ => false)).edges
        (reduceTimed .strong
          ⟨2, [⟨(V.fin 1, V.fin 1), ⟨0, 1⟩⟩, ⟨(V.fin 0, V.fin 0), ⟨0, 1⟩⟩]⟩
          .reverseLexicographic (fun _ => false)).edges :=
  c7_order_determinism .strong 2 (by decide) (by decide)

/-! ## C3: correctness of the stripe arrangement and its point query -/

theorem Delimiter.cmpBool_lt_iff {a b : Bool} :
    Delimiter.cmpBool a b = .lt ↔ a < b := by
  cases a <;> cases b <;> decide

theorem Delimiter.cmpBool_eq_iff {a b : Bool} :
    Delimiter.cmpBool a b = .eq ↔ a = b := by
  cases a <;> cases b <;> decide

theorem Delimiter.cmpBool_gt_iff {a b : Bool} :
    Delimiter.cmpBool a b = .gt ↔ b < a := by
  cases a <;> cases b <;> decide

/-- The sorting key of a delimiter: its tuple, ordered lexicographically
(`Ord for Delimiter` compares the tuples). -/
def Delimiter.key (d : Delimiter) : V ×ₗ (V ×ₗ Bool) :=
  toLex (d.toTuple.1, toLex (d.toTuple.2.1, d.toTuple.2.2))

theorem Delimiter.toTuple_fst (d : Delimiter) : d.toTuple.1 = d.endpoint := by
  cases d <;> rfl

theorem Delimiter.innerCmp_lt_iff {v1 v2 : V} {b1 b2 : Bool} :
    (V.cmp v1 v2).then (Delimiter.cmpBool b1 b2) = .lt ↔
      (toLex (v1, b1) : V ×ₗ Bool) < toLex (v2, b2) := by
  rw [Prod.Lex.lt_iff]
  exact thenCmp_lt_iff V.cmp_lt_iff' V.cmp_eq_iff V.cmp_gt_iff'
    Delimiter.cmpBool_lt_iff

theorem Delimiter.innerCmp_eq_iff {v1 v2 : V} {b1 b2 : Bool} :
    (V.cmp v1 v2).then (Delimiter.cmpBool b1 b2) = .eq ↔
      (toLex (v1, b1) : V ×ₗ Bool) = toLex (v2, b2) := by
  rw [toLex_inj]
  constructor
  · intro h
    have := (thenCmp_eq_iff V.cmp_eq_iff Delimiter.cmpBool_eq_iff).mp h
    exact Prod.ext_iff.mpr this
  · intro h
    exact (thenCmp_eq_iff V.cmp_eq_iff Delimiter.cmpBool_eq_iff).mpr
      (Prod.ext_iff.mp h)

theorem Delimiter.innerCmp_gt_iff {v1 v2 : V} {b1 b2 : Bool} :
    (V.cmp v1 v2).then (Delimiter.cmpBool b1 b2) = .gt ↔
      (toLex (v2, b2) : V ×ₗ Bool) < toLex (v1, b1) := by
  rw [Prod.Lex.lt_iff]
  exact thenCmp_gt_iff V.cmp_lt_iff' V.cmp_eq_iff V.cmp_gt_iff'
    Delimiter.cmpBool_gt_iff

theorem Delimiter.cmpDelim_lt_iff {d1 d2 : Delimiter} :
    Delimiter.cmp d1 d2 = .lt ↔ Delimiter.key d1 < Delimiter.key d2 := by
  unfold Delimiter.cmp Delimiter.key
  rw [Prod.Lex.lt_iff]
  exact thenCmp_lt_iff V.cmp_lt_iff' V.cmp_eq_iff V.cmp_gt_iff'
    Delimiter.innerCmp_lt_iff

theorem Delimiter.cmpDelim_eq_iff {d1 d2 : Delimiter} :
    Delimiter.cmp d1 d2 = .eq ↔ Delimiter.key d1 = Delimiter.key d2 := by
  unfold Delimiter.cmp Delimiter.key
  rw [toLex_inj]
  constructor
  · intro h
    have := (thenCmp_eq_iff V.cmp_eq_iff Delimiter.innerCmp_eq_iff).mp h
    exact Prod.ext_iff.mpr this
  · intro h
    exact (thenCmp_eq_iff V.cmp_eq_iff Delimiter.innerCmp_eq_iff).mpr
      (Prod.ext_iff.mp h)

theorem Delimiter.cmpDelim_gt_iff {d1 d2 : Delimiter} :
    Delimiter.cmp d1 d2 = .gt ↔ Delimiter.key d2 < Delimiter.key d1 := by
  unfold Delimiter.cmp Delimiter.key
  rw [Prod.Lex.lt_iff]
  exact thenCmp_gt_iff V.cmp_lt_iff' V.cmp_eq_iff V.cmp_gt_iff'
    Delimiter.innerCmp_gt_iff

theorem delimLe_iff {d1 d2 : Delimiter} :
    delimLe d1 d2 ↔ Delimiter.key d1 ≤ Delimiter.key d2 := by
  unfold delimLe Delimiter.leB
  cases hc : Delimiter.cmp d1 d2
  · exact iff_of_true rfl (le_of_lt (Delimiter.cmpDelim_lt_iff.mp hc))
  · exact iff_of_true rfl (le_of_eq (Delimiter.cmpDelim_eq_iff.mp hc))
  · refine iff_of_false (by simp [Ordering.isLE]) ?_
    exact not_le_of_lt (Delimiter.cmpDelim_gt_iff.mp hc)

instance : IsTotal Delimiter delimLe :=
  ⟨fun d1 d2 => by
    rw [delimLe_iff, delimLe_iff]
    exact le_total (Delimiter.key d1) (Delimiter.key d2)⟩

instance : IsTrans Delimiter delimLe :=
  ⟨fun a b c h1 h2 =>
    delimLe_iff.mpr (le_trans (delimLe_iff.mp h1) (delimLe_iff.mp h2))⟩

theorem Delimiter.endpoint_le_of_delimLe {d1 d2 : Delimiter}
    (h : delimLe d1 d2) : d1.endpoint ≤ d2.endpoint := by
  rw [delimLe_iff] at h
  unfold Delimiter.key at h
  rw [Prod.Lex.le_iff] at h
  rw [← Delimiter.toTuple_fst d1, ← Delimiter.toTuple_fst d2]
  rcases h with h | ⟨h, _⟩
  · exact le_of_lt h
  · exact le_of_eq h

theorem Delimiter.key_start_lt_stop {a v b w : V} (h : a < b) :
    Delimiter.key (.start a v) < Delimiter.key (.stop b w) :=
  (Prod.Lex.lt_iff _ _).mpr (Or.inl h)

namespace VCounts

/-- The multiplicity of a value in the active multiset. -/
def countOf (v : V) (av : VCounts) : Nat := (VCounts.get? v av).getD 0

/-- The `BTreeMap` representation invariant: strictly increasing keys and
positive stored counts. -/
def Wf (av : VCounts) : Prop :=
  List.Pairwise (fun p q => p.1 < q.1) av ∧ ∀ p ∈ av, 0 < p.2

theorem get?_eq_none_of_lt {v : V} :
    ∀ {av : VCounts}, (∀ q ∈ av, v < q.1) → VCounts.get? v av = none := by
  intro av
  induction av with
  | nil => intro _; rfl
  | cons p r ih =>
    obtain ⟨w, c⟩ := p
    intro h
    have hvw : v < w := h (w, c) (by simp)
    show (if v = w then some c else VCounts.get? v r) = none
    rw [if_neg (ne_of_lt hvw)]
    exact ih fun q hq => h q (by simp [hq])

theorem get?_mem {v : V} {c : Nat} :
    ∀ {av : VCounts}, VCounts.get? v av = some c → (v, c) ∈ av := by
  intro av
  induction av with
  | nil => intro h; cases h
  | cons p r ih =>
    obtain ⟨w, c'⟩ := p
    intro h
    rw [show VCounts.get? v ((w, c') :: r) =
        (if v = w then some c' else VCounts.get? v r) from rfl] at h
    by_cases hvw : v = w
    · rw [if_pos hvw] at h
      injection h with h
      rw [hvw, h]
      exact List.mem_cons_self _ _
    · rw [if_neg hvw] at h
      exact List.mem_cons_of_mem _ (ih h)

theorem countOf_pos {v : V} {av : VCounts} (h : 0 < VCounts.countOf v av) :
    ∃ c, VCounts.get? v av = some c ∧ 0 < c := by
  unfold VCounts.countOf at h
  cases hg : VCounts.get? v av with
  | none => rw [hg] at h; cases h
  | some c =>
    rw [hg] at h
    exact ⟨c, rfl, h⟩

theorem get?_incr_self {v : V} :
    ∀ {av : VCounts}, List.Pairwise (fun p q => p.1 < q.1) av →
      VCounts.get? v (VCounts.incr v av) =
        some (VCounts.countOf v av + 1) := by
  intro av
  induction av with
  | nil =>
    intro _
    show (if v = v then some 1 else VCounts.get? v []) = _
    rw [if_pos rfl]
    rfl
  | cons p r ih =>
    obtain ⟨w, c⟩ := p
    intro hp
    show VCounts.get? v
      (if V.le v w = true then
        if v = w then (w, c + 1) :: r else (v, 1) :: (w, c) :: r
      else (w, c) :: VCounts.incr v r) = _
    by_cases h1 : V.le v w = true
    · rw [if_pos h1]
      by_cases h2 : v = w
      · rw [if_pos h2]
        subst h2
        show (if v = v then some (c + 1) else VCounts.get? v r) = _
        rw [if_pos rfl]
        show _ = some ((if v = v then some c else VCounts.get? v r).getD 0 + 1)
        rw [if_pos rfl]
        rfl
      · rw [if_neg h2]
        show (if v = v then some 1 else _) = _
        rw [if_pos rfl]
        have hvw : v < w := lt_of_le_of_ne (V.le_iff_inst.mpr h1) h2
        have hnone : VCounts.get? v ((w, c) :: r) = none := by
          refine get?_eq_none_of_lt ?_
          intro q hq
          rw [List.mem_cons] at hq
          rcases hq with hq | hq
          · rw [hq]; exact hvw
          · exact lt_trans hvw (List.rel_of_pairwise_cons hp hq)
        unfold VCounts.countOf
        rw [hnone]
        rfl
    · rw [if_neg h1]
      have hwv : w < v := by
        rcases lt_or_le w v with h | h
        · exact h
        · exact absurd (V.le_iff_inst.mp h) h1
      show (if v = w then some c else VCounts.get? v (VCounts.incr v r)) = _
      rw [if_neg (ne_of_gt hwv), ih hp.of_cons]
      unfold VCounts.countOf
      show _ = some ((if v = w then some c else VCounts.get? v r).getD 0 + 1)
      rw [if_neg (ne_of_gt hwv)]

theorem get?_incr_ne {v w : V} (hne : w ≠ v) :
    ∀ {av : VCounts},
      VCounts.get? w (VCounts.incr v av) = VCounts.get? w av := by
  intro av
  induction av with
  | nil =>
    show (if w = v then some 1 else VCounts.get? w []) = _
    rw [if_neg hne]
  | cons p r ih =>
    obtain ⟨u, c⟩ := p
    show VCounts.get? w
      (if V.le v u = true then
        if v = u then (u, c + 1) :: r else (v, 1) :: (u, c) :: r
      else (u, c) :: VCounts.incr v r) = _
    by_cases h1 : V.le v u = true
    · rw [if_pos h1]
      by_cases h2 : v = u
      · rw [if_pos h2]
        show (if w = u then some (c + 1) else VCounts.get? w r) = _
        have hwu : w ≠ u := fun h => hne (h.trans h2.symm)
        rw [if_neg hwu]
        show _ = (if w = u then some c else VCounts.get? w r)
        rw [if_neg hwu]
      · rw [if_neg h2]
        show (if w = v then some 1 else VCounts.get? w ((u, c) :: r)) = _
        rw [if_neg hne]
    · rw [if_neg h1]
      show (if w = u then some c else VCounts.get? w (VCounts.incr v r)) = _
      by_cases h2 : w = u
      · rw [if_pos h2]
        show _ = (if w = u then some c else VCounts.get? w r)
        rw [if_pos h2]
      · rw [if_neg h2, ih]
        show _ = (if w = u then some c else VCounts.get? w r)
        rw [if_neg h2]

theorem pairwise_map_iff {l : List (V × Nat)} :
    List.Pairwise (fun p q => p.1 < q.1) l ↔
      List.Pairwise (fun a b => a < b) (l.map Prod.fst) := by
  rw [List.pairwise_map]

theorem mem_incr {v : V} {q : V × Nat} :
    ∀ {av : VCounts}, q ∈ VCounts.incr v av → q ∈ av ∨ q.1 = v := by
  intro av
  induction av with
  | nil =>
    intro h
    have h' : q ∈ [(v, 1)] := h
    rw [List.mem_singleton] at h'
    right
    rw [h']
  | cons p r ih =>
    obtain ⟨w, c⟩ := p
    intro h
    have h' : q ∈ (if V.le v w = true then
        if v = w then (w, c + 1) :: r else (v, 1) :: (w, c) :: r
      else (w, c) :: VCounts.incr v r) := h
    by_cases h1 : V.le v w = true
    · rw [if_pos h1] at h'
      by_cases h2 : v = w
      · rw [if_pos h2] at h'
        rw [List.mem_cons] at h'
        rcases h' with h' | h'
        · right
          rw [h', h2]
        · left
          exact List.mem_cons_of_mem _ h'
      · rw [if_neg h2] at h'
        rw [List.mem_cons] at h'
        rcases h' with h' | h'
        · right
          rw [h']
        · left
          exact h'
    · rw [if_neg h1] at h'
      rw [List.mem_cons] at h'
      rcases h' with h' | h'
      · left
        rw [h']
        exact List.mem_cons_self _ _
      · rcases ih h' with h'' | h''
        · left
          exact List.mem_cons_of_mem _ h''
        · right
          exact h''

theorem wf_incr {v : V} : ∀ {av : VCounts}, Wf av → Wf (VCounts.incr v av) := by
  intro av
  induction av with
  | nil =>
    intro _
    refine ⟨?_, ?_⟩
    · show List.Pairwise _ [(v, 1)]
      exact List.pairwise_singleton _ _
    · intro p hp
      have hp' : p ∈ [(v, 1)] := hp
      rw [List.mem_singleton] at hp'
      rw [hp']
      exact Nat.one_pos
  | cons p r ih =>
    obtain ⟨w, c⟩ := p
    intro hwf
    obtain ⟨hp, hpos⟩ := hwf
    show Wf (if V.le v w = true then
        if v = w then (w, c + 1) :: r else (v, 1) :: (w, c) :: r
      else (w, c) :: VCounts.incr v r)
    by_cases h1 : V.le v w = true
    · rw [if_pos h1]
      by_cases h2 : v = w
      · rw [if_pos h2]
        refine ⟨List.Pairwise.cons
          (fun q hq => List.rel_of_pairwise_cons hp hq) hp.of_cons, ?_⟩
        intro q hq
        rw [List.mem_cons] at hq
        rcases hq with hq | hq
        · rw [hq]; exact Nat.succ_pos _
        · exact hpos q (List.mem_cons_of_mem _ hq)
      · rw [if_neg h2]
        have hvw : v < w := lt_of_le_of_ne (V.le_iff_inst.mpr h1) h2
        refine ⟨List.Pairwise.cons ?_ hp, ?_⟩
        · intro q hq
          rw [List.mem_cons] at hq
          rcases hq with hq | hq
          · rw [hq]; exact hvw
          · exact lt_trans hvw (List.rel_of_pairwise_cons hp hq)
        · intro q hq
          rw [List.mem_cons] at hq
          rcases hq with hq | hq
          · rw [hq]; exact Nat.one_pos
          · exact hpos q hq
    · rw [if_neg h1]
      have hwv : w < v := by
        rcases lt_or_le w v with h | h
        · exact h
        · exact absurd (V.le_iff_inst.mp h) h1
      obtain ⟨hp', hpos'⟩ := ih ⟨hp.of_cons, fun q hq =>
        hpos q (List.mem_cons_of_mem _ hq)⟩
      refine ⟨List.Pairwise.cons ?_ hp', ?_⟩
      · intro q hq
        rcases mem_incr hq with hq | hq
        · exact List.rel_of_pairwise_cons hp hq
        · rw [hq]
          exact hwv
      · intro q hq
        rw [List.mem_cons] at hq
        rcases hq with hq | hq
        · rw [hq]; exact hpos (w, c) (List.mem_cons_self _ _)
        · exact hpos' q hq

end VCounts

namespace VCounts

theorem removeKey_sublist (v : V) :
    ∀ av : VCounts, List.Sublist (VCounts.removeKey v av) av := by
  intro av
  induction av with
  | nil => exact List.Sublist.refl _
  | cons p r ih =>
    obtain ⟨w, c⟩ := p
    show List.Sublist (if v = w then r else (w, c) :: VCounts.removeKey v r) _
    by_cases h : v = w
    · rw [if_pos h]
      exact List.sublist_cons_self _ _
    · rw [if_neg h]
      exact List.Sublist.cons₂ _ ih

theorem wf_of_sublist {l1 l2 : VCounts} (h : List.Sublist l1 l2)
    (hw : Wf l2) : Wf l1 :=
  ⟨hw.1.sublist h, fun p hp => hw.2 p (h.mem hp)⟩

theorem get?_removeKey_self {v : V} :
    ∀ {av : VCounts}, List.Pairwise (fun p q => p.1 < q.1) av →
      VCounts.get? v (VCounts.removeKey v av) = none := by
  intro av
  induction av with
  | nil => intro _; rfl
  | cons p r ih =>
    obtain ⟨w, c⟩ := p
    intro hp
    show VCounts.get? v (if v = w then r else (w, c) :: VCounts.removeKey v r)
      = none
    by_cases h : v = w
    · rw [if_pos h]
      refine get?_eq_none_of_lt ?_
      intro q hq
      rw [h]
      exact List.rel_of_pairwise_cons hp hq
    · rw [if_neg h]
      show (if v = w then some c else
        VCounts.get? v (VCounts.removeKey v r)) = none
      rw [if_neg h]
      exact ih hp.of_cons

theorem get?_removeKey_ne {v w : V} (hne : w ≠ v) :
    ∀ {av : VCounts},
      VCounts.get? w (VCounts.removeKey v av) = VCounts.get? w av := by
  intro av
  induction av with
  | nil => rfl
  | cons p r ih =>
    obtain ⟨u, c⟩ := p
    show VCounts.get? w (if v = u then r else (u, c) :: VCounts.removeKey v r)
      = _
    by_cases h : v = u
    · rw [if_pos h]
      show _ = (if w = u then some c else VCounts.get? w r)
      rw [if_neg (fun hc => hne (hc.trans h.symm))]
    · rw [if_neg h]
      show (if w = u then some c else
          VCounts.get? w (VCounts.removeKey v r)) = _
      by_cases h2 : w = u
      · rw [if_pos h2]
        show _ = (if w = u then some c else VCounts.get? w r)
        rw [if_pos h2]
      · rw [if_neg h2, ih]
        show _ = (if w = u then some c else VCounts.get? w r)
        rw [if_neg h2]

theorem get?_decr_self {v : V} :
    ∀ {av : VCounts},
      VCounts.get? v (VCounts.decr v av) =
        (VCounts.get? v av).map (fun c => c - 1) := by
  intro av
  induction av with
  | nil => rfl
  | cons p r ih =>
    obtain ⟨w, c⟩ := p
    show VCounts.get? v
      (if v = w then (w, c - 1) :: r else (w, c) :: VCounts.decr v r) = _
    by_cases h : v = w
    · rw [if_pos h]
      show (if v = w then some (c - 1) else VCounts.get? v r) = _
      rw [if_pos h]
      show _ = ((if v = w then some c else VCounts.get? v r).map fun c =>
        c - 1)
      rw [if_pos h]
      rfl
    · rw [if_neg h]
      show (if v = w then some c else
          VCounts.get? v (VCounts.decr v r)) = _
      rw [if_neg h, ih]
      show _ = ((if v = w then some c else VCounts.get? v r).map fun c =>
        c - 1)
      rw [if_neg h]

theorem get?_decr_ne {v w : V} (hne : w ≠ v) :
    ∀ {av : VCounts},
      VCounts.get? w (VCounts.decr v av) = VCounts.get? w av := by
  intro av
  induction av with
  | nil => rfl
  | cons p r ih =>
    obtain ⟨u, c⟩ := p
    show VCounts.get? w
      (if v = u then (u, c - 1) :: r else (u, c) :: VCounts.decr v r) = _
    by_cases h : v = u
    · rw [if_pos h]
      show (if w = u then some (c - 1) else VCounts.get? w r) = _
      rw [if_neg (fun hc => hne (hc.trans h.symm))]
      show _ = (if w = u then some c else VCounts.get? w r)
      rw [if_neg (fun hc => hne (hc.trans h.symm))]
    · rw [if_neg h]
      show (if w = u then some c else
          VCounts.get? w (VCounts.decr v r)) = _
      by_cases h2 : w = u
      · rw [if_pos h2]
        show _ = (if w = u then some c else VCounts.get? w r)
        rw [if_pos h2]
      · rw [if_neg h2, ih]
        show _ = (if w = u then some c else VCounts.get? w r)
        rw [if_neg h2]

theorem keys_decr (v : V) :
    ∀ av : VCounts, (VCounts.decr v av).map Prod.fst = av.map Prod.fst := by
  intro av
  induction av with
  | nil => rfl
  | cons p r ih =>
    obtain ⟨w, c⟩ := p
    show ((if v = w then (w, c - 1) :: r else
      (w, c) :: VCounts.decr v r).map Prod.fst) = _
    by_cases h : v = w
    · rw [if_pos h]
      rw [List.map_cons, List.map_cons]
    · rw [if_neg h]
      rw [List.map_cons, List.map_cons, ih]

theorem mem_decr {v : V} {q : V × Nat} :
    ∀ {av : VCounts}, q ∈ VCounts.decr v av →
      q ∈ av ∨ ∃ c, (v, c) ∈ av ∧ q = (v, c - 1) := by
  intro av
  induction av with
  | nil => intro h; cases h
  | cons p r ih =>
    obtain ⟨w, c⟩ := p
    intro h
    have h' : q ∈ (if v = w then (w, c - 1) :: r else
      (w, c) :: VCounts.decr v r) := h
    by_cases hc : v = w
    · rw [if_pos hc] at h'
      rw [List.mem_cons] at h'
      rcases h' with h' | h'
      · right
        subst hc
        exact ⟨c, List.mem_cons_self _ _, h'⟩
      · left
        exact List.mem_cons_of_mem _ h'
    · rw [if_neg hc] at h'
      rw [List.mem_cons] at h'
      rcases h' with h' | h'
      · left
        rw [h']
        exact List.mem_cons_self _ _
      · rcases ih h' with h'' | ⟨c', hc', he⟩
        · left
          exact List.mem_cons_of_mem _ h''
        · right
          exact ⟨c', List.mem_cons_of_mem _ hc', he⟩

theorem mem_get? {v : V} {c : Nat} :
    ∀ {av : VCounts}, List.Pairwise (fun p q => p.1 < q.1) av →
      (v, c) ∈ av → VCounts.get? v av = some c := by
  intro av
  induction av with
  | nil => intro _ h; cases h
  | cons p r ih =>
    obtain ⟨w, c'⟩ := p
    intro hp hm
    rw [List.mem_cons] at hm
    show (if v = w then some c' else VCounts.get? v r) = some c
    rcases hm with hm | hm
    · obtain ⟨h1, h2⟩ := (Prod.mk.injEq _ _ _ _).mp hm
      rw [if_pos h1, h2]
    · have hvw : w < v := by
        have := List.rel_of_pairwise_cons hp hm
        exact this
      rw [if_neg (ne_of_gt hvw)]
      exact ih hp.of_cons hm

theorem wf_decr {v : V} {av : VCounts} {c : Nat} (h : Wf av)
    (hc : VCounts.get? v av = some c) (h2 : 2 ≤ c) :
    Wf (VCounts.decr v av) := by
  refine ⟨?_, ?_⟩
  · rw [pairwise_map_iff, keys_decr]
    exact pairwise_map_iff.mp h.1
  · intro q hq
    rcases mem_decr hq with hq | ⟨c', hq, he⟩
    · exact h.2 q hq
    · have : VCounts.get? v av = some c' := mem_get? h.1 hq
      rw [hc] at this
      injection this with this
      rw [he]
      show 0 < c' - 1
      omega

theorem min?_none_iff {av : VCounts} (h : Wf av) :
    VCounts.min? av = none ↔ ∀ v, VCounts.countOf v av = 0 := by
  cases av with
  | nil =>
    refine iff_of_true rfl ?_
    intro v
    rfl
  | cons p r =>
    obtain ⟨w, c⟩ := p
    refine iff_of_false (by simp [VCounts.min?]) ?_
    intro hall
    have := hall w
    unfold VCounts.countOf at this
    rw [show VCounts.get? w ((w, c) :: r) = some c by
      show (if w = w then some c else VCounts.get? w r) = some c
      rw [if_pos rfl]] at this
    have hpos := h.2 (w, c) (List.mem_cons_self _ _)
    simp at this
    omega

theorem min?_some_spec {av : VCounts} {m : V} (h : Wf av)
    (hm : VCounts.min? av = some m) :
    0 < VCounts.countOf m av ∧
      ∀ v, 0 < VCounts.countOf v av → m ≤ v := by
  cases av with
  | nil => cases hm
  | cons p r =>
    obtain ⟨w, c⟩ := p
    have hwm : w = m := by
      have : some w = some m := hm
      injection this
    subst hwm
    constructor
    · unfold VCounts.countOf
      rw [show VCounts.get? w ((w, c) :: r) = some c by
        show (if w = w then some c else VCounts.get? w r) = some c
        rw [if_pos rfl]]
      exact h.2 (w, c) (List.mem_cons_self _ _)
    · intro v hv
      obtain ⟨c', hc', _⟩ := countOf_pos hv
      have hmem := get?_mem hc'
      rw [List.mem_cons] at hmem
      rcases hmem with hmem | hmem
      · obtain ⟨h1, _⟩ := (Prod.mk.injEq _ _ _ _).mp hmem
        exact le_of_eq h1.symm
      · exact le_of_lt (List.rel_of_pairwise_cons h.1 hmem)

end VCounts

/-- Does the delimiter begin a stripe of value `v`? -/
def isStartOf (v : V) : Delimiter → Bool
  | .start _ w => decide (w = v)
  | .stop _ _ => false

/-- Does the delimiter end a stripe of value `v`? -/
def isStopOf (v : V) : Delimiter → Bool
  | .stop _ w => decide (w = v)
  | .start _ _ => false

/-- Number of `Start` delimiters of value `v`. -/
def startCount (v : V) (ds : List Delimiter) : Nat := ds.countP (isStartOf v)

/-- Number of `End` delimiters of value `v`. -/
def stopCount (v : V) (ds : List Delimiter) : Nat := ds.countP (isStopOf v)

/-- Every `End` delimiter of the list is matched by currently active
values or by earlier `Start`s (`self.values[&v]` never panics). -/
def PanFree (av : VCounts) (ds : List Delimiter) : Prop :=
  ∀ (v e : V) (p q : List Delimiter), ds = p ++ Delimiter.stop e v :: q →
    stopCount v p + 1 ≤ VCounts.countOf v av + startCount v p

theorem startCount_cons_start {v e w : V} {ds : List Delimiter} :
    startCount v (Delimiter.start e w :: ds) =
      startCount v ds + (if w = v then 1 else 0) := by
  unfold startCount
  rw [List.countP_cons]
  simp [isStartOf]

theorem startCount_cons_stop {v e w : V} {ds : List Delimiter} :
    startCount v (Delimiter.stop e w :: ds) = startCount v ds := by
  unfold startCount
  rw [List.countP_cons]
  simp [isStartOf]

theorem stopCount_cons_start {v e w : V} {ds : List Delimiter} :
    stopCount v (Delimiter.start e w :: ds) = stopCount v ds := by
  unfold stopCount
  rw [List.countP_cons]
  simp [isStopOf]

theorem stopCount_cons_stop {v e w : V} {ds : List Delimiter} :
    stopCount v (Delimiter.stop e w :: ds) =
      stopCount v ds + (if w = v then 1 else 0) := by
  unfold stopCount
  rw [List.countP_cons]
  simp [isStopOf]

theorem VCounts.countOf_incr_self {v : V} {av : VCounts}
    (hp : List.Pairwise (fun p q => p.1 < q.1) av) :
    VCounts.countOf v (VCounts.incr v av) = VCounts.countOf v av + 1 := by
  unfold VCounts.countOf
  rw [VCounts.get?_incr_self hp]
  rfl

theorem VCounts.countOf_incr_ne {v w : V} {av : VCounts} (hne : w ≠ v) :
    VCounts.countOf w (VCounts.incr v av) = VCounts.countOf w av := by
  unfold VCounts.countOf
  rw [VCounts.get?_incr_ne hne]

theorem addDelimiter_start_spec (av : VCounts) (e w : V)
    (hwf : VCounts.Wf av) :
    addDelimiter av (.start e w) = some (VCounts.incr w av) ∧
      VCounts.Wf (VCounts.incr w av) ∧
      ∀ v, VCounts.countOf v (VCounts.incr w av) =
        VCounts.countOf v av + (if v = w then 1 else 0) := by
  refine ⟨rfl, VCounts.wf_incr hwf, ?_⟩
  intro v
  by_cases h : v = w
  · subst h
    rw [if_pos rfl, VCounts.countOf_incr_self hwf.1]
  · rw [if_neg h, VCounts.countOf_incr_ne h]
    rfl

theorem addDelimiter_stop_spec (av : VCounts) (e w : V)
    (hwf : VCounts.Wf av) (hpos : 0 < VCounts.countOf w av) :
    ∃ av', addDelimiter av (.stop e w) = some av' ∧ VCounts.Wf av' ∧
      ∀ v, VCounts.countOf v av' + (if v = w then 1 else 0) =
        VCounts.countOf v av := by
  obtain ⟨c, hget, hc⟩ := VCounts.countOf_pos hpos
  by_cases hc1 : c = 1
  · refine ⟨VCounts.removeKey w av, ?_, ?_, ?_⟩
    · simp only [addDelimiter, hget]
      rw [if_pos hc1]
    · exact VCounts.wf_of_sublist (VCounts.removeKey_sublist w av) hwf
    · intro v
      by_cases h : v = w
      · subst h
        rw [if_pos rfl]
        unfold VCounts.countOf
        rw [VCounts.get?_removeKey_self hwf.1, hget, hc1]
        rfl
      · rw [if_neg h]
        unfold VCounts.countOf
        rw [VCounts.get?_removeKey_ne h]
        rfl
  · refine ⟨VCounts.decr w av, ?_, ?_, ?_⟩
    · simp only [addDelimiter, hget]
      rw [if_neg hc1]
    · exact VCounts.wf_decr hwf hget (by omega)
    · intro v
      by_cases h : v = w
      · subst h
        rw [if_pos rfl]
        unfold VCounts.countOf
        rw [VCounts.get?_decr_self, hget]
        show c - 1 + 1 = c
        omega
      · rw [if_neg h]
        unfold VCounts.countOf
        rw [VCounts.get?_decr_ne h]
        rfl

theorem processGroup_spec :
    ∀ (l : List Delimiter) (av : VCounts), VCounts.Wf av → PanFree av l →
      ∃ av', processGroup av l = some av' ∧ VCounts.Wf av' ∧
        ∀ v, VCounts.countOf v av' + stopCount v l =
          VCounts.countOf v av + startCount v l := by
  intro l
  induction l with
  | nil =>
    intro av hwf _
    refine ⟨av, rfl, hwf, ?_⟩
    intro v
    simp [startCount, stopCount]
  | cons d ds ih =>
    intro av hwf hpf
    cases d with
    | start e w =>
      obtain ⟨hstep, hwf', hcnt⟩ := addDelimiter_start_spec av e w hwf
      have hpf' : PanFree (VCounts.incr w av) ds := by
        intro v e' p q hsplit
        have := hpf v e' (Delimiter.start e w :: p) q (by rw [hsplit]; rfl)
        rw [stopCount_cons_start, startCount_cons_start] at this
        have hcv := hcnt v
        by_cases h : v = w
        · rw [if_pos h] at hcv
          rw [if_pos (h ▸ rfl : w = v)] at this
          omega
        · rw [if_neg h] at hcv
          rw [if_neg (fun hc => h hc.symm)] at this
          omega
      obtain ⟨av', h1, h2, h3⟩ := ih (VCounts.incr w av) hwf' hpf'
      refine ⟨av', ?_, h2, ?_⟩
      · show (match addDelimiter av (.start e w) with
          | none => none
          | some av2 => processGroup av2 ds) = some av'
        rw [hstep]
        exact h1
      · intro v
        have h4 := h3 v
        have hcv := hcnt v
        rw [stopCount_cons_start, startCount_cons_start]
        by_cases h : v = w
        · rw [if_pos h] at hcv
          rw [if_pos (h ▸ rfl : w = v)]
          omega
        · rw [if_neg h] at hcv
          rw [if_neg (fun hc => h hc.symm)]
          omega
    | stop e w =>
      have hpos : 0 < VCounts.countOf w av := by
        have := hpf w e [] ds rfl
        rw [show stopCount w ([] : List Delimiter) = 0 from rfl,
          show startCount w ([] : List Delimiter) = 0 from rfl] at this
        omega
      obtain ⟨av1, hstep, hwf', hcnt⟩ := addDelimiter_stop_spec av e w hwf hpos
      have hpf' : PanFree av1 ds := by
        intro v e' p q hsplit
        have := hpf v e' (Delimiter.stop e w :: p) q (by rw [hsplit]; rfl)
        rw [stopCount_cons_stop, startCount_cons_stop] at this
        have hcv := hcnt v
        by_cases h : v = w
        · rw [if_pos h] at hcv
          rw [if_pos (h ▸ rfl : w = v)] at this
          omega
        · rw [if_neg h] at hcv
          rw [if_neg (fun hc => h hc.symm)] at this
          omega
      obtain ⟨av', h1, h2, h3⟩ := ih av1 hwf' hpf'
      refine ⟨av', ?_, h2, ?_⟩
      · show (match addDelimiter av (.stop e w) with
          | none => none
          | some av2 => processGroup av2 ds) = some av'
        rw [hstep]
        exact h1
      · intro v
        have h4 := h3 v
        have hcv := hcnt v
        rw [stopCount_cons_stop, startCount_cons_stop]
        by_cases h : v = w
        · rw [if_pos h] at hcv
          rw [if_pos (h ▸ rfl : w = v)]
          omega
        · rw [if_neg h] at hcv
          rw [if_neg (fun hc => h hc.symm)]
          omega

/-- `m` is the least value of the multiset described by the count
function `c`, with `VF::max_value()` as the empty-minimum sentinel. -/
def MinOfCounts (c : V → Nat) (m : V) : Prop :=
  (m = V.maxValue ∧ ∀ v, c v = 0) ∨ (0 < c m ∧ ∀ v, 0 < c v → m ≤ v)

theorem startCount_append {v : V} {l1 l2 : List Delimiter} :
    startCount v (l1 ++ l2) = startCount v l1 + startCount v l2 := by
  unfold startCount
  rw [List.countP_append]

theorem stopCount_append {v : V} {l1 l2 : List Delimiter} :
    stopCount v (l1 ++ l2) = stopCount v l1 + stopCount v l2 := by
  unfold stopCount
  rw [List.countP_append]

theorem panFree_front {av : VCounts} {l1 l2 : List Delimiter}
    (h : PanFree av (l1 ++ l2)) : PanFree av l1 := by
  intro v e p q hsplit
  refine h v e p (q ++ l2) ?_
  rw [hsplit]
  simp

theorem panFree_suffix {av av' : VCounts} {l1 l2 : List Delimiter}
    (h : PanFree av (l1 ++ l2))
    (hcnt : ∀ v, VCounts.countOf v av' + stopCount v l1 =
      VCounts.countOf v av + startCount v l1) :
    PanFree av' l2 := by
  intro v e p q hsplit
  have h2 := h v e (l1 ++ p) q (by rw [hsplit, List.append_assoc])
  have hc := hcnt v
  simp only [stopCount, startCount, List.countP_append] at h2 hc ⊢
  omega

theorem mem_dropWhile_endpoint_gt {E : V} :
    ∀ {l : List Delimiter}, List.Pairwise delimLe l →
      (∀ x ∈ l, E ≤ x.endpoint) →
      ∀ y ∈ l.dropWhile (fun x => decide (x.endpoint = E)),
        E < y.endpoint := by
  intro l
  induction l with
  | nil =>
    intro _ _ y hy
    cases hy
  | cons x xs ih =>
    intro hp hle y hy
    by_cases hx : x.endpoint = E
    · rw [List.dropWhile_cons_of_pos (by simpa using hx)] at hy
      exact ih hp.of_cons (fun z hz => hle z (List.mem_cons_of_mem _ hz)) y hy
    · rw [List.dropWhile_cons_of_neg (by simpa using hx)] at hy
      have hxE : E < x.endpoint :=
        lt_of_le_of_ne (hle x (List.mem_cons_self _ _))
          (fun h2 => hx h2.symm)
      rw [List.mem_cons] at hy
      rcases hy with hy | hy
      · rw [hy]
        exact hxE
      · have h1 := List.rel_of_pairwise_cons hp hy
        exact lt_of_lt_of_le hxE (Delimiter.endpoint_le_of_delimLe h1)

theorem filter_le_head_group {E : V} {grp rest : List Delimiter}
    (hg : ∀ x ∈ grp, x.endpoint = E) (hr : ∀ x ∈ rest, E < x.endpoint) :
    (grp ++ rest).filter (fun x : Delimiter => decide (x.endpoint ≤ E)) = grp := by
  rw [List.filter_append]
  rw [List.filter_eq_self.mpr, List.filter_eq_nil_iff.mpr, List.append_nil]
  · intro x hx
    simp [not_le.mpr (hr x hx)]
  · intro x hx
    simp [le_of_eq (hg x hx)]

theorem filter_le_of_groups {E e : V} {grp rest : List Delimiter}
    (hg : ∀ x ∈ grp, x.endpoint = E) (hE : E ≤ e) :
    (grp ++ rest).filter (fun x : Delimiter => decide (x.endpoint ≤ e)) =
      grp ++ rest.filter (fun x : Delimiter => decide (x.endpoint ≤ e)) := by
  rw [List.filter_append]
  congr 1
  refine List.filter_eq_self.mpr ?_
  intro x hx
  have : x.endpoint ≤ e := le_of_eq_of_le (hg x hx) hE
  simp [this]

theorem sweep_cons_eq (av : VCounts) (d : Delimiter) (ds : List Delimiter) :
    sweep av (d :: ds) =
      match processGroup av
          (d :: ds.takeWhile (fun d' => d'.endpoint = d.endpoint)) with
      | none => none
      | some av' =>
        match sweep av' (ds.dropWhile (fun d' => d'.endpoint = d.endpoint)) with
        | none => none
        | some recs =>
          some ((d.endpoint, (av'.min?).getD V.maxValue) :: recs) := by
  rw [sweep]

/-- Correctness of the sweep: on a sorted, panic-free delimiter list it
succeeds, produces one record per distinct endpoint in increasing order,
and each record holds the minimum active value (or the sentinel) of the
multiset obtained from `av` by all delimiters up to that endpoint. -/
theorem sweep_spec :
    ∀ (n : Nat) (ds : List Delimiter), ds.length ≤ n →
      ∀ av : VCounts, VCounts.Wf av → List.Pairwise delimLe ds →
        PanFree av ds →
        ∃ recs, sweep av ds = some recs ∧
          (∀ r ∈ recs, ∃ d ∈ ds, d.endpoint = r.1) ∧
          (∀ d ∈ ds, ∃ r ∈ recs, r.1 = d.endpoint) ∧
          List.Pairwise (fun r1 r2 => r1.1 < r2.1) recs ∧
          (∀ r ∈ recs, ∃ c : V → Nat,
            (∀ v, c v +
                stopCount v (ds.filter fun x : Delimiter =>
                  decide (x.endpoint ≤ r.1)) =
              VCounts.countOf v av +
                startCount v (ds.filter fun x : Delimiter =>
                  decide (x.endpoint ≤ r.1))) ∧
            MinOfCounts c r.2) := by
  intro n
  induction n with
  | zero =>
    intro ds hlen av hwf hsort hpf
    have hds : ds = [] := List.eq_nil_of_length_eq_zero (Nat.le_zero.mp hlen)
    subst hds
    refine ⟨[], by rw [sweep], ?_, ?_, List.Pairwise.nil, ?_⟩
    · intro r hr; cases hr
    · intro d hd; cases hd
    · intro r hr; cases hr
  | succ n ihn =>
    intro ds hlen av hwf hsort hpf
    cases ds with
    | nil =>
      refine ⟨[], by rw [sweep], ?_, ?_, List.Pairwise.nil, ?_⟩
      · intro r hr; cases hr
      · intro d hd; cases hd
      · intro r hr; cases hr
    | cons d ds' =>
      have hsplit : ds' = ds'.takeWhile (fun d' => d'.endpoint = d.endpoint)
          ++ ds'.dropWhile (fun d' => d'.endpoint = d.endpoint) :=
        (List.takeWhile_append_dropWhile _ _).symm
      have hgrp_end : ∀ x ∈ d ::
          ds'.takeWhile (fun d' => d'.endpoint = d.endpoint),
          x.endpoint = d.endpoint := by
        intro x hx
        rw [List.mem_cons] at hx
        rcases hx with hx | hx
        · rw [hx]
        · simpa using List.mem_takeWhile_imp hx
      have hle_ds' : ∀ x ∈ ds', d.endpoint ≤ x.endpoint := fun x hx =>
        Delimiter.endpoint_le_of_delimLe (List.rel_of_pairwise_cons hsort hx)
      have hrest_gt : ∀ y ∈
          ds'.dropWhile (fun d' => d'.endpoint = d.endpoint),
          d.endpoint < y.endpoint :=
        mem_dropWhile_endpoint_gt hsort.of_cons hle_ds'
      have hpf' : PanFree av
          ((d :: ds'.takeWhile (fun d' => d'.endpoint = d.endpoint)) ++
            ds'.dropWhile (fun d' => d'.endpoint = d.endpoint)) := by
        rw [List.cons_append, ← hsplit]
        exact hpf
      obtain ⟨av1, hpg, hwf1, hcnt1⟩ := processGroup_spec _ av hwf
        (panFree_front hpf')
      have hpf2 : PanFree av1
          (ds'.dropWhile (fun d' => d'.endpoint = d.endpoint)) :=
        panFree_suffix hpf' hcnt1
      have hsort_rest : List.Pairwise delimLe
          (ds'.dropWhile (fun d' => d'.endpoint = d.endpoint)) :=
        hsort.of_cons.sublist (List.dropWhile_sublist _)
      have hlen_rest :
          (ds'.dropWhile (fun d' => d'.endpoint = d.endpoint)).length ≤ n := by
        have h1 : (ds'.dropWhile
            (fun d' => d'.endpoint = d.endpoint)).length ≤ ds'.length :=
          (List.dropWhile_sublist _).length_le
        have h2 : ds'.length + 1 ≤ n + 1 := by simpa using hlen
        omega
      obtain ⟨recs', hsw', hmem', hall', hsortr', hrec'⟩ :=
        ihn _ hlen_rest av1 hwf1 hsort_rest hpf2
      refine ⟨(d.endpoint, (av1.min?).getD V.maxValue) :: recs', ?_, ?_, ?_,
        ?_, ?_⟩
      · rw [sweep_cons_eq, hpg]
        dsimp only
        rw [hsw']
      · intro r hr
        rw [List.mem_cons] at hr
        rcases hr with hr | hr
        · exact ⟨d, List.mem_cons_self _ _, by rw [hr]⟩
        · obtain ⟨d2, hd2, he2⟩ := hmem' r hr
          exact ⟨d2, List.mem_cons_of_mem _
            ((List.dropWhile_sublist _).subset hd2), he2⟩
      · intro d2 hd2
        rw [List.mem_cons] at hd2
        rcases hd2 with hd2 | hd2
        · exact ⟨(d.endpoint, (av1.min?).getD V.maxValue),
            List.mem_cons_self _ _, by rw [hd2]⟩
        · rw [hsplit, List.mem_append] at hd2
          rcases hd2 with hd2 | hd2
          · refine ⟨(d.endpoint, (av1.min?).getD V.maxValue),
              List.mem_cons_self _ _, ?_⟩
            show d.endpoint = d2.endpoint
            exact (hgrp_end d2 (List.mem_cons_of_mem _ hd2)).symm
          · obtain ⟨r, hr, he⟩ := hall' d2 hd2
            exact ⟨r, List.mem_cons_of_mem _ hr, he⟩
      · refine List.Pairwise.cons ?_ hsortr'
        intro r hr
        obtain ⟨d2, hd2, he2⟩ := hmem' r hr
        show d.endpoint < r.1
        rw [← he2]
        exact hrest_gt d2 hd2
      · have hdecomp : d :: ds' =
            (d :: ds'.takeWhile (fun d' => d'.endpoint = d.endpoint)) ++
              ds'.dropWhile (fun d' => d'.endpoint = d.endpoint) := by
          rw [List.cons_append, ← hsplit]
        intro r hr
        rw [List.mem_cons] at hr
        rcases hr with hr | hr
        · refine ⟨fun v => VCounts.countOf v av1, ?_, ?_⟩
          · intro v
            have hfil : (d :: ds').filter (fun x : Delimiter =>
                decide (x.endpoint ≤ r.1)) =
                d :: ds'.takeWhile (fun d' => d'.endpoint = d.endpoint) := by
              rw [hr]
              show (d :: ds').filter (fun x : Delimiter =>
                decide (x.endpoint ≤ d.endpoint)) = _
              rw [hdecomp]
              exact filter_le_head_group hgrp_end hrest_gt
            rw [hfil]
            exact hcnt1 v
          · rw [hr]
            show MinOfCounts _ ((av1.min?).getD V.maxValue)
            cases hmin : av1.min? with
            | none =>
              left
              refine ⟨rfl, ?_⟩
              exact fun v => ((VCounts.min?_none_iff hwf1).mp hmin) v
            | some m =>
              right
              exact VCounts.min?_some_spec hwf1 hmin
        · obtain ⟨c, heq, hmc⟩ := hrec' r hr
          refine ⟨c, ?_, hmc⟩
          intro v
          have hr1 : d.endpoint < r.1 := by
            obtain ⟨d2, hd2, he2⟩ := hmem' r hr
            rw [← he2]
            exact hrest_gt d2 hd2
          have hfil : (d :: ds').filter (fun x : Delimiter =>
              decide (x.endpoint ≤ r.1)) =
              (d :: ds'.takeWhile (fun d' => d'.endpoint = d.endpoint)) ++
                (ds'.dropWhile
                  (fun d' => d'.endpoint = d.endpoint)).filter
                  (fun x : Delimiter => decide (x.endpoint ≤ r.1)) := by
            rw [hdecomp]
            exact filter_le_of_groups hgrp_end (le_of_lt hr1)
          rw [hfil, stopCount_append, startCount_append]
          have h5 := heq v
          have h6 := hcnt1 v
          omega


/-- The delimiter list emitted by `Stripes::new` before sorting. -/
def delimsOf (stripes : List Stripe) : List Delimiter :=
  stripes.flatMap fun s =>
    [Delimiter.start s.1.1 s.2, Delimiter.stop s.1.2 s.2]

theorem stripesNew_eq (stripes : List Stripe) :
    Stripes.new stripes =
      match sweep [] ((delimsOf stripes).insertionSort delimLe) with
      | none => none
      | some arranged => some ⟨arranged⟩ := rfl

theorem countP_delimsOf (P : Delimiter → Bool) (stripes : List Stripe) :
    (delimsOf stripes).countP P =
      stripes.countP (fun s => P (Delimiter.start s.1.1 s.2)) +
        stripes.countP (fun s => P (Delimiter.stop s.1.2 s.2)) := by
  induction stripes with
  | nil => rfl
  | cons s rest ih =>
    rw [show delimsOf (s :: rest) = Delimiter.start s.1.1 s.2 ::
      Delimiter.stop s.1.2 s.2 :: delimsOf rest from rfl]
    rw [List.countP_cons, List.countP_cons, ih, List.countP_cons,
      List.countP_cons]
    by_cases h1 : P (Delimiter.start s.1.1 s.2) = true <;>
      by_cases h2 : P (Delimiter.stop s.1.2 s.2) = true <;>
        simp [h1, h2] <;> omega

theorem start_mem_delimsOf {s : Stripe} {stripes : List Stripe}
    (h : s ∈ stripes) : Delimiter.start s.1.1 s.2 ∈ delimsOf stripes := by
  unfold delimsOf
  rw [List.mem_flatMap]
  exact ⟨s, h, by simp⟩

theorem stop_mem_delimsOf {s : Stripe} {stripes : List Stripe}
    (h : s ∈ stripes) : Delimiter.stop s.1.2 s.2 ∈ delimsOf stripes := by
  unfold delimsOf
  rw [List.mem_flatMap]
  exact ⟨s, h, by simp⟩

/-- For well-formed stripes (`a < b`), the sorted delimiter list never
panics: every `End` is preceded by strictly more `Start`s of its value. -/
theorem panFree_delims (stripes : List Stripe)
    (hws : ∀ s ∈ stripes, s.1.1 < s.1.2) :
    PanFree [] ((delimsOf stripes).insertionSort delimLe) := by
  intro v e p q hsplit
  have hpw : List.Pairwise delimLe (p ++ Delimiter.stop e v :: q) := by
    rw [← hsplit]
    exact List.sorted_insertionSort delimLe (delimsOf stripes)
  obtain ⟨hp1, hp2, hp3⟩ := List.pairwise_append.mp hpw
  have hperm : (p ++ Delimiter.stop e v :: q).Perm (delimsOf stripes) := by
    rw [← hsplit]
    exact List.perm_insertionSort delimLe (delimsOf stripes)
  have h1 : stopCount v p + 1 ≤ (delimsOf stripes).countP
      (fun d => isStopOf v d && decide (d.endpoint ≤ e)) := by
    have e1 : stopCount v p + 1 =
        (p ++ [Delimiter.stop e v]).countP (isStopOf v) := by
      rw [List.countP_append]
      have : ([Delimiter.stop e v] : List Delimiter).countP (isStopOf v)
          = 1 := by
        rw [List.countP_cons]
        simp [isStopOf]
      rw [this]
      rfl
    have e2 : (p ++ [Delimiter.stop e v]).countP (isStopOf v) =
        (p ++ [Delimiter.stop e v]).countP
          (fun d => isStopOf v d && decide (d.endpoint ≤ e)) := by
      refine List.countP_congr ?_
      intro x hx
      constructor
      · intro hP
        have hend : x.endpoint ≤ e := by
          rw [List.mem_append, List.mem_singleton] at hx
          rcases hx with hx | hx
          · exact Delimiter.endpoint_le_of_delimLe
              (hp3 x hx _ (List.mem_cons_self _ _))
          · rw [hx]
            exact le_refl e
        simp only [Bool.and_eq_true, decide_eq_true_eq]
        exact ⟨hP, hend⟩
      · intro hP
        simp only [Bool.and_eq_true] at hP
        exact hP.1
    have hsub : List.Sublist (p ++ [Delimiter.stop e v])
        (p ++ Delimiter.stop e v :: q) :=
      List.Sublist.append_left
        (List.cons_sublist_cons.mpr (List.nil_sublist q)) p
    calc stopCount v p + 1
        = (p ++ [Delimiter.stop e v]).countP
            (fun d => isStopOf v d && decide (d.endpoint ≤ e)) := by
          rw [e1, e2]
      _ ≤ (p ++ Delimiter.stop e v :: q).countP
            (fun d => isStopOf v d && decide (d.endpoint ≤ e)) :=
          hsub.countP_le _
      _ = _ := hperm.countP_eq _
  have h2 : (delimsOf stripes).countP
      (fun d => isStopOf v d && decide (d.endpoint ≤ e)) =
      stripes.countP (fun s => decide (s.2 = v) && decide (s.1.2 ≤ e)) := by
    rw [countP_delimsOf]
    have hz : stripes.countP (fun s =>
        isStopOf v (Delimiter.start s.1.1 s.2) &&
          decide ((Delimiter.start s.1.1 s.2).endpoint ≤ e)) = 0 := by
      rw [List.countP_eq_zero]
      intro s _
      simp [isStopOf]
    rw [hz]
    have he : stripes.countP (fun s =>
        isStopOf v (Delimiter.stop s.1.2 s.2) &&
          decide ((Delimiter.stop s.1.2 s.2).endpoint ≤ e)) =
        stripes.countP (fun s => decide (s.2 = v) && decide (s.1.2 ≤ e)) := by
      refine List.countP_congr ?_
      intro s _
      simp [isStopOf, Delimiter.endpoint]
    rw [he]
    omega
  have h3 : stripes.countP (fun s => decide (s.2 = v) && decide (s.1.2 ≤ e))
      ≤ stripes.countP
        (fun s => decide (s.2 = v) && decide (s.1.1 < e)) := by
    refine List.countP_mono_left ?_
    intro s hs hP
    simp only [Bool.and_eq_true, decide_eq_true_eq] at hP ⊢
    exact ⟨hP.1, lt_of_lt_of_le (hws s hs) hP.2⟩
  have h4 : stripes.countP (fun s => decide (s.2 = v) && decide (s.1.1 < e))
      = (p ++ Delimiter.stop e v :: q).countP
        (fun d => isStartOf v d && decide (d.endpoint < e)) := by
    rw [hperm.countP_eq, countP_delimsOf]
    have hz : stripes.countP (fun s =>
        isStartOf v (Delimiter.stop s.1.2 s.2) &&
          decide ((Delimiter.stop s.1.2 s.2).endpoint < e)) = 0 := by
      rw [List.countP_eq_zero]
      intro s _
      simp [isStartOf]
    rw [hz]
    have he : stripes.countP (fun s =>
        isStartOf v (Delimiter.start s.1.1 s.2) &&
          decide ((Delimiter.start s.1.1 s.2).endpoint < e)) =
        stripes.countP (fun s => decide (s.2 = v) && decide (s.1.1 < e)) := by
      refine List.countP_congr ?_
      intro s _
      simp [isStartOf, Delimiter.endpoint]
    rw [he]
    omega
  have h5 : (p ++ Delimiter.stop e v :: q).countP
      (fun d => isStartOf v d && decide (d.endpoint < e)) =
      p.countP (fun d => isStartOf v d && decide (d.endpoint < e)) := by
    rw [List.countP_append]
    have hz : (Delimiter.stop e v :: q).countP
        (fun d => isStartOf v d && decide (d.endpoint < e)) = 0 := by
      rw [List.countP_eq_zero]
      intro x hx hP
      simp only [Bool.and_eq_true, decide_eq_true_eq] at hP
      obtain ⟨hPs, hPe⟩ := hP
      rw [List.mem_cons] at hx
      rcases hx with hx | hx
      · rw [hx] at hPs
        cases hPs
      · obtain ⟨a, ha⟩ : ∃ a, x = Delimiter.start a v := by
          cases x with
          | start a w =>
            have : w = v := by simpa [isStartOf] using hPs
            exact ⟨a, by rw [this]⟩
          | stop a w => simp [isStartOf] at hPs
        have hlt : Delimiter.key x < Delimiter.key (Delimiter.stop e v) := by
          rw [ha]
          refine Delimiter.key_start_lt_stop ?_
          have : x.endpoint = a := by rw [ha]; rfl
          rw [← this]
          exact hPe
        have hge := delimLe_iff.mp (List.rel_of_pairwise_cons hp2 hx)
        exact absurd hge (not_le_of_lt hlt)
    rw [hz]
    omega
  have h6 : p.countP (fun d => isStartOf v d && decide (d.endpoint < e)) ≤
      startCount v p := by
    refine List.countP_mono_left ?_
    intro x _ hP
    simp only [Bool.and_eq_true] at hP
    exact hP.1
  have hc0 : VCounts.countOf v ([] : VCounts) = 0 := rfl
  omega

theorem getD_mono_of_pairwise {xs : List (V × V)}
    (hsort : List.Pairwise (fun r1 r2 => r1.1 < r2.1) xs) :
    ∀ i j, i < j → j < xs.length →
      (xs.getD i (V.fin 0, V.fin 0)).1 < (xs.getD j (V.fin 0, V.fin 0)).1 := by
  intro i j hij hj
  rw [List.getD_eq_getElem _ _ (lt_trans hij hj), List.getD_eq_getElem _ _ hj]
  exact List.pairwise_iff_getElem.mp hsort i j (lt_trans hij hj) hj hij

theorem bsLoop_spec (xs : List (V × V)) (k : V)
    (hsort : List.Pairwise (fun r1 r2 => r1.1 < r2.1) xs) :
    ∀ (fuel lo hi : Nat), hi - lo ≤ fuel → lo ≤ hi → hi ≤ xs.length →
      (∀ i, i < lo → (xs.getD i (V.fin 0, V.fin 0)).1 < k) →
      (∀ i, hi ≤ i → i < xs.length →
        k < (xs.getD i (V.fin 0, V.fin 0)).1) →
      (∀ pos, bsLoop xs k lo hi = .inl pos →
        pos < xs.length ∧ (xs.getD pos (V.fin 0, V.fin 0)).1 = k) ∧
      (∀ pos, bsLoop xs k lo hi = .inr pos →
        pos ≤ xs.length ∧
        (∀ i, i < pos → (xs.getD i (V.fin 0, V.fin 0)).1 < k) ∧
        (∀ i, pos ≤ i → i < xs.length →
          k < (xs.getD i (V.fin 0, V.fin 0)).1)) := by
  intro fuel
  induction fuel with
  | zero =>
    intro lo hi hfuel hlh hlen hlow hhigh
    have heq : bsLoop xs k lo hi = .inr lo := by
      rw [bsLoop, dif_neg (by omega : ¬ lo < hi)]
    rw [heq]
    constructor
    · intro pos hpos
      cases hpos
    · intro pos hpos
      injection hpos with hpos
      subst hpos
      exact ⟨by omega, hlow, fun i hi1 hi2 => hhigh i (by omega) hi2⟩
  | succ n ih =>
    intro lo hi hfuel hlh hlen hlow hhigh
    by_cases h : lo < hi
    · have hmid1 : lo ≤ (lo + hi) / 2 := by omega
      have hmid2 : (lo + hi) / 2 < hi := by omega
      cases hcmp : V.cmp (xs.getD ((lo + hi) / 2) (V.fin 0, V.fin 0)).1 k with
      | lt =>
        have heq : bsLoop xs k lo hi = bsLoop xs k ((lo + hi) / 2 + 1) hi := by
          rw [bsLoop, dif_pos h]
          dsimp only
          rw [hcmp]
        rw [heq]
        have hmidlt := V.cmp_lt_iff'.mp hcmp
        refine ih ((lo + hi) / 2 + 1) hi (by omega) (by omega) hlen ?_ hhigh
        intro i hi1
        rcases Nat.lt_or_ge i ((lo + hi) / 2) with h2 | h2
        · exact lt_trans
            (getD_mono_of_pairwise hsort i ((lo + hi) / 2) h2 (by omega))
            hmidlt
        · have : i = (lo + hi) / 2 := by omega
          rw [this]
          exact hmidlt
      | gt =>
        have heq : bsLoop xs k lo hi = bsLoop xs k lo ((lo + hi) / 2) := by
          rw [bsLoop, dif_pos h]
          dsimp only
          rw [hcmp]
        rw [heq]
        have hmidgt := V.cmp_gt_iff'.mp hcmp
        refine ih lo ((lo + hi) / 2) (by omega) (by omega) (by omega) hlow ?_
        intro i hi1 hi2
        rcases Nat.lt_or_ge ((lo + hi) / 2) i with h2 | h2
        · exact lt_trans hmidgt
            (getD_mono_of_pairwise hsort ((lo + hi) / 2) i h2 hi2)
        · have : i = (lo + hi) / 2 := by omega
          rw [this]
          exact hmidgt
      | eq =>
        have heq : bsLoop xs k lo hi = .inl ((lo + hi) / 2) := by
          rw [bsLoop, dif_pos h]
          dsimp only
          rw [hcmp]
        rw [heq]
        constructor
        · intro pos hpos
          injection hpos with hpos
          subst hpos
          exact ⟨by omega, V.cmp_eq_iff.mp hcmp⟩
        · intro pos hpos
          cases hpos
    · have heq : bsLoop xs k lo hi = .inr lo := by
        rw [bsLoop, dif_neg h]
      rw [heq]
      constructor
      · intro pos hpos
        cases hpos
      · intro pos hpos
        injection hpos with hpos
        subst hpos
        exact ⟨by omega, hlow, fun i hi1 hi2 => hhigh i (by omega) hi2⟩

theorem binarySearch_spec (xs : List (V × V)) (k : V)
    (hsort : List.Pairwise (fun r1 r2 => r1.1 < r2.1) xs) :
    (∀ pos, binarySearch xs k = .inl pos →
      pos < xs.length ∧ (xs.getD pos (V.fin 0, V.fin 0)).1 = k) ∧
    (∀ pos, binarySearch xs k = .inr pos →
      pos ≤ xs.length ∧
      (∀ i, i < pos → (xs.getD i (V.fin 0, V.fin 0)).1 < k) ∧
      (∀ i, pos ≤ i → i < xs.length →
        k < (xs.getD i (V.fin 0, V.fin 0)).1)) := by
  unfold binarySearch
  exact bsLoop_spec xs k hsort xs.length 0 xs.length (by omega) (by omega)
    (le_refl _) (fun i hi => absurd hi (Nat.not_lt_zero i))
    (fun i hi1 hi2 => absurd hi2 (by omega))

theorem key_unique {recs : List (V × V)}
    (hsort : List.Pairwise (fun r1 r2 => r1.1 < r2.1) recs) :
    ∀ {r r' : V × V}, r ∈ recs → r' ∈ recs → r.1 = r'.1 → r = r' := by
  induction recs with
  | nil => intro r r' hr; cases hr
  | cons a t ih =>
    intro r r' hr hr' he
    rw [List.mem_cons] at hr hr'
    rcases hr with hr | hr <;> rcases hr' with hr' | hr'
    · rw [hr, hr']
    · rw [hr] at he
      have := List.rel_of_pairwise_cons hsort hr'
      rw [he] at this
      exact absurd this (lt_irrefl _)
    · rw [hr'] at he
      have := List.rel_of_pairwise_cons hsort hr
      rw [he] at this
      exact absurd this (lt_irrefl _)
    · exact ih hsort.of_cons hr hr' he

theorem exists_max_key {L : List (V × V)} {x : V} :
    (∃ r ∈ L, r.1 ≤ x) →
      ∃ r ∈ L, r.1 ≤ x ∧ ∀ r' ∈ L, r'.1 ≤ x → r'.1 ≤ r.1 := by
  induction L with
  | nil =>
    intro h
    obtain ⟨r, hr, _⟩ := h
    cases hr
  | cons a t ih =>
    intro h
    by_cases ht : ∃ r ∈ t, r.1 ≤ x
    · obtain ⟨rm, hrm, hrle, hrmax⟩ := ih ht
      by_cases ha : a.1 ≤ x
      · rcases le_total a.1 rm.1 with hc | hc
        · refine ⟨rm, List.mem_cons_of_mem _ hrm, hrle, ?_⟩
          intro r' hr' hx'
          rw [List.mem_cons] at hr'
          rcases hr' with hr' | hr'
          · rw [hr']
            exact hc
          · exact hrmax r' hr' hx'
        · refine ⟨a, List.mem_cons_self _ _, ha, ?_⟩
          intro r' hr' hx'
          rw [List.mem_cons] at hr'
          rcases hr' with hr' | hr'
          · rw [hr']
          · exact le_trans (hrmax r' hr' hx') hc
      · refine ⟨rm, List.mem_cons_of_mem _ hrm, hrle, ?_⟩
        intro r' hr' hx'
        rw [List.mem_cons] at hr'
        rcases hr' with hr' | hr'
        · rw [hr'] at hx'
          exact absurd hx' ha
        · exact hrmax r' hr' hx'
    · obtain ⟨r, hr, hrx⟩ := h
      rw [List.mem_cons] at hr
      rcases hr with hr | hr
      · refine ⟨a, List.mem_cons_self _ _, hr ▸ hrx, ?_⟩
        intro r' hr' hx'
        rw [List.mem_cons] at hr'
        rcases hr' with hr' | hr'
        · rw [hr']
        · exact absurd ⟨r', hr', hx'⟩ ht
      · exact absurd ⟨r, hr, hrx⟩ ht

/-- `contains_point` answers with the record of the greatest endpoint
`≤ x`, and `false` when every record lies strictly beyond `x`. -/
theorem containsPoint_iff_maxRec {recs : List (V × V)}
    (hsort : List.Pairwise (fun r1 r2 => r1.1 < r2.1) recs) (p : V × V) :
    Stripes.containsPoint ⟨recs⟩ p = true ↔
      ∃ r ∈ recs, r.1 ≤ p.1 ∧ (∀ r' ∈ recs, r'.1 ≤ p.1 → r'.1 ≤ r.1) ∧
        r.2 ≤ p.2 := by
  obtain ⟨hinl, hinr⟩ := binarySearch_spec recs p.1 hsort
  cases hbs : binarySearch recs p.1 with
  | inl pos =>
    obtain ⟨hlt, heq⟩ := hinl pos hbs
    have hcp : Stripes.containsPoint ⟨recs⟩ p =
        V.le ((recs.getD pos (V.fin 0, V.fin 0)).2) p.2 := by
      unfold Stripes.containsPoint
      rw [show binarySearch (Stripes.mk recs).arrangedStripes p.1 =
        Sum.inl pos from hbs]
    rw [hcp, ← V.le_iff_inst]
    have hrmem : recs.getD pos (V.fin 0, V.fin 0) ∈ recs := by
      rw [List.getD_eq_getElem _ _ hlt]
      exact List.getElem_mem hlt
    constructor
    · intro hv
      refine ⟨_, hrmem, le_of_eq heq, ?_, hv⟩
      intro r' hr' hx'
      rw [heq]
      exact hx'
    · rintro ⟨rb, hmb, hleb, hmaxb, hvb⟩
      have h1 : rb.1 ≤ (recs.getD pos (V.fin 0, V.fin 0)).1 :=
        le_of_le_of_eq hleb heq.symm
      have h2 := hmaxb _ hrmem (le_of_eq heq)
      have hu := key_unique hsort hrmem hmb (le_antisymm h2 h1)
      rw [hu]
      exact hvb
  | inr pos =>
    obtain ⟨hple, hlow, hhigh⟩ := hinr pos hbs
    by_cases hp0 : pos = 0
    · have hcp : Stripes.containsPoint ⟨recs⟩ p = false := by
        unfold Stripes.containsPoint
        rw [show binarySearch (Stripes.mk recs).arrangedStripes p.1 =
          Sum.inr pos from hbs]
        dsimp only
        rw [if_pos hp0]
      rw [hcp]
      refine iff_of_false (by simp) ?_
      rintro ⟨r, hr, hler, _, _⟩
      obtain ⟨i, hilen, hri⟩ := List.mem_iff_getElem.mp hr
      have hgt := hhigh i (by omega) hilen
      rw [List.getD_eq_getElem _ _ hilen, hri] at hgt
      exact absurd hler (not_le_of_lt hgt)
    · have hcp : Stripes.containsPoint ⟨recs⟩ p =
          V.le ((recs.getD (pos - 1) (V.fin 0, V.fin 0)).2) p.2 := by
        unfold Stripes.containsPoint
        rw [show binarySearch (Stripes.mk recs).arrangedStripes p.1 =
          Sum.inr pos from hbs]
        dsimp only
        rw [if_neg hp0]
      rw [hcp, ← V.le_iff_inst]
      have hplt : pos - 1 < recs.length := by omega
      have hrmem : recs.getD (pos - 1) (V.fin 0, V.fin 0) ∈ recs := by
        rw [List.getD_eq_getElem _ _ hplt]
        exact List.getElem_mem hplt
      have hrle : (recs.getD (pos - 1) (V.fin 0, V.fin 0)).1 ≤ p.1 :=
        le_of_lt (hlow (pos - 1) (by omega))
      have hrmax : ∀ r' ∈ recs, r'.1 ≤ p.1 →
          r'.1 ≤ (recs.getD (pos - 1) (V.fin 0, V.fin 0)).1 := by
        intro r' hr' hx'
        obtain ⟨i, hilen, hri⟩ := List.mem_iff_getElem.mp hr'
        rcases Nat.lt_or_ge i pos with hip | hip
        · rcases Nat.lt_or_ge i (pos - 1) with hip1 | hip1
          · have hmono := getD_mono_of_pairwise hsort i (pos - 1) hip1 hplt
            rw [List.getD_eq_getElem _ _ hilen, hri] at hmono
            exact le_of_lt hmono
          · have hieq : i = pos - 1 := by omega
            subst hieq
            rw [List.getD_eq_getElem _ _ hilen, hri]
        · have hgt := hhigh i hip hilen
          rw [List.getD_eq_getElem _ _ hilen, hri] at hgt
          exact absurd hx' (not_le_of_lt hgt)
      constructor
      · intro hv
        exact ⟨_, hrmem, hrle, hrmax, hv⟩
      · rintro ⟨rb, hmb, hleb, hmaxb, hvb⟩
        have h1 := hrmax rb hmb hleb
        have h2 := hmaxb _ hrmem hrle
        have hu := key_unique hsort hrmem hmb (le_antisymm h2 h1)
        rw [hu]
        exact hvb

theorem countP_and_split {α : Type} (P Q : α → Bool) (l : List α) :
    l.countP P = l.countP (fun a => P a && Q a) +
      l.countP (fun a => P a && !Q a) := by
  induction l with
  | nil => rfl
  | cons a t ih =>
    rw [List.countP_cons, List.countP_cons, List.countP_cons, ih]
    by_cases h1 : P a = true <;> by_cases h2 : Q a = true <;>
      simp [h1, h2] <;> omega

theorem stopCount_filter_eq (stripes : List Stripe) (v e : V) :
    stopCount v (((delimsOf stripes).insertionSort delimLe).filter
        (fun x : Delimiter => decide (x.endpoint ≤ e))) =
      stripes.countP (fun s => decide (s.2 = v) && decide (s.1.2 ≤ e)) := by
  unfold stopCount
  rw [List.countP_filter]
  rw [(List.perm_insertionSort delimLe (delimsOf stripes)).countP_eq]
  rw [countP_delimsOf]
  have hz : stripes.countP (fun s =>
      isStopOf v (Delimiter.start s.1.1 s.2) &&
        decide ((Delimiter.start s.1.1 s.2).endpoint ≤ e)) = 0 := by
    rw [List.countP_eq_zero]
    intro s _
    simp [isStopOf]
  have he : stripes.countP (fun s =>
      isStopOf v (Delimiter.stop s.1.2 s.2) &&
        decide ((Delimiter.stop s.1.2 s.2).endpoint ≤ e)) =
      stripes.countP (fun s => decide (s.2 = v) && decide (s.1.2 ≤ e)) := by
    refine List.countP_congr ?_
    intro s _
    simp [isStopOf, Delimiter.endpoint]
  rw [hz, he]
  omega

theorem startCount_filter_eq (stripes : List Stripe) (v e : V) :
    startCount v (((delimsOf stripes).insertionSort delimLe).filter
        (fun x : Delimiter => decide (x.endpoint ≤ e))) =
      stripes.countP (fun s => decide (s.2 = v) && decide (s.1.1 ≤ e)) := by
  unfold startCount
  rw [List.countP_filter]
  rw [(List.perm_insertionSort delimLe (delimsOf stripes)).countP_eq]
  rw [countP_delimsOf]
  have hz : stripes.countP (fun s =>
      isStartOf v (Delimiter.stop s.1.2 s.2) &&
        decide ((Delimiter.stop s.1.2 s.2).endpoint ≤ e)) = 0 := by
    rw [List.countP_eq_zero]
    intro s _
    simp [isStartOf]
  have he : stripes.countP (fun s =>
      isStartOf v (Delimiter.start s.1.1 s.2) &&
        decide ((Delimiter.start s.1.1 s.2).endpoint ≤ e)) =
      stripes.countP (fun s => decide (s.2 = v) && decide (s.1.1 ≤ e)) := by
    refine List.countP_congr ?_
    intro s _
    simp [isStartOf, Delimiter.endpoint]
  rw [hz, he]
  omega

theorem V.eq_top_of_top_le {y : V} (h : V.maxValue ≤ y) : y = V.maxValue := by
  cases y with
  | fin n =>
    rw [V.le_iff_inst] at h
    simp [V.le, V.maxValue] at h
  | top => rfl

/-- The count record of `sweep` at endpoint `e` equals the number of
stripes of each value active at `e` (`a ≤ e < b`). -/
theorem active_count_eq (stripes : List Stripe)
    (hws : ∀ s ∈ stripes, s.1.1 < s.1.2) (e : V) (c : V → Nat)
    (hceq : ∀ v, c v +
        stopCount v (((delimsOf stripes).insertionSort delimLe).filter
          (fun x : Delimiter => decide (x.endpoint ≤ e))) =
      VCounts.countOf v ([] : VCounts) +
        startCount v (((delimsOf stripes).insertionSort delimLe).filter
          (fun x : Delimiter => decide (x.endpoint ≤ e)))) :
    ∀ v, c v = stripes.countP (fun s =>
      decide (s.2 = v) && (decide (s.1.1 ≤ e) && !decide (s.1.2 ≤ e))) := by
  intro v
  have h1 := hceq v
  rw [stopCount_filter_eq, startCount_filter_eq] at h1
  have hc0 : VCounts.countOf v ([] : VCounts) = 0 := rfl
  have hsplit := countP_and_split
    (fun s : Stripe => decide (s.2 = v) && decide (s.1.1 ≤ e))
    (fun s : Stripe => decide (s.1.2 ≤ e)) stripes
  have he1 : stripes.countP (fun s =>
      (decide (s.2 = v) && decide (s.1.1 ≤ e)) && decide (s.1.2 ≤ e)) =
      stripes.countP (fun s => decide (s.2 = v) && decide (s.1.2 ≤ e)) := by
    refine List.countP_congr ?_
    intro s hs
    simp only [Bool.and_eq_true, decide_eq_true_eq]
    constructor
    · rintro ⟨⟨hv, _⟩, hb⟩
      exact ⟨hv, hb⟩
    · rintro ⟨hv, hb⟩
      exact ⟨⟨hv, le_trans (le_of_lt (hws s hs)) hb⟩, hb⟩
  have he2 : stripes.countP (fun s =>
      (decide (s.2 = v) && decide (s.1.1 ≤ e)) && !decide (s.1.2 ≤ e)) =
      stripes.countP (fun s =>
        decide (s.2 = v) && (decide (s.1.1 ≤ e) && !decide (s.1.2 ≤ e))) := by
    refine List.countP_congr ?_
    intro s _
    simp only [Bool.and_eq_true]
    constructor
    · rintro ⟨⟨hv, ha⟩, hb⟩
      exact ⟨hv, ha, hb⟩
    · rintro ⟨hv, ha, hb⟩
      exact ⟨⟨hv, ha⟩, hb⟩
  omega

/-- **C3 counterexample.** The claim fails in two ways. A degenerate
stripe whose interval is reversed makes `Stripes::new` panic
(`self.values[&v]` on a missing key), embedded as `none`. And even for a
well-formed stripe family, a query at `y = VF::max_value()` beyond the
last stripe is answered `true` by the binary search (the sentinel record
`(b, VF::max)` compares `≤ y`), while no stripe covers the point. -/
theorem c3_counterexample :
    Stripes.new [((V.fin 1, V.fin 0), V.fin 0)] = none ∧
    Stripes.new [((V.fin 0, V.fin 1), V.fin 0)] =
      some ⟨[(V.fin 0, V.fin 0), (V.fin 1, V.top)]⟩ ∧
    (Stripes.mk [(V.fin 0, V.fin 0), (V.fin 1, V.top)]).containsPoint
      (V.fin 5, V.top) = true ∧
    ¬ ∃ s ∈ [((V.fin 0, V.fin 1), V.fin 0)],
        s.1.1 ≤ (V.fin 5 : V) ∧ (V.fin 5 : V) < s.1.2 ∧
          s.2 ≤ (V.top : V) := by
  refine ⟨?_, ?_, ?_, ?_⟩
  · rw [stripesNew_eq]
    rw [show (delimsOf [((V.fin 1, V.fin 0), V.fin 0)]).insertionSort delimLe
      = [Delimiter.stop (V.fin 0) (V.fin 0),
         Delimiter.start (V.fin 1) (V.fin 0)] from by decide]
    rw [sweep_cons_eq]
    simp +decide [processGroup, addDelimiter, VCounts.get?]
  · rw [stripesNew_eq]
    rw [show (delimsOf [((V.fin 0, V.fin 1), V.fin 0)]).insertionSort delimLe
      = [Delimiter.start (V.fin 0) (V.fin 0),
         Delimiter.stop (V.fin 1) (V.fin 0)] from by decide]
    rw [sweep_cons_eq]
    simp +decide [processGroup, addDelimiter, VCounts.get?, VCounts.incr,
      VCounts.min?, VCounts.removeKey, sweep_cons_eq, sweep, V.maxValue]
  · simp +decide [Stripes.containsPoint, binarySearch, bsLoop, V.cmp, V.le]
  · decide

/-- **C3** (amended). `Stripes::new` panics on degenerate stripes, and the
binary-searched query can differ from the linear scan at
`y = VF::max_value()` past the last record. For well-formed stripes
(`a < b`) construction succeeds, and for every query point whose second
coordinate is below the sentinel `VF::max_value()` the binary-searched
answer equals the linear-scan reference: some stripe `((a,b),v)` of the
family satisfies `a ≤ x < b` and `v ≤ y`. -/
theorem c3_stripe_query (stripes : List Stripe)
    (hws : ∀ s ∈ stripes, s.1.1 < s.1.2) (p : V × V)
    (hy : p.2 ≠ V.maxValue) :
    ∃ S, Stripes.new stripes = some S ∧
      (S.containsPoint p = true ↔
        ∃ s ∈ stripes, s.1.1 ≤ p.1 ∧ p.1 < s.1.2 ∧ s.2 ≤ p.2) := by
  have hsort_sl := List.sorted_insertionSort delimLe (delimsOf stripes)
  have hperm := List.perm_insertionSort delimLe (delimsOf stripes)
  obtain ⟨recs, hsweep, hmem, hall, hsortr, hrec⟩ :=
    sweep_spec ((delimsOf stripes).insertionSort delimLe).length
      ((delimsOf stripes).insertionSort delimLe) (le_refl _) []
      ⟨List.Pairwise.nil, fun q hq => absurd hq (List.not_mem_nil q)⟩
      hsort_sl (panFree_delims stripes hws)
  refine ⟨⟨recs⟩, ?_, ?_⟩
  · rw [stripesNew_eq, hsweep]
  · rw [containsPoint_iff_maxRec hsortr p]
    have htrans : ∀ r ∈ recs, r.1 ≤ p.1 →
        (∀ r' ∈ recs, r'.1 ≤ p.1 → r'.1 ≤ r.1) →
        ∃ c : V → Nat,
          (∀ v, c v = stripes.countP (fun s =>
            decide (s.2 = v) &&
              (decide (s.1.1 ≤ p.1) && !decide (s.1.2 ≤ p.1)))) ∧
          MinOfCounts c r.2 := by
      intro r hr hrle hrmax
      obtain ⟨c, hceq, hmc⟩ := hrec r hr
      have hcv := active_count_eq stripes hws r.1 c hceq
      have hmaxend : ∀ q : V, (∃ dd ∈ delimsOf stripes, dd.endpoint = q) →
          q ≤ p.1 → q ≤ r.1 := by
        rintro q ⟨dd, hdd, hde⟩ hqle
        obtain ⟨r', hr', he'⟩ := hall dd (hperm.mem_iff.mpr hdd)
        have h1 : r'.1 ≤ p.1 := by
          rw [he', hde]
          exact hqle
        have h2 := hrmax r' hr' h1
        rw [he', hde] at h2
        exact h2
      refine ⟨c, ?_, hmc⟩
      intro v
      rw [hcv v]
      refine List.countP_congr ?_
      intro s hs
      simp only [Bool.and_eq_true, Bool.not_eq_true', decide_eq_true_eq,
        decide_eq_false_iff_not]
      constructor
      · rintro ⟨hv, ha, hb⟩
        refine ⟨hv, le_trans ha hrle, ?_⟩
        intro hble
        exact hb (hmaxend s.1.2 ⟨_, stop_mem_delimsOf hs, rfl⟩ hble)
      · rintro ⟨hv, ha, hb⟩
        refine ⟨hv, ?_, ?_⟩
        · exact hmaxend s.1.1 ⟨_, start_mem_delimsOf hs, rfl⟩ ha
        · intro hble
          exact hb (le_trans hble hrle)
    constructor
    · rintro ⟨r, hr, hrle, hrmax, hrval⟩
      obtain ⟨c, hcov, hmc⟩ := htrans r hr hrle hrmax
      rcases hmc with ⟨hmtop, _⟩ | ⟨hpos, _⟩
      · exfalso
        rw [hmtop] at hrval
        exact hy (V.eq_top_of_top_le hrval)
      · rw [hcov r.2] at hpos
        obtain ⟨s, hs, hP⟩ := List.countP_pos_iff.mp hpos
        simp only [Bool.and_eq_true, Bool.not_eq_true', decide_eq_true_eq,
          decide_eq_false_iff_not] at hP
        obtain ⟨hv, ha, hb⟩ := hP
        exact ⟨s, hs, ha, not_le.mp hb, le_of_eq_of_le hv hrval⟩
    · rintro ⟨s, hs, ha, hb, hv⟩
      have hsl : Delimiter.start s.1.1 s.2 ∈
          (delimsOf stripes).insertionSort delimLe :=
        hperm.mem_iff.mpr (start_mem_delimsOf hs)
      obtain ⟨r0, hr0, he0⟩ := hall _ hsl
      have hex : ∃ r ∈ recs, r.1 ≤ p.1 := by
        refine ⟨r0, hr0, ?_⟩
        rw [he0]
        exact ha
      obtain ⟨r, hr, hrle, hrmax⟩ := exists_max_key hex
      obtain ⟨c, hcov, hmc⟩ := htrans r hr hrle hrmax
      have hcpos : 0 < c s.2 := by
        rw [hcov s.2, List.countP_pos_iff]
        refine ⟨s, hs, ?_⟩
        simp only [Bool.and_eq_true, Bool.not_eq_true', decide_eq_true_eq,
          decide_eq_false_iff_not]
        exact ⟨trivial, ha, not_le.mpr hb⟩
      rcases hmc with ⟨_, hzero⟩ | ⟨_, hmin⟩
      · rw [hzero s.2] at hcpos
        omega
      · exact ⟨r, hr, hrle, hrmax, le_trans (hmin s.2 hcpos) hv⟩

theorem c3_stripe_query_witness :
    ∃ S, Stripes.new [((V.fin 0, V.fin 10), V.fin 5)] = some S ∧
      (S.containsPoint (V.fin 5, V.fin 5) = true ↔
        ∃ s ∈ [((V.fin 0, V.fin 10), V.fin 5)],
          s.1.1 ≤ (V.fin 5 : V) ∧ (V.fin 5 : V) < s.1.2 ∧
            s.2 ≤ (V.fin 5 : V)) :=
  c3_stripe_query [((V.fin 0, V.fin 10), V.fin 5)] (by decide)
    (V.fin 5, V.fin 5) (by decide)

end FiltrationDomination
